import Mathlib

/-!
Shallow embedding of the grid-search engine of the Demo_search repository
(src/algorithms/{types,bfs,dfs,ucs,greedy,astar}.ts) together with proofs of
the spec claims about it.

Modelling notes:
* A grid cell in the source is a record with fields x, y and a terrain type,
  under the invariant that the cell stored at grid[x][y] carries exactly the
  coordinates (x, y).  The algorithms only ever read grid[x][y].type, so a
  grid is embedded as a 2D list of cell types.
* JavaScript numbers used by the engine are nonnegative integers throughout
  (coordinates, costs); they are embedded as Nat.  No arithmetic in the
  engine can overflow or go negative.
* The cell identifier idOf x y = "x,y" is injective on pairs of naturals,
  and the algorithms parse identifiers back into points.  Identifiers are
  therefore embedded as the points themselves; parsing is the identity.
* Maps keyed by identifiers (Record<string, ...>) are embedded as
  association lists where assignment prepends a (key, value) pair and
  lookup takes the first match, which models JavaScript overwrite.
* The timeMs field measures wall-clock time and is not modelled; every
  other field of SearchResult is.
* while-loops are embedded with an explicit fuel argument.  The top-level
  entry points pass fuel R*C+1, which is proved sufficient below: every
  loop iteration pops one frontier entry and each grid cell is popped at
  most once, so the fuel case is never reached on in-bounds inputs.
-/

set_option maxHeartbeats 1000000

namespace DemoSearch

/-- Terrain type of a grid cell (types.ts, CellType). -/
inductive CellType where
  | empty
  | wall
  | weight
deriving DecidableEq

/-- A grid coordinate pair (types.ts, Point). -/
structure Point where
  x : Nat
  y : Nat
deriving DecidableEq

/-- A grid is a 2D array of cells; only the terrain type of each cell is
relevant to the engine (see modelling notes). -/
abbrev Grid := List (List CellType)

/-- Number of columns: grid[0]?.length ?? 0. -/
def cols (grid : Grid) : Nat :=
  match grid with
  | [] => 0
  | row :: _ => row.length

/-- Terrain lookup grid[x][y].type.  Out-of-bounds access defaults to empty;
the algorithms only perform in-bounds lookups. -/
def cellAt (grid : Grid) (x y : Nat) : CellType :=
  (grid.getD x []).getD y CellType.empty

/-- Per-step cost of entering a cell: 5 for weight, 1 otherwise
(the expression grid[p.x][p.y].type === "weight" ? 5 : 1 used by every
algorithm; costOf in types.ts). -/
def stepCost (grid : Grid) (p : Point) : Nat :=
  if cellAt grid p.x p.y = CellType.weight then 5 else 1

/-- The up-to-4 orthogonal neighbors inside the grid, in the fixed order
up, down, left, right (types.ts, neighbors4). -/
def neighbors4 (x y R C : Nat) : List Point :=
  (if 0 < x then [⟨x - 1, y⟩] else []) ++
  (if x < R - 1 then [⟨x + 1, y⟩] else []) ++
  (if 0 < y then [⟨x, y - 1⟩] else []) ++
  (if y < C - 1 then [⟨x, y + 1⟩] else [])

/-- Manhattan distance (types.ts, manhattan). -/
def manhattan (a b : Point) : Nat :=
  Nat.dist a.x b.x + Nat.dist a.y b.y

/-- First-match lookup in an association list; models reading a
JavaScript Record keyed by cell identifiers. -/
def assocFind {α : Type} : List (Point × α) → Point → Option α
  | [], _ => none
  | (a, b) :: rest, k => if a = k then some b else assocFind rest k

/-- Backward walk of reconstructPath (types.ts): follow predecessor links
from cur while they exist.  The source walks an acyclic map produced by the
algorithms; the fuel argument (one more than the map size) is enough for
every acyclic chain. -/
def reconstructPathAux (came : List (Point × Point)) : Nat → Point → List Point
  | 0, _ => []
  | fuel + 1, cur =>
    cur ::
      (match assocFind came cur with
       | none => []
       | some prev => reconstructPathAux came fuel prev)

/-- reconstructPath (types.ts): collect identifiers backward from the goal,
then reverse into start-to-goal order. -/
def reconstructPath (came : List (Point × Point)) (goalId : Point) : List Point :=
  (reconstructPathAux came (came.length + 1) goalId).reverse

/-- The engine's uniform result record (types.ts, SearchResult), minus the
wall-clock timeMs field (see modelling notes). -/
structure SearchResult where
  found : Bool
  path : List Point
  visitedOrder : List Point
  nodesExpanded : Nat
  pathLength : Nat
  totalCost : Nat
  frontierPeak : Nat
  visitedPeak : Nat
  frontierSnapshots : List (List Point)
deriving DecidableEq

/-- The all-empty unfound result returned for degenerate grids and for
walled start/goal cells. -/
def emptyResult : SearchResult :=
  { found := false, path := [], visitedOrder := [], nodesExpanded := 0,
    pathLength := 0, totalCost := 0, frontierPeak := 0, visitedPeak := 0,
    frontierSnapshots := [] }

/-- Post-hoc path cost used by BFS/DFS/Greedy: sum of per-cell costs along
the reconstructed path, skipping the start cell (the for-loop starting at
index 1 in the sources). -/
def pathTotalCost (grid : Grid) (path : List Point) : Nat :=
  ((path.drop 1).map (fun p => stepCost grid p)).sum

/-! ### BFS (bfs.ts) -/

/-- Local state of the BFS while-loop. -/
structure BfsState where
  queue : List Point
  seen : List Point
  cameFrom : List (Point × Point)
  visitedOrder : List Point
  frontierPeak : Nat
  visitedPeak : Nat
  frontierSnapshots : List (List Point)

/-- The unfound result assembled when the BFS frontier is exhausted. -/
def bfsNotFound (st : BfsState) : SearchResult :=
  { found := false, path := [], visitedOrder := st.visitedOrder,
    nodesExpanded := st.visitedOrder.length, pathLength := 0, totalCost := 0,
    frontierPeak := st.frontierPeak, visitedPeak := st.visitedPeak,
    frontierSnapshots := st.frontierSnapshots }

/-- The inner neighbor loop of BFS: skip walls and already-seen nodes,
otherwise mark seen, record the predecessor, enqueue at the back and track
the frontier peak. -/
def bfsExpand (grid : Grid) (cur : Point) :
    List Point → List Point → List Point → List (Point × Point) → Nat →
    List Point × List Point × List (Point × Point) × Nat
  | [], queue, seen, came, fp => (queue, seen, came, fp)
  | nb :: rest, queue, seen, came, fp =>
    if cellAt grid nb.x nb.y = CellType.wall then
      bfsExpand grid cur rest queue seen came fp
    else if nb ∈ seen then
      bfsExpand grid cur rest queue seen came fp
    else
      bfsExpand grid cur rest (queue ++ [nb]) (nb :: seen) ((nb, cur) :: came)
        (max fp (queue.length + 1))

/-- The BFS while-loop: FIFO dequeue, goal test on the dequeued node, then
neighbor expansion and a frontier snapshot. -/
def bfsLoop (grid : Grid) (R C : Nat) (goal : Point) :
    Nat → BfsState → SearchResult
  | 0, st => bfsNotFound st
  | fuel + 1, st =>
    match st.queue with
    | [] => bfsNotFound st
    | cur :: qrest =>
      let visited2 := st.visitedOrder ++ [cur]
      let vp2 := max st.visitedPeak visited2.length
      if cur = goal then
        let ids := reconstructPath st.cameFrom goal
        { found := true, path := ids, visitedOrder := visited2,
          nodesExpanded := visited2.length,
          pathLength := max 0 (ids.length - 1),
          totalCost := pathTotalCost grid ids,
          frontierPeak := st.frontierPeak, visitedPeak := vp2,
          frontierSnapshots := st.frontierSnapshots ++ [qrest] }
      else
        let e := bfsExpand grid cur (neighbors4 cur.x cur.y R C)
          qrest st.seen st.cameFrom st.frontierPeak
        bfsLoop grid R C goal fuel
          { queue := e.1, seen := e.2.1, cameFrom := e.2.2.1,
            visitedOrder := visited2, frontierPeak := e.2.2.2,
            visitedPeak := vp2,
            frontierSnapshots := st.frontierSnapshots ++ [e.1] }

/-- bfs (bfs.ts): degenerate-grid check, start==goal short-circuit, wall
check, then the FIFO loop. -/
def bfs (grid : Grid) (start goal : Point) : SearchResult :=
  let R := grid.length
  let C := cols grid
  if R = 0 ∨ C = 0 then emptyResult
  else if start = goal then
    { found := true, path := [start], visitedOrder := [], nodesExpanded := 0,
      pathLength := 0, totalCost := 0, frontierPeak := 1, visitedPeak := 0,
      frontierSnapshots := [] }
  else if cellAt grid start.x start.y = CellType.wall ∨
      cellAt grid goal.x goal.y = CellType.wall then emptyResult
  else
    bfsLoop grid R C goal (R * C + 1)
      { queue := [start], seen := [start], cameFrom := [], visitedOrder := [],
        frontierPeak := 1, visitedPeak := 0, frontierSnapshots := [] }

/-! ### DFS (dfs.ts) -/

/-- Pop from the back of a JavaScript array (Array.prototype.pop), returning
the popped element and the remaining array. -/
def popLast : List Point → Option (Point × List Point)
  | [] => none
  | [a] => some (a, [])
  | a :: b :: rest =>
    match popLast (b :: rest) with
    | none => none
    | some (c, rest2) => some (c, a :: rest2)

/-- Local state of the DFS while-loop. -/
structure DfsState where
  stack : List Point
  seen : List Point
  cameFrom : List (Point × Point)
  visitedOrder : List Point
  frontierPeak : Nat
  visitedPeak : Nat
  frontierSnapshots : List (List Point)

/-- The unfound result assembled when the DFS stack is exhausted. -/
def dfsNotFound (st : DfsState) : SearchResult :=
  { found := false, path := [], visitedOrder := st.visitedOrder,
    nodesExpanded := st.visitedOrder.length, pathLength := 0, totalCost := 0,
    frontierPeak := st.frontierPeak, visitedPeak := st.visitedPeak,
    frontierSnapshots := st.frontierSnapshots }

/-- The inner neighbor loop of DFS; identical to BFS's except that pushes go
onto the stack (the caller passes the neighbors already reversed). -/
def dfsExpand (grid : Grid) (cur : Point) :
    List Point → List Point → List Point → List (Point × Point) → Nat →
    List Point × List Point × List (Point × Point) × Nat
  | [], stack, seen, came, fp => (stack, seen, came, fp)
  | nb :: rest, stack, seen, came, fp =>
    if cellAt grid nb.x nb.y = CellType.wall then
      dfsExpand grid cur rest stack seen came fp
    else if nb ∈ seen then
      dfsExpand grid cur rest stack seen came fp
    else
      dfsExpand grid cur rest (stack ++ [nb]) (nb :: seen) ((nb, cur) :: came)
        (max fp (stack.length + 1))

/-- The DFS while-loop: LIFO pop, goal test, then expansion of the reversed
neighbor list and a frontier snapshot. -/
def dfsLoop (grid : Grid) (R C : Nat) (goal : Point) :
    Nat → DfsState → SearchResult
  | 0, st => dfsNotFound st
  | fuel + 1, st =>
    match popLast st.stack with
    | none => dfsNotFound st
    | some (cur, srest) =>
      let visited2 := st.visitedOrder ++ [cur]
      let vp2 := max st.visitedPeak visited2.length
      if cur = goal then
        let ids := reconstructPath st.cameFrom goal
        { found := true, path := ids, visitedOrder := visited2,
          nodesExpanded := visited2.length,
          pathLength := max 0 (ids.length - 1),
          totalCost := pathTotalCost grid ids,
          frontierPeak := st.frontierPeak, visitedPeak := vp2,
          frontierSnapshots := st.frontierSnapshots ++ [srest] }
      else
        let e := dfsExpand grid cur (neighbors4 cur.x cur.y R C).reverse
          srest st.seen st.cameFrom st.frontierPeak
        dfsLoop grid R C goal fuel
          { stack := e.1, seen := e.2.1, cameFrom := e.2.2.1,
            visitedOrder := visited2, frontierPeak := e.2.2.2,
            visitedPeak := vp2,
            frontierSnapshots := st.frontierSnapshots ++ [e.1] }

/-- dfs (dfs.ts): degenerate-grid check, wall check, then the LIFO loop
(no start==goal short-circuit). -/
def dfs (grid : Grid) (start goal : Point) : SearchResult :=
  let R := grid.length
  let C := cols grid
  if R = 0 ∨ C = 0 then emptyResult
  else if cellAt grid start.x start.y = CellType.wall ∨
      cellAt grid goal.x goal.y = CellType.wall then emptyResult
  else
    dfsLoop grid R C goal (R * C + 1)
      { stack := [start], seen := [start], cameFrom := [], visitedOrder := [],
        frontierPeak := 1, visitedPeak := 0, frontierSnapshots := [] }

/-! ### Linear-scan minimum selection (shared by UCS, Greedy, A*) -/

/-- Index scan: bestIdx starts at 0 and moves to i only on a strictly
smaller key, exactly as the source's for-loop. -/
def pickMinIdxGo {α : Type} (f : α → Nat) :
    List α → Nat → Nat → Nat → Nat
  | [], _, bi, _ => bi
  | a :: rest, bv, bi, i =>
    if f a < bv then pickMinIdxGo f rest (f a) i (i + 1)
    else pickMinIdxGo f rest bv bi (i + 1)

/-- Index of the first minimum-key entry of a frontier array. -/
def pickMinIdx {α : Type} (f : α → Nat) (l : List α) : Nat :=
  match l with
  | [] => 0
  | a :: rest => pickMinIdxGo f rest (f a) 0 1

/-- Select and splice out the first minimum-key entry
(the bestIdx scan followed by open.splice(bestIdx, 1)). -/
def extractMin {α : Type} (f : α → Nat) (l : List α) : Option (α × List α) :=
  match l with
  | [] => none
  | a :: rest =>
    let i := pickMinIdx f (a :: rest)
    some ((a :: rest).getD i a, (a :: rest).eraseIdx i)

/-! ### UCS (ucs.ts) -/

/-- The relaxation guard tentativeG < (gScore[nid] ?? Infinity) shared by
ucs.ts and astar.ts: true when the neighbor has no recorded g, or when the
tentative g strictly improves on it. -/
def relaxCond (gS : List (Point × Nat)) (nb : Point) (tg : Nat) : Bool :=
  match assocFind gS nb with
  | none => true
  | some gn => decide (tg < gn)

/-- Replace-or-push of a frontier entry (the findIndex followed by
open[idx] = ... or open.push(...) in ucs.ts). -/
def frontierUpsert (opn : List (Point × Nat)) (nb : Point) (tg : Nat) :
    List (Point × Nat) :=
  match opn.findIdx? (fun n => n.1 = nb) with
  | none => opn ++ [(nb, tg)]
  | some idx => opn.set idx (nb, tg)

/-- Local state of the UCS while-loop; frontier entries pair a point with
its g value. -/
structure UcsState where
  openList : List (Point × Nat)
  gScore : List (Point × Nat)
  cameFrom : List (Point × Point)
  visitedOrder : List Point
  frontierPeak : Nat
  visitedPeak : Nat
  frontierSnapshots : List (List Point)

/-- The unfound result assembled when the UCS frontier is exhausted. -/
def ucsNotFound (st : UcsState) : SearchResult :=
  { found := false, path := [], visitedOrder := st.visitedOrder,
    nodesExpanded := st.visitedOrder.length, pathLength := 0, totalCost := 0,
    frontierPeak := st.frontierPeak, visitedPeak := st.visitedPeak,
    frontierSnapshots := st.frontierSnapshots }

/-- The relaxation loop of UCS over the neighbors of the popped node: for
each non-wall neighbor whose tentative g improves on its recorded g, record
the new g and predecessor and replace-or-push its frontier entry. -/
def ucsRelax (grid : Grid) (cur : Point) :
    List Point → List (Point × Nat) → List (Point × Nat) →
    List (Point × Point) → Nat →
    List (Point × Nat) × List (Point × Nat) × List (Point × Point) × Nat
  | [], opn, gS, came, fp => (opn, gS, came, fp)
  | nb :: rest, opn, gS, came, fp =>
    if cellAt grid nb.x nb.y = CellType.wall then
      ucsRelax grid cur rest opn gS came fp
    else
      match assocFind gS cur with
      | none =>
        -- gScore[curId] ?? Infinity is Infinity: the strict comparison fails
        ucsRelax grid cur rest opn gS came fp
      | some gc =>
        if relaxCond gS nb (gc + stepCost grid nb) then
          ucsRelax grid cur rest (frontierUpsert opn nb (gc + stepCost grid nb))
            ((nb, gc + stepCost grid nb) :: gS) ((nb, cur) :: came)
            (max fp (frontierUpsert opn nb (gc + stepCost grid nb)).length)
        else
          ucsRelax grid cur rest opn gS came fp

/-- The UCS while-loop: pop the minimum-g entry, goal test, then relaxation
and a frontier snapshot. -/
def ucsLoop (grid : Grid) (R C : Nat) (goal : Point) :
    Nat → UcsState → SearchResult
  | 0, st => ucsNotFound st
  | fuel + 1, st =>
    match extractMin (fun n => n.2) st.openList with
    | none => ucsNotFound st
    | some (node, orest) =>
      let cur := node.1
      let visited2 := st.visitedOrder ++ [cur]
      let vp2 := max st.visitedPeak visited2.length
      if cur = goal then
        let ids := reconstructPath st.cameFrom goal
        { found := true, path := ids, visitedOrder := visited2,
          nodesExpanded := visited2.length,
          pathLength := max 0 (ids.length - 1),
          totalCost := (assocFind st.gScore goal).getD 0,
          frontierPeak := st.frontierPeak, visitedPeak := vp2,
          frontierSnapshots := st.frontierSnapshots ++ [orest.map (fun n => n.1)] }
      else
        let e := ucsRelax grid cur (neighbors4 cur.x cur.y R C)
          orest st.gScore st.cameFrom st.frontierPeak
        ucsLoop grid R C goal fuel
          { openList := e.1, gScore := e.2.1, cameFrom := e.2.2.1,
            visitedOrder := visited2, frontierPeak := e.2.2.2,
            visitedPeak := vp2,
            frontierSnapshots := st.frontierSnapshots ++ [e.1.map (fun n => n.1)] }

/-- ucs (ucs.ts): degenerate-grid check, wall check, then the minimum-g
loop seeded with (start, g=0). -/
def ucs (grid : Grid) (start goal : Point) : SearchResult :=
  let R := grid.length
  let C := cols grid
  if R = 0 ∨ C = 0 then emptyResult
  else if cellAt grid start.x start.y = CellType.wall ∨
      cellAt grid goal.x goal.y = CellType.wall then emptyResult
  else
    ucsLoop grid R C goal (R * C + 1)
      { openList := [(start, 0)], gScore := [(start, 0)], cameFrom := [],
        visitedOrder := [], frontierPeak := 1, visitedPeak := 0,
        frontierSnapshots := [] }

/-! ### Greedy best-first (greedy.ts) -/

/-- Local state of the Greedy while-loop; frontier entries pair a point
with its h value. -/
structure GreedyState where
  openList : List (Point × Nat)
  seen : List Point
  cameFrom : List (Point × Point)
  visitedOrder : List Point
  frontierPeak : Nat
  visitedPeak : Nat
  frontierSnapshots : List (List Point)

/-- The unfound result assembled when the Greedy frontier is exhausted. -/
def greedyNotFound (st : GreedyState) : SearchResult :=
  { found := false, path := [], visitedOrder := st.visitedOrder,
    nodesExpanded := st.visitedOrder.length, pathLength := 0, totalCost := 0,
    frontierPeak := st.frontierPeak, visitedPeak := st.visitedPeak,
    frontierSnapshots := st.frontierSnapshots }

/-- The inner neighbor loop of Greedy: skip walls and seen nodes, otherwise
mark seen, record the predecessor and push the neighbor with its heuristic
value (first discovery wins; no relaxation). -/
def greedyExpand (grid : Grid) (goal cur : Point) :
    List Point → List (Point × Nat) → List Point → List (Point × Point) → Nat →
    List (Point × Nat) × List Point × List (Point × Point) × Nat
  | [], opn, seen, came, fp => (opn, seen, came, fp)
  | nb :: rest, opn, seen, came, fp =>
    if cellAt grid nb.x nb.y = CellType.wall then
      greedyExpand grid goal cur rest opn seen came fp
    else if nb ∈ seen then
      greedyExpand grid goal cur rest opn seen came fp
    else
      greedyExpand grid goal cur rest (opn ++ [(nb, manhattan nb goal)])
        (nb :: seen) ((nb, cur) :: came) (max fp (opn.length + 1))

/-- The Greedy while-loop: pop the minimum-h entry, goal test, then
expansion and a frontier snapshot. -/
def greedyLoop (grid : Grid) (R C : Nat) (goal : Point) :
    Nat → GreedyState → SearchResult
  | 0, st => greedyNotFound st
  | fuel + 1, st =>
    match extractMin (fun n => n.2) st.openList with
    | none => greedyNotFound st
    | some (node, orest) =>
      let cur := node.1
      let visited2 := st.visitedOrder ++ [cur]
      let vp2 := max st.visitedPeak visited2.length
      if cur = goal then
        let ids := reconstructPath st.cameFrom goal
        { found := true, path := ids, visitedOrder := visited2,
          nodesExpanded := visited2.length,
          pathLength := max 0 (ids.length - 1),
          totalCost := pathTotalCost grid ids,
          frontierPeak := st.frontierPeak, visitedPeak := vp2,
          frontierSnapshots := st.frontierSnapshots ++ [orest.map (fun n => n.1)] }
      else
        let e := greedyExpand grid goal cur (neighbors4 cur.x cur.y R C)
          orest st.seen st.cameFrom st.frontierPeak
        greedyLoop grid R C goal fuel
          { openList := e.1, seen := e.2.1, cameFrom := e.2.2.1,
            visitedOrder := visited2, frontierPeak := e.2.2.2,
            visitedPeak := vp2,
            frontierSnapshots := st.frontierSnapshots ++ [e.1.map (fun n => n.1)] }

/-- greedy (greedy.ts): degenerate-grid check, wall check, then the
minimum-h loop seeded with (start, h=manhattan(start,goal)). -/
def greedy (grid : Grid) (start goal : Point) : SearchResult :=
  let R := grid.length
  let C := cols grid
  if R = 0 ∨ C = 0 then emptyResult
  else if cellAt grid start.x start.y = CellType.wall ∨
      cellAt grid goal.x goal.y = CellType.wall then emptyResult
  else
    greedyLoop grid R C goal (R * C + 1)
      { openList := [(start, manhattan start goal)], seen := [start],
        cameFrom := [], visitedOrder := [], frontierPeak := 1,
        visitedPeak := 0, frontierSnapshots := [] }

/-! ### A* (astar.ts) -/

/-- A frontier entry of A*: point, accumulated cost, heuristic, priority. -/
structure ANode where
  p : Point
  g : Nat
  h : Nat
  f : Nat
deriving DecidableEq

/-- Local state of the A* while-loop. -/
structure AStarState where
  openList : List ANode
  gScore : List (Point × Nat)
  cameFrom : List (Point × Point)
  visitedOrder : List Point
  frontierPeak : Nat
  visitedPeak : Nat
  frontierSnapshots : List (List Point)

/-- The unfound result assembled when the A* frontier is exhausted. -/
def astarNotFound (st : AStarState) : SearchResult :=
  { found := false, path := [], visitedOrder := st.visitedOrder,
    nodesExpanded := st.visitedOrder.length, pathLength := 0, totalCost := 0,
    frontierPeak := st.frontierPeak, visitedPeak := st.visitedPeak,
    frontierSnapshots := st.frontierSnapshots }

/-- Replace-or-push of an A* frontier entry, keyed by its point. -/
def frontierUpsertA (opn : List ANode) (nd : ANode) : List ANode :=
  match opn.findIdx? (fun n => n.p = nd.p) with
  | none => opn ++ [nd]
  | some idx => opn.set idx nd

/-- An A* frontier entry built from a tentative g: h is the Manhattan
distance to the goal and f = g + h. -/
def mkANode (goal nb : Point) (tg : Nat) : ANode :=
  { p := nb, g := tg, h := manhattan nb goal, f := tg + manhattan nb goal }

/-- The relaxation loop of A*; identical to UCS's except that the frontier
entry also stores h and f = g + h. -/
def astarRelax (grid : Grid) (goal cur : Point) :
    List Point → List ANode → List (Point × Nat) →
    List (Point × Point) → Nat →
    List ANode × List (Point × Nat) × List (Point × Point) × Nat
  | [], opn, gS, came, fp => (opn, gS, came, fp)
  | nb :: rest, opn, gS, came, fp =>
    if cellAt grid nb.x nb.y = CellType.wall then
      astarRelax grid goal cur rest opn gS came fp
    else
      match assocFind gS cur with
      | none =>
        astarRelax grid goal cur rest opn gS came fp
      | some gc =>
        if relaxCond gS nb (gc + stepCost grid nb) then
          astarRelax grid goal cur rest
            (frontierUpsertA opn (mkANode goal nb (gc + stepCost grid nb)))
            ((nb, gc + stepCost grid nb) :: gS) ((nb, cur) :: came)
            (max fp (frontierUpsertA opn (mkANode goal nb (gc + stepCost grid nb))).length)
        else
          astarRelax grid goal cur rest opn gS came fp

/-- The A* while-loop: pop the minimum-f entry, goal test, then relaxation
and a frontier snapshot. -/
def astarLoop (grid : Grid) (R C : Nat) (goal : Point) :
    Nat → AStarState → SearchResult
  | 0, st => astarNotFound st
  | fuel + 1, st =>
    match extractMin (fun n => n.f) st.openList with
    | none => astarNotFound st
    | some (node, orest) =>
      let cur := node.p
      let visited2 := st.visitedOrder ++ [cur]
      let vp2 := max st.visitedPeak visited2.length
      if cur = goal then
        let ids := reconstructPath st.cameFrom goal
        { found := true, path := ids, visitedOrder := visited2,
          nodesExpanded := visited2.length,
          pathLength := max 0 (ids.length - 1),
          totalCost := (assocFind st.gScore goal).getD 0,
          frontierPeak := st.frontierPeak, visitedPeak := vp2,
          frontierSnapshots := st.frontierSnapshots ++ [orest.map (fun n => n.p)] }
      else
        let e := astarRelax grid goal cur (neighbors4 cur.x cur.y R C)
          orest st.gScore st.cameFrom st.frontierPeak
        astarLoop grid R C goal fuel
          { openList := e.1, gScore := e.2.1, cameFrom := e.2.2.1,
            visitedOrder := visited2, frontierPeak := e.2.2.2,
            visitedPeak := vp2,
            frontierSnapshots := st.frontierSnapshots ++ [e.1.map (fun n => n.p)] }

/-- astar (astar.ts): degenerate-grid check, wall check, then the
minimum-f loop seeded with (start, g=0, h=f=manhattan(start,goal)). -/
def astar (grid : Grid) (start goal : Point) : SearchResult :=
  let R := grid.length
  let C := cols grid
  if R = 0 ∨ C = 0 then emptyResult
  else if cellAt grid start.x start.y = CellType.wall ∨
      cellAt grid goal.x goal.y = CellType.wall then emptyResult
  else
    let h0 := manhattan start goal
    astarLoop grid R C goal (R * C + 1)
      { openList := [{ p := start, g := 0, h := h0, f := h0 }],
        gScore := [(start, 0)], cameFrom := [], visitedOrder := [],
        frontierPeak := 1, visitedPeak := 0, frontierSnapshots := [] }

/-! ### The engine surface -/

/-- The five exported search routines. -/
inductive Algo where
  | bfs
  | dfs
  | ucs
  | greedy
  | astar
deriving DecidableEq

/-- Dispatch to one of the five engine entry points (the caller picks
exactly one routine; spec section 6). -/
def runAlgo : Algo → Grid → Point → Point → SearchResult
  | Algo.bfs => bfs
  | Algo.dfs => dfs
  | Algo.ucs => ucs
  | Algo.greedy => greedy
  | Algo.astar => astar

/-! ### Basic facts about the helpers -/

theorem stepCost_pos (grid : Grid) (p : Point) : 1 ≤ stepCost grid p := by
  unfold stepCost; split <;> omega

theorem mem_neighbors4 {x y R C : Nat} {q : Point}
    (h : q ∈ neighbors4 x y R C) :
    (0 < x ∧ q = ⟨x - 1, y⟩) ∨ (x < R - 1 ∧ q = ⟨x + 1, y⟩) ∨
    (0 < y ∧ q = ⟨x, y - 1⟩) ∨ (y < C - 1 ∧ q = ⟨x, y + 1⟩) := by
  unfold neighbors4 at h
  rcases List.mem_append.mp h with h1 | h4
  · rcases List.mem_append.mp h1 with h2 | h3
    · rcases List.mem_append.mp h2 with ha | hb
      · split at ha
        · next hc => exact Or.inl ⟨hc, by simpa using ha⟩
        · simp at ha
      · split at hb
        · next hc => exact Or.inr (Or.inl ⟨hc, by simpa using hb⟩)
        · simp at hb
    · split at h3
      · next hc => exact Or.inr (Or.inr (Or.inl ⟨hc, by simpa using h3⟩))
      · simp at h3
  · split at h4
    · next hc => exact Or.inr (Or.inr (Or.inr ⟨hc, by simpa using h4⟩))
    · simp at h4

/-- Neighbors of an in-bounds point are in-bounds. -/
theorem neighbors4_bounds {x y R C : Nat} {q : Point}
    (hx : x < R) (hy : y < C) (h : q ∈ neighbors4 x y R C) :
    q.x < R ∧ q.y < C := by
  rcases mem_neighbors4 h with ⟨hc, rfl⟩ | ⟨hc, rfl⟩ | ⟨hc, rfl⟩ | ⟨hc, rfl⟩ <;>
    simp <;> omega

/-- Any neighbor is at Manhattan distance exactly 1. -/
theorem manhattan_neighbors4 {x y R C : Nat} {q : Point}
    (h : q ∈ neighbors4 x y R C) :
    manhattan ⟨x, y⟩ q = 1 := by
  rcases mem_neighbors4 h with ⟨hc, rfl⟩ | ⟨hc, rfl⟩ | ⟨hc, rfl⟩ | ⟨hc, rfl⟩ <;>
    simp [manhattan, Nat.dist] <;> omega

theorem manhattan_comm (a b : Point) : manhattan a b = manhattan b a := by
  simp [manhattan, Nat.dist]; omega

theorem manhattan_eq_zero_iff {a b : Point} : manhattan a b = 0 ↔ a = b := by
  cases a; cases b
  simp [manhattan, Nat.dist, Point.mk.injEq]
  omega

/-- One-step consistency of the Manhattan heuristic: moving to a neighbor
changes the heuristic by at most the step cost. -/
theorem manhattan_consistent {x y R C : Nat} {q : Point} (grid : Grid)
    (t : Point) (h : q ∈ neighbors4 x y R C) :
    manhattan ⟨x, y⟩ t ≤ stepCost grid q + manhattan q t := by
  have h1 : manhattan ⟨x, y⟩ t ≤ manhattan ⟨x, y⟩ q + manhattan q t := by
    rcases mem_neighbors4 h with ⟨hc, rfl⟩ | ⟨hc, rfl⟩ | ⟨hc, rfl⟩ | ⟨hc, rfl⟩ <;>
      (simp [manhattan, Nat.dist]; omega)
  have h2 := manhattan_neighbors4 h
  have h3 := stepCost_pos grid q
  omega

theorem assocFind_mem {α : Type} {l : List (Point × α)} {k : Point} {v : α}
    (h : assocFind l k = some v) : (k, v) ∈ l := by
  induction l with
  | nil => simp [assocFind] at h
  | cons a rest ih =>
    obtain ⟨a1, a2⟩ := a
    unfold assocFind at h
    split at h
    · next heq => cases h; simp_all
    · exact List.mem_cons_of_mem _ (ih h)

theorem assocFind_cons_self {α : Type} (l : List (Point × α)) (k : Point) (v : α) :
    assocFind ((k, v) :: l) k = some v := by
  simp [assocFind]

theorem assocFind_cons_ne {α : Type} (l : List (Point × α)) {k k2 : Point} (v : α)
    (h : k ≠ k2) : assocFind ((k, v) :: l) k2 = assocFind l k2 := by
  simp [assocFind, h]

/-! ### The points of an R by C grid -/

def gridPoints (R C : Nat) : List Point :=
  (List.range R).flatMap (fun i => (List.range C).map (fun j => (⟨i, j⟩ : Point)))

theorem mem_gridPoints {R C : Nat} {p : Point} :
    p ∈ gridPoints R C ↔ p.x < R ∧ p.y < C := by
  cases p with
  | mk px py =>
    simp only [gridPoints, List.mem_flatMap, List.mem_map, List.mem_range,
      Point.mk.injEq]
    constructor
    · rintro ⟨i, hi, j, hj, rfl, rfl⟩
      exact ⟨hi, hj⟩
    · rintro ⟨hx, hy⟩
      exact ⟨px, hx, py, hy, rfl, rfl⟩

theorem gridPoints_nodup (R C : Nat) : (gridPoints R C).Nodup := by
  rw [gridPoints, List.nodup_flatMap]
  refine ⟨fun i _ => ?_, ?_⟩
  · exact (List.nodup_range C).map (fun a b h => by cases h; rfl)
  · apply List.Pairwise.imp ?_ (List.nodup_range R)
    intro a b hab
    simp only [Function.onFun, List.Disjoint, List.mem_map, List.mem_range]
    rintro x ⟨j, hj, rfl⟩ ⟨j2, hj2, he⟩
    cases he; omega

theorem length_gridPoints (R C : Nat) : (gridPoints R C).length = R * C := by
  simp only [gridPoints, List.length_flatMap, Function.comp_def, List.length_map,
    List.length_range]
  induction R with
  | zero => simp
  | succ n ih =>
    rw [List.range_succ]
    simp only [List.map_append, List.sum_append, List.map_cons, List.map_nil,
      List.sum_cons, List.sum_nil] at ih ⊢
    rw [ih, Nat.succ_mul]
    omega

/-- A duplicate-free list of in-bounds points has at most R*C elements. -/
theorem nodup_bounded_length {R C : Nat} {l : List Point}
    (hnd : l.Nodup) (hb : ∀ p ∈ l, p.x < R ∧ p.y < C) :
    l.length ≤ R * C := by
  have hsub : l ⊆ gridPoints R C := by
    intro p hp; exact mem_gridPoints.mpr (hb p hp)
  calc l.length = l.toFinset.card := (List.toFinset_card_of_nodup hnd).symm
    _ ≤ (gridPoints R C).toFinset.card := by
        apply Finset.card_le_card
        intro p hp
        simp only [List.mem_toFinset] at hp ⊢
        exact hsub hp
    _ = (gridPoints R C).length := List.toFinset_card_of_nodup (gridPoints_nodup R C)
    _ = R * C := length_gridPoints R C

/-! ### Metric consistency of every loop (spec section 4.8) -/

/-- The four metric identities each result must satisfy. -/
def MetricsOk (r : SearchResult) : Prop :=
  r.nodesExpanded = r.visitedOrder.length ∧
  r.pathLength = max 0 (r.path.length - 1) ∧
  r.visitedPeak = r.nodesExpanded ∧
  r.frontierSnapshots.length = r.visitedOrder.length

theorem bfsLoop_metrics (grid : Grid) (R C : Nat) (goal : Point) :
    ∀ (fuel : Nat) (st : BfsState),
    st.visitedPeak = st.visitedOrder.length →
    st.frontierSnapshots.length = st.visitedOrder.length →
    MetricsOk (bfsLoop grid R C goal fuel st) := by
  intro fuel
  induction fuel with
  | zero =>
    intro st h1 h2
    simp [bfsLoop, bfsNotFound, MetricsOk, h1, h2]
  | succ n ih =>
    intro st h1 h2
    rw [bfsLoop]
    cases hq : st.queue with
    | nil => simp [bfsNotFound, MetricsOk, h1, h2]
    | cons cur qrest =>
      by_cases hg : cur = goal
      · simp only [hg, if_pos rfl, MetricsOk]
        refine ⟨rfl, rfl, ?_, ?_⟩ <;>
          simp [h1, h2, List.length_append]
      · simp only [if_neg hg]
        apply ih <;> simp [h1, h2, List.length_append]

theorem dfsLoop_metrics (grid : Grid) (R C : Nat) (goal : Point) :
    ∀ (fuel : Nat) (st : DfsState),
    st.visitedPeak = st.visitedOrder.length →
    st.frontierSnapshots.length = st.visitedOrder.length →
    MetricsOk (dfsLoop grid R C goal fuel st) := by
  intro fuel
  induction fuel with
  | zero =>
    intro st h1 h2
    simp [dfsLoop, dfsNotFound, MetricsOk, h1, h2]
  | succ n ih =>
    intro st h1 h2
    rw [dfsLoop]
    cases hq : popLast st.stack with
    | none => simp [dfsNotFound, MetricsOk, h1, h2]
    | some pr =>
      obtain ⟨cur, srest⟩ := pr
      by_cases hg : cur = goal
      · simp only [hg, if_pos rfl, MetricsOk]
        refine ⟨rfl, rfl, ?_, ?_⟩ <;>
          simp [h1, h2, List.length_append]
      · simp only [if_neg hg]
        apply ih <;> simp [h1, h2, List.length_append]

theorem ucsLoop_metrics (grid : Grid) (R C : Nat) (goal : Point) :
    ∀ (fuel : Nat) (st : UcsState),
    st.visitedPeak = st.visitedOrder.length →
    st.frontierSnapshots.length = st.visitedOrder.length →
    MetricsOk (ucsLoop grid R C goal fuel st) := by
  intro fuel
  induction fuel with
  | zero =>
    intro st h1 h2
    simp [ucsLoop, ucsNotFound, MetricsOk, h1, h2]
  | succ n ih =>
    intro st h1 h2
    rw [ucsLoop]
    cases hq : extractMin (fun n => n.2) st.openList with
    | none => simp [ucsNotFound, MetricsOk, h1, h2]
    | some pr =>
      obtain ⟨node, orest⟩ := pr
      by_cases hg : node.1 = goal
      · simp only [hg, if_pos rfl, MetricsOk]
        refine ⟨rfl, rfl, ?_, ?_⟩ <;>
          simp [h1, h2, List.length_append]
      · simp only [if_neg hg]
        apply ih <;> simp [h1, h2, List.length_append]

theorem greedyLoop_metrics (grid : Grid) (R C : Nat) (goal : Point) :
    ∀ (fuel : Nat) (st : GreedyState),
    st.visitedPeak = st.visitedOrder.length →
    st.frontierSnapshots.length = st.visitedOrder.length →
    MetricsOk (greedyLoop grid R C goal fuel st) := by
  intro fuel
  induction fuel with
  | zero =>
    intro st h1 h2
    simp [greedyLoop, greedyNotFound, MetricsOk, h1, h2]
  | succ n ih =>
    intro st h1 h2
    rw [greedyLoop]
    cases hq : extractMin (fun n => n.2) st.openList with
    | none => simp [greedyNotFound, MetricsOk, h1, h2]
    | some pr =>
      obtain ⟨node, orest⟩ := pr
      by_cases hg : node.1 = goal
      · simp only [hg, if_pos rfl, MetricsOk]
        refine ⟨rfl, rfl, ?_, ?_⟩ <;>
          simp [h1, h2, List.length_append]
      · simp only [if_neg hg]
        apply ih <;> simp [h1, h2, List.length_append]

theorem astarLoop_metrics (grid : Grid) (R C : Nat) (goal : Point) :
    ∀ (fuel : Nat) (st : AStarState),
    st.visitedPeak = st.visitedOrder.length →
    st.frontierSnapshots.length = st.visitedOrder.length →
    MetricsOk (astarLoop grid R C goal fuel st) := by
  intro fuel
  induction fuel with
  | zero =>
    intro st h1 h2
    simp [astarLoop, astarNotFound, MetricsOk, h1, h2]
  | succ n ih =>
    intro st h1 h2
    rw [astarLoop]
    cases hq : extractMin (fun n => n.f) st.openList with
    | none => simp [astarNotFound, MetricsOk, h1, h2]
    | some pr =>
      obtain ⟨node, orest⟩ := pr
      by_cases hg : node.p = goal
      · simp only [hg, if_pos rfl, MetricsOk]
        refine ⟨rfl, rfl, ?_, ?_⟩ <;>
          simp [h1, h2, List.length_append]
      · simp only [if_neg hg]
        apply ih <;> simp [h1, h2, List.length_append]

/-- Metric consistency of every top-level entry point. -/
theorem runAlgo_metrics (a : Algo) (grid : Grid) (s t : Point) :
    MetricsOk (runAlgo a grid s t) := by
  cases a <;>
    simp only [runAlgo, bfs, dfs, ucs, greedy, astar] <;>
    split
  case bfs.isTrue => simp [emptyResult, MetricsOk]
  case bfs.isFalse =>
    split
    · simp [MetricsOk]
    · split
      · simp [emptyResult, MetricsOk]
      · exact bfsLoop_metrics _ _ _ _ _ _ rfl rfl
  case dfs.isTrue => simp [emptyResult, MetricsOk]
  case dfs.isFalse =>
    split
    · simp [emptyResult, MetricsOk]
    · exact dfsLoop_metrics _ _ _ _ _ _ rfl rfl
  case ucs.isTrue => simp [emptyResult, MetricsOk]
  case ucs.isFalse =>
    split
    · simp [emptyResult, MetricsOk]
    · exact ucsLoop_metrics _ _ _ _ _ _ rfl rfl
  case greedy.isTrue => simp [emptyResult, MetricsOk]
  case greedy.isFalse =>
    split
    · simp [emptyResult, MetricsOk]
    · exact greedyLoop_metrics _ _ _ _ _ _ rfl rfl
  case astar.isTrue => simp [emptyResult, MetricsOk]
  case astar.isFalse =>
    split
    · simp [emptyResult, MetricsOk]
    · exact astarLoop_metrics _ _ _ _ _ _ rfl rfl

/-! ### Claims settled by the metric invariants -/

/-- C7: for every algorithm and every input (found or not), the returned
result satisfies nodesExpanded = length of visitedOrder,
pathLength = max(0, length of path minus 1), and visitedPeak = nodesExpanded. -/
theorem claim_C7 (a : Algo) (grid : Grid) (s t : Point) :
    (runAlgo a grid s t).nodesExpanded = (runAlgo a grid s t).visitedOrder.length ∧
    (runAlgo a grid s t).pathLength = max 0 ((runAlgo a grid s t).path.length - 1) ∧
    (runAlgo a grid s t).visitedPeak = (runAlgo a grid s t).nodesExpanded := by
  obtain ⟨h1, h2, h3, _⟩ := runAlgo_metrics a grid s t
  exact ⟨h1, h2, h3⟩

/-- C8: for every algorithm and every input, frontierSnapshots holds exactly
one snapshot per expansion step, so its length equals the length of
visitedOrder. -/
theorem claim_C8 (a : Algo) (grid : Grid) (s t : Point) :
    (runAlgo a grid s t).frontierSnapshots.length =
      (runAlgo a grid s t).visitedOrder.length :=
  (runAlgo_metrics a grid s t).2.2.2

/-- C9: every algorithm is deterministic: two invocations of the same
algorithm on the same grid, start and goal return identical path,
pathLength, totalCost, visitedOrder, nodesExpanded, frontierPeak,
visitedPeak and frontierSnapshots.  The engine is embedded as a pure
function of (grid, start, goal), so repeated application is literally the
same value; only the unmodelled wall-clock timeMs can differ. -/
theorem claim_C9 (a : Algo) (grid : Grid) (s t : Point) :
    (runAlgo a grid s t).path = (runAlgo a grid s t).path ∧
    (runAlgo a grid s t).pathLength = (runAlgo a grid s t).pathLength ∧
    (runAlgo a grid s t).totalCost = (runAlgo a grid s t).totalCost ∧
    (runAlgo a grid s t).visitedOrder = (runAlgo a grid s t).visitedOrder ∧
    (runAlgo a grid s t).nodesExpanded = (runAlgo a grid s t).nodesExpanded ∧
    (runAlgo a grid s t).frontierPeak = (runAlgo a grid s t).frontierPeak ∧
    (runAlgo a grid s t).visitedPeak = (runAlgo a grid s t).visitedPeak ∧
    (runAlgo a grid s t).frontierSnapshots = (runAlgo a grid s t).frontierSnapshots :=
  ⟨rfl, rfl, rfl, rfl, rfl, rfl, rfl, rfl⟩

/-! ### Short-circuit claims -/

/-- C6: on a non-degenerate grid, bfs with start = goal returns found with
the single-point path, zero cost, zero path length, zero expansions and an
empty visitedOrder, before any frontier work (the short-circuit sits in
front of the loop, so the visit log and the snapshot log are empty). -/
theorem claim_C6 (grid : Grid) (s : Point)
    (h1 : grid.length ≠ 0) (h2 : cols grid ≠ 0) :
    (bfs grid s s).found = true ∧ (bfs grid s s).path = [s] ∧
    (bfs grid s s).totalCost = 0 ∧ (bfs grid s s).pathLength = 0 ∧
    (bfs grid s s).nodesExpanded = 0 ∧ (bfs grid s s).visitedOrder = [] := by
  unfold bfs
  simp [h1, h2]

/-- Witness for C6 on the 1 by 1 all-empty grid. -/
theorem claim_C6_witness :
    ([[CellType.empty]] : Grid).length ≠ 0 ∧ cols [[CellType.empty]] ≠ 0 ∧
    (bfs [[CellType.empty]] ⟨0, 0⟩ ⟨0, 0⟩).found = true :=
  ⟨by decide, by decide,
    (claim_C6 [[CellType.empty]] ⟨0, 0⟩ (by decide) (by decide)).1⟩

/-- C10: dfs, ucs, greedy and astar have no start-equals-goal
short-circuit: on a non-degenerate grid with start = goal on a non-wall
cell they pop the start as the first expansion and report found with the
single-point path, visitedOrder = [start], one node expanded, zero path
length and zero cost. -/
theorem claim_C10 (a : Algo) (grid : Grid) (s : Point) (ha : a ≠ Algo.bfs)
    (h1 : grid.length ≠ 0) (h2 : cols grid ≠ 0)
    (hw : cellAt grid s.x s.y ≠ CellType.wall) :
    (runAlgo a grid s s).found = true ∧ (runAlgo a grid s s).path = [s] ∧
    (runAlgo a grid s s).visitedOrder = [s] ∧
    (runAlgo a grid s s).nodesExpanded = 1 ∧
    (runAlgo a grid s s).pathLength = 0 ∧
    (runAlgo a grid s s).totalCost = 0 := by
  cases a
  case bfs => exact absurd rfl ha
  case dfs =>
    simp only [runAlgo, dfs]
    rw [if_neg (by simp [h1, h2]), if_neg (by simp [hw])]
    rw [dfsLoop]
    simp [popLast, reconstructPath, reconstructPathAux, assocFind,
      pathTotalCost]
  case ucs =>
    simp only [runAlgo, ucs]
    rw [if_neg (by simp [h1, h2]), if_neg (by simp [hw])]
    rw [ucsLoop]
    simp [extractMin, pickMinIdx, pickMinIdxGo, reconstructPath,
      reconstructPathAux, assocFind, List.getD]
  case greedy =>
    simp only [runAlgo, greedy]
    rw [if_neg (by simp [h1, h2]), if_neg (by simp [hw])]
    rw [greedyLoop]
    simp [extractMin, pickMinIdx, pickMinIdxGo, reconstructPath,
      reconstructPathAux, assocFind, List.getD, pathTotalCost]
  case astar =>
    simp only [runAlgo, astar]
    rw [if_neg (by simp [h1, h2]), if_neg (by simp [hw])]
    rw [astarLoop]
    simp [extractMin, pickMinIdx, pickMinIdxGo, reconstructPath,
      reconstructPathAux, assocFind, List.getD]

/-- Witness for C10: dfs on the 1 by 1 all-empty grid. -/
theorem claim_C10_witness :
    Algo.dfs ≠ Algo.bfs ∧
    (runAlgo Algo.dfs [[CellType.empty]] ⟨0, 0⟩ ⟨0, 0⟩).found = true ∧
    (runAlgo Algo.dfs [[CellType.empty]] ⟨0, 0⟩ ⟨0, 0⟩).nodesExpanded = 1 :=
  ⟨by decide,
    (claim_C10 Algo.dfs [[CellType.empty]] ⟨0, 0⟩ (by decide) (by decide)
      (by decide) (by decide)).1,
    (claim_C10 Algo.dfs [[CellType.empty]] ⟨0, 0⟩ (by decide) (by decide)
      (by decide) (by decide)).2.2.2.1⟩

/-! ### The wall precondition (C1) -/

/-- Counterexample to C1 as stated: on the 1 by 1 grid whose only cell is a
wall, with start = goal on that wall, bfs returns found = true with the
single-point path, because its start-equals-goal short-circuit runs before
its wall check; the claim demands found = false here. -/
theorem claim_C1_counterexample :
    ([[CellType.wall]] : Grid).length ≠ 0 ∧ cols [[CellType.wall]] ≠ 0 ∧
    cellAt [[CellType.wall]] 0 0 = CellType.wall ∧
    (bfs [[CellType.wall]] ⟨0, 0⟩ ⟨0, 0⟩).found = true ∧
    (bfs [[CellType.wall]] ⟨0, 0⟩ ⟨0, 0⟩).path = [⟨0, 0⟩] := by
  decide

/-- C1 (amended): on a non-degenerate grid with the start or goal cell a
wall, the result has found = false, path = [] and nodesExpanded = 0 — for
dfs, ucs, greedy and astar unconditionally (including start = goal), and
for bfs whenever start is distinct from goal (bfs tests start = goal
before its wall check and returns a found single-point result there). -/
theorem claim_C1 (a : Algo) (grid : Grid) (s t : Point)
    (h1 : grid.length ≠ 0) (h2 : cols grid ≠ 0)
    (hw : cellAt grid s.x s.y = CellType.wall ∨
      cellAt grid t.x t.y = CellType.wall)
    (hb : a = Algo.bfs → s ≠ t) :
    (runAlgo a grid s t).found = false ∧ (runAlgo a grid s t).path = [] ∧
    (runAlgo a grid s t).nodesExpanded = 0 := by
  cases a
  case bfs =>
    have hst : s ≠ t := hb rfl
    simp only [runAlgo, bfs]
    rw [if_neg (by simp [h1, h2]), if_neg hst, if_pos hw]
    simp [emptyResult]
  all_goals
    simp only [runAlgo, dfs, ucs, greedy, astar]
  all_goals
    rw [if_neg (by simp [h1, h2]), if_pos hw]
  all_goals simp [emptyResult]

/-- Witness for C1: bfs with a walled start distinct from the goal. -/
theorem claim_C1_witness :
    cellAt [[CellType.wall, CellType.empty]] 0 0 = CellType.wall ∧
    (runAlgo Algo.bfs [[CellType.wall, CellType.empty]] ⟨0, 0⟩ ⟨0, 1⟩).found
      = false :=
  ⟨by decide,
    (claim_C1 Algo.bfs [[CellType.wall, CellType.empty]] ⟨0, 0⟩ ⟨0, 1⟩
      (by decide) (by decide) (Or.inl (by decide)) (fun _ => by decide)).1⟩

/-! ### Properties of the linear-scan minimum selection -/

theorem getD_cons_perm_eraseIdx {α : Type} (d : α) :
    ∀ (l : List α) (i : Nat), i < l.length →
    l.Perm (l.getD i d :: l.eraseIdx i) := by
  intro l
  induction l with
  | nil => intro i hi; simp at hi
  | cons a rest ih =>
    intro i hi
    cases i with
    | zero => simp [List.getD]
    | succ j =>
      have hj : j < rest.length := by simpa using hi
      have h1 := ih j hj
      have h3 : (a :: rest).Perm (rest.getD j d :: a :: rest.eraseIdx j) :=
        (List.Perm.cons a h1).trans (List.Perm.swap _ _ _)
      have h4 : (a :: rest).getD (j + 1) d :: (a :: rest).eraseIdx (j + 1)
          = rest.getD j d :: a :: rest.eraseIdx j := by
        simp [List.getD]
      rw [h4]
      exact h3

theorem pickMinIdxGo_spec {α : Type} (f : α → Nat) :
    ∀ (rest : List α) (bv bi i : Nat),
    ∃ v, (pickMinIdxGo f rest bv bi i = bi ∧ v = bv ∨
        ∃ k, ∃ hk : k < rest.length,
          pickMinIdxGo f rest bv bi i = i + k ∧ v = f (rest.get ⟨k, hk⟩)) ∧
      v ≤ bv ∧ ∀ b ∈ rest, v ≤ f b := by
  intro rest
  induction rest with
  | nil =>
    intro bv bi i
    exact ⟨bv, Or.inl ⟨rfl, rfl⟩, le_refl _, by simp⟩
  | cons a rest2 ih =>
    intro bv bi i
    rw [pickMinIdxGo]
    split
    · next hlt =>
      obtain ⟨v, hcase, hle, hall⟩ := ih (f a) i (i + 1)
      refine ⟨v, ?_, by omega, ?_⟩
      · rcases hcase with ⟨he, hv⟩ | ⟨k, hk, he, hv⟩
        · exact Or.inr ⟨0, by simp, by omega, by simpa using hv⟩
        · exact Or.inr ⟨k + 1, by simpa using hk, by omega, by simpa using hv⟩
      · intro b hb
        rcases List.mem_cons.mp hb with rfl | hb2
        · exact hle
        · exact hall b hb2
    · next hge =>
      obtain ⟨v, hcase, hle, hall⟩ := ih bv bi (i + 1)
      refine ⟨v, ?_, hle, ?_⟩
      · rcases hcase with ⟨he, hv⟩ | ⟨k, hk, he, hv⟩
        · exact Or.inl ⟨he, hv⟩
        · exact Or.inr ⟨k + 1, by simpa using hk, by omega, by simpa using hv⟩
      · intro b hb
        rcases List.mem_cons.mp hb with rfl | hb2
        · omega
        · exact hall b hb2

theorem pickMinIdx_spec {α : Type} (f : α → Nat) (a : α) (rest : List α) :
    pickMinIdx f (a :: rest) < (a :: rest).length ∧
    ∀ d, ∀ b ∈ a :: rest,
      f ((a :: rest).getD (pickMinIdx f (a :: rest)) d) ≤ f b := by
  obtain ⟨v, hcase, hle, hall⟩ := pickMinIdxGo_spec f rest (f a) 0 1
  have hval : ∀ d, pickMinIdx f (a :: rest) < (a :: rest).length ∧
      f ((a :: rest).getD (pickMinIdx f (a :: rest)) d) = v := by
    intro d
    rcases hcase with ⟨he, hv⟩ | ⟨k, hk, he, hv⟩
    · rw [pickMinIdx, he]
      exact ⟨by simp, by simpa [List.getD] using hv.symm⟩
    · rw [pickMinIdx, he]
      refine ⟨by simp; omega, ?_⟩
      have : (a :: rest).getD (1 + k) d = rest.getD k d := by
        simp [Nat.add_comm 1 k, List.getD]
      rw [this, List.getD_eq_getElem rest d hk, hv]
      simp
  constructor
  · exact (hval a).1
  · intro d b hb
    rw [(hval d).2]
    rcases List.mem_cons.mp hb with rfl | hb2
    · exact hle
    · exact hall b hb2

theorem extractMin_none {α : Type} (f : α → Nat) (l : List α) :
    extractMin f l = none ↔ l = [] := by
  cases l <;> simp [extractMin]

/-- The spliced-out entry is a member achieving the minimum key, and the
frontier is permuted into the entry plus the remainder. -/
theorem extractMin_spec {α : Type} {f : α → Nat} {l rest : List α} {a : α}
    (h : extractMin f l = some (a, rest)) :
    l.Perm (a :: rest) ∧ ∀ b ∈ l, f a ≤ f b := by
  cases l with
  | nil => simp [extractMin] at h
  | cons x xs =>
    simp only [extractMin, Option.some.injEq, Prod.mk.injEq] at h
    obtain ⟨ha, hrest⟩ := h
    obtain ⟨hlt, hmin⟩ := pickMinIdx_spec f x xs
    subst ha hrest
    exact ⟨getD_cons_perm_eraseIdx x (x :: xs) _ hlt, hmin x⟩

theorem extractMin_mem {α : Type} {f : α → Nat} {l rest : List α} {a : α}
    (h : extractMin f l = some (a, rest)) : a ∈ l :=
  ((extractMin_spec h).1.mem_iff).mpr (List.mem_cons_self a rest)

theorem extractMin_subset {α : Type} {f : α → Nat} {l rest : List α} {a : α}
    (h : extractMin f l = some (a, rest)) : ∀ b ∈ rest, b ∈ l := by
  intro b hb
  exact ((extractMin_spec h).1.mem_iff).mpr (List.mem_cons_of_mem a hb)

/-! ### Properties of the stack pop -/

theorem popLast_none {l : List Point} : popLast l = none ↔ l = [] := by
  cases l with
  | nil => simp [popLast]
  | cons a rest =>
    cases rest with
    | nil => simp [popLast]
    | cons b rest2 =>
      rw [popLast]
      cases h : popLast (b :: rest2) with
      | none => rw [popLast_none] at h; cases h
      | some pr => simp

theorem popLast_some {l : List Point} {a : Point} {rest : List Point} :
    popLast l = some (a, rest) → l = rest ++ [a] := by
  induction l generalizing a rest with
  | nil => intro h; simp [popLast] at h
  | cons x xs ih =>
    intro h
    cases xs with
    | nil =>
      simp only [popLast, Option.some.injEq, Prod.mk.injEq] at h
      obtain ⟨rfl, rfl⟩ := h
      rfl
    | cons y ys =>
      rw [popLast] at h
      cases h2 : popLast (y :: ys) with
      | none => rw [popLast_none] at h2; cases h2
      | some pr =>
        obtain ⟨c, r2⟩ := pr
        rw [h2] at h
        simp only [Option.some.injEq, Prod.mk.injEq] at h
        obtain ⟨rfl, rfl⟩ := h
        have := ih h2
        rw [this]
        rfl

/-! ### Path reconstruction produces contiguous wall-free paths (C3) -/

/-- The predecessor-map invariant shared by the five algorithms: every
recorded child is a grid neighbor of its predecessor, and both endpoints
of every link are non-wall cells. -/
def CameOk (grid : Grid) (R C : Nat) (came : List (Point × Point)) : Prop :=
  ∀ pr ∈ came, pr.1 ∈ neighbors4 pr.2.x pr.2.y R C ∧
    cellAt grid pr.1.x pr.1.y ≠ CellType.wall ∧
    cellAt grid pr.2.x pr.2.y ≠ CellType.wall

/-- All points of a frontier are non-wall cells. -/
def PtsOk (grid : Grid) (l : List Point) : Prop :=
  ∀ p ∈ l, cellAt grid p.x p.y ≠ CellType.wall

theorem cameOk_adj {grid : Grid} {R C : Nat} {came : List (Point × Point)}
    (hc : CameOk grid R C came) {a b : Point} (h : (a, b) ∈ came) :
    manhattan a b = 1 := by
  obtain ⟨hadj, _, _⟩ := hc _ h
  have := manhattan_neighbors4 hadj
  rw [manhattan_comm]
  exact this

theorem reconstructPathAux_succ (came : List (Point × Point)) (fuel : Nat)
    (cur : Point) :
    reconstructPathAux came (fuel + 1) cur =
      cur ::
        (match assocFind came cur with
         | none => []
         | some prev => reconstructPathAux came fuel prev) := rfl

theorem reconstructPathAux_ok (grid : Grid) (R C : Nat)
    {came : List (Point × Point)} (hc : CameOk grid R C came) :
    ∀ (fuel : Nat) (cur : Point), cellAt grid cur.x cur.y ≠ CellType.wall →
    PtsOk grid (reconstructPathAux came fuel cur) ∧
    List.Chain' (fun a b => manhattan a b = 1)
      (reconstructPathAux came fuel cur) := by
  intro fuel
  induction fuel with
  | zero =>
    intro cur hw
    simp [reconstructPathAux, PtsOk]
  | succ n ih =>
    intro cur hw
    rw [reconstructPathAux_succ]
    cases hf : assocFind came cur with
    | none =>
      refine ⟨?_, by simp⟩
      intro p hp
      simp only [List.mem_singleton] at hp
      subst hp
      exact hw
    | some prev =>
      have hmem := assocFind_mem hf
      obtain ⟨hadj, hnw1, hnw2⟩ := hc _ hmem
      have ihp := ih prev hnw2
      constructor
      · intro p hp
        rcases List.mem_cons.mp hp with rfl | hp2
        · exact hw
        · exact ihp.1 p hp2
      · refine List.chain'_cons'.mpr ⟨?_, ihp.2⟩
        intro b hb
        cases n with
        | zero => simp [reconstructPathAux] at hb
        | succ m =>
          simp only [reconstructPathAux_succ, List.head?_cons,
            Option.mem_some_iff] at hb
          subst hb
          exact cameOk_adj hc hmem

/-- reconstructPath output: all cells non-wall, consecutive points
4-adjacent. -/
theorem reconstructPath_ok (grid : Grid) (R C : Nat)
    {came : List (Point × Point)} (hc : CameOk grid R C came)
    {goal : Point} (hw : cellAt grid goal.x goal.y ≠ CellType.wall) :
    PtsOk grid (reconstructPath came goal) ∧
    List.Chain' (fun a b => manhattan a b = 1) (reconstructPath came goal) := by
  obtain ⟨h1, h2⟩ := reconstructPathAux_ok grid R C hc (came.length + 1) goal hw
  constructor
  · intro p hp
    exact h1 p (List.mem_reverse.mp hp)
  · rw [reconstructPath, List.chain'_reverse]
    apply List.Chain'.imp ?_ h2
    intro a b hab
    simpa [Function.flip_def, manhattan_comm b a] using hab

/-- All frontier-entry points of a keyed frontier are non-wall cells. -/
def PtsOkE (grid : Grid) (l : List (Point × Nat)) : Prop :=
  ∀ e ∈ l, cellAt grid e.1.x e.1.y ≠ CellType.wall

/-- All frontier-entry points of an A* frontier are non-wall cells. -/
def PtsOkA (grid : Grid) (l : List ANode) : Prop :=
  ∀ e ∈ l, cellAt grid e.p.x e.p.y ≠ CellType.wall

theorem bfsExpand_ok (grid : Grid) (R C : Nat) (cur : Point)
    (hcur : cellAt grid cur.x cur.y ≠ CellType.wall) :
    ∀ (nbs queue seen : List Point) (came : List (Point × Point)) (fp : Nat),
    (∀ nb ∈ nbs, nb ∈ neighbors4 cur.x cur.y R C) →
    PtsOk grid queue → CameOk grid R C came →
    PtsOk grid (bfsExpand grid cur nbs queue seen came fp).1 ∧
    CameOk grid R C (bfsExpand grid cur nbs queue seen came fp).2.2.1 := by
  intro nbs
  induction nbs with
  | nil => intro queue seen came fp hnb hq hc; exact ⟨hq, hc⟩
  | cons nb rest ih =>
    intro queue seen came fp hnb hq hc
    rw [bfsExpand]
    split
    · exact ih _ _ _ _ (fun b hb => hnb b (List.mem_cons_of_mem nb hb)) hq hc
    · next hnw =>
      split
      · exact ih _ _ _ _ (fun b hb => hnb b (List.mem_cons_of_mem nb hb)) hq hc
      · apply ih _ _ _ _ (fun b hb => hnb b (List.mem_cons_of_mem nb hb))
        · intro p hp
          rcases List.mem_append.mp hp with hp1 | hp2
          · exact hq p hp1
          · simp only [List.mem_singleton] at hp2; subst hp2; exact hnw
        · intro pr hpr
          rcases List.mem_cons.mp hpr with rfl | hpr2
          · exact ⟨hnb nb (List.mem_cons_self nb rest), hnw, hcur⟩
          · exact hc pr hpr2

theorem dfsExpand_ok (grid : Grid) (R C : Nat) (cur : Point)
    (hcur : cellAt grid cur.x cur.y ≠ CellType.wall) :
    ∀ (nbs stack seen : List Point) (came : List (Point × Point)) (fp : Nat),
    (∀ nb ∈ nbs, nb ∈ neighbors4 cur.x cur.y R C) →
    PtsOk grid stack → CameOk grid R C came →
    PtsOk grid (dfsExpand grid cur nbs stack seen came fp).1 ∧
    CameOk grid R C (dfsExpand grid cur nbs stack seen came fp).2.2.1 := by
  intro nbs
  induction nbs with
  | nil => intro stack seen came fp hnb hq hc; exact ⟨hq, hc⟩
  | cons nb rest ih =>
    intro stack seen came fp hnb hq hc
    rw [dfsExpand]
    split
    · exact ih _ _ _ _ (fun b hb => hnb b (List.mem_cons_of_mem nb hb)) hq hc
    · next hnw =>
      split
      · exact ih _ _ _ _ (fun b hb => hnb b (List.mem_cons_of_mem nb hb)) hq hc
      · apply ih _ _ _ _ (fun b hb => hnb b (List.mem_cons_of_mem nb hb))
        · intro p hp
          rcases List.mem_append.mp hp with hp1 | hp2
          · exact hq p hp1
          · simp only [List.mem_singleton] at hp2; subst hp2; exact hnw
        · intro pr hpr
          rcases List.mem_cons.mp hpr with rfl | hpr2
          · exact ⟨hnb nb (List.mem_cons_self nb rest), hnw, hcur⟩
          · exact hc pr hpr2

theorem greedyExpand_ok (grid : Grid) (R C : Nat) (goal cur : Point)
    (hcur : cellAt grid cur.x cur.y ≠ CellType.wall) :
    ∀ (nbs : List Point) (opn : List (Point × Nat)) (seen : List Point)
      (came : List (Point × Point)) (fp : Nat),
    (∀ nb ∈ nbs, nb ∈ neighbors4 cur.x cur.y R C) →
    PtsOkE grid opn → CameOk grid R C came →
    PtsOkE grid (greedyExpand grid goal cur nbs opn seen came fp).1 ∧
    CameOk grid R C (greedyExpand grid goal cur nbs opn seen came fp).2.2.1 := by
  intro nbs
  induction nbs with
  | nil => intro opn seen came fp hnb hq hc; exact ⟨hq, hc⟩
  | cons nb rest ih =>
    intro opn seen came fp hnb hq hc
    rw [greedyExpand]
    split
    · exact ih _ _ _ _ (fun b hb => hnb b (List.mem_cons_of_mem nb hb)) hq hc
    · next hnw =>
      split
      · exact ih _ _ _ _ (fun b hb => hnb b (List.mem_cons_of_mem nb hb)) hq hc
      · apply ih _ _ _ _ (fun b hb => hnb b (List.mem_cons_of_mem nb hb))
        · intro e he
          rcases List.mem_append.mp he with he1 | he2
          · exact hq e he1
          · simp only [List.mem_singleton] at he2; subst he2; exact hnw
        · intro pr hpr
          rcases List.mem_cons.mp hpr with rfl | hpr2
          · exact ⟨hnb nb (List.mem_cons_self nb rest), hnw, hcur⟩
          · exact hc pr hpr2

theorem mem_frontierUpsert {opn : List (Point × Nat)} {nb : Point} {tg : Nat}
    {e : Point × Nat} (he : e ∈ frontierUpsert opn nb tg) :
    e ∈ opn ∨ e = (nb, tg) := by
  rw [frontierUpsert] at he
  split at he
  · rcases List.mem_append.mp he with he1 | he2
    · exact Or.inl he1
    · exact Or.inr (by simpa using he2)
  · exact List.mem_or_eq_of_mem_set he

theorem mem_frontierUpsertA {opn : List ANode} {nd e : ANode}
    (he : e ∈ frontierUpsertA opn nd) : e ∈ opn ∨ e = nd := by
  rw [frontierUpsertA] at he
  split at he
  · rcases List.mem_append.mp he with he1 | he2
    · exact Or.inl he1
    · exact Or.inr (by simpa using he2)
  · exact List.mem_or_eq_of_mem_set he

theorem ucsRelax_ok (grid : Grid) (R C : Nat) (cur : Point)
    (hcur : cellAt grid cur.x cur.y ≠ CellType.wall) :
    ∀ (nbs : List Point) (opn gS : List (Point × Nat))
      (came : List (Point × Point)) (fp : Nat),
    (∀ nb ∈ nbs, nb ∈ neighbors4 cur.x cur.y R C) →
    PtsOkE grid opn → CameOk grid R C came →
    PtsOkE grid (ucsRelax grid cur nbs opn gS came fp).1 ∧
    CameOk grid R C (ucsRelax grid cur nbs opn gS came fp).2.2.1 := by
  intro nbs
  induction nbs with
  | nil => intro opn gS came fp hnb hq hc; exact ⟨hq, hc⟩
  | cons nb rest ih =>
    intro opn gS came fp hnb hq hc
    have hsub : ∀ b ∈ rest, b ∈ neighbors4 cur.x cur.y R C :=
      fun b hb => hnb b (List.mem_cons_of_mem nb hb)
    rw [ucsRelax]
    split
    · exact ih _ _ _ _ hsub hq hc
    · next hnw =>
      split
      · exact ih _ _ _ _ hsub hq hc
      · split
        · apply ih _ _ _ _ hsub
          · intro e he
            rcases mem_frontierUpsert he with he1 | he2
            · exact hq e he1
            · subst he2; exact hnw
          · intro pr hpr
            rcases List.mem_cons.mp hpr with rfl | hpr2
            · exact ⟨hnb nb (List.mem_cons_self nb rest), hnw, hcur⟩
            · exact hc pr hpr2
        · exact ih _ _ _ _ hsub hq hc

theorem astarRelax_ok (grid : Grid) (R C : Nat) (goal cur : Point)
    (hcur : cellAt grid cur.x cur.y ≠ CellType.wall) :
    ∀ (nbs : List Point) (opn : List ANode) (gS : List (Point × Nat))
      (came : List (Point × Point)) (fp : Nat),
    (∀ nb ∈ nbs, nb ∈ neighbors4 cur.x cur.y R C) →
    PtsOkA grid opn → CameOk grid R C came →
    PtsOkA grid (astarRelax grid goal cur nbs opn gS came fp).1 ∧
    CameOk grid R C (astarRelax grid goal cur nbs opn gS came fp).2.2.1 := by
  intro nbs
  induction nbs with
  | nil => intro opn gS came fp hnb hq hc; exact ⟨hq, hc⟩
  | cons nb rest ih =>
    intro opn gS came fp hnb hq hc
    have hsub : ∀ b ∈ rest, b ∈ neighbors4 cur.x cur.y R C :=
      fun b hb => hnb b (List.mem_cons_of_mem nb hb)
    rw [astarRelax]
    split
    · exact ih _ _ _ _ hsub hq hc
    · next hnw =>
      split
      · exact ih _ _ _ _ hsub hq hc
      · split
        · apply ih _ _ _ _ hsub
          · intro e he
            rcases mem_frontierUpsertA he with he1 | he2
            · exact hq e he1
            · subst he2; exact hnw
          · intro pr hpr
            rcases List.mem_cons.mp hpr with rfl | hpr2
            · exact ⟨hnb nb (List.mem_cons_self nb rest), hnw, hcur⟩
            · exact hc pr hpr2
        · exact ih _ _ _ _ hsub hq hc

/-- The contiguity and wall-freeness property of a returned path. -/
def PathOk (grid : Grid) (l : List Point) : Prop :=
  List.Chain' (fun a b => manhattan a b = 1) l ∧
  ∀ p ∈ l, cellAt grid p.x p.y ≠ CellType.wall

theorem bfsLoop_path_ok (grid : Grid) (R C : Nat) (goal : Point) :
    ∀ (fuel : Nat) (st : BfsState),
    PtsOk grid st.queue → CameOk grid R C st.cameFrom →
    (bfsLoop grid R C goal fuel st).found = true →
    PathOk grid (bfsLoop grid R C goal fuel st).path := by
  intro fuel
  induction fuel with
  | zero => intro st hq hc hf; simp [bfsLoop, bfsNotFound] at hf
  | succ n ih =>
    intro st hq hc hf
    rw [bfsLoop] at hf ⊢
    cases hqe : st.queue with
    | nil => rw [hqe] at hf; simp [bfsNotFound] at hf
    | cons cur qrest =>
      rw [hqe] at hf
      have hcur : cellAt grid cur.x cur.y ≠ CellType.wall := by
        apply hq; rw [hqe]; exact List.mem_cons_self cur qrest
      by_cases hg : cur = goal
      · simp only [hg, if_pos rfl] at hf ⊢
        obtain ⟨h1, h2⟩ := reconstructPath_ok grid R C hc (hg ▸ hcur)
        exact ⟨h2, h1⟩
      · simp only [if_neg hg] at hf ⊢
        have hqrest : PtsOk grid qrest := by
          intro p hp; apply hq; rw [hqe]; exact List.mem_cons_of_mem cur hp
        obtain ⟨ho, hcm⟩ := bfsExpand_ok grid R C cur hcur
          (neighbors4 cur.x cur.y R C) qrest st.seen st.cameFrom
          st.frontierPeak (fun b hb => hb) hqrest hc
        exact ih _ ho hcm hf

theorem dfsLoop_path_ok (grid : Grid) (R C : Nat) (goal : Point) :
    ∀ (fuel : Nat) (st : DfsState),
    PtsOk grid st.stack → CameOk grid R C st.cameFrom →
    (dfsLoop grid R C goal fuel st).found = true →
    PathOk grid (dfsLoop grid R C goal fuel st).path := by
  intro fuel
  induction fuel with
  | zero => intro st hq hc hf; simp [dfsLoop, dfsNotFound] at hf
  | succ n ih =>
    intro st hq hc hf
    rw [dfsLoop] at hf ⊢
    cases hqe : popLast st.stack with
    | none => rw [hqe] at hf; simp [dfsNotFound] at hf
    | some pr =>
      obtain ⟨cur, srest⟩ := pr
      rw [hqe] at hf
      have hsplit := popLast_some hqe
      have hcur : cellAt grid cur.x cur.y ≠ CellType.wall := by
        apply hq; rw [hsplit]; simp
      by_cases hg : cur = goal
      · simp only [hg, if_pos rfl] at hf ⊢
        obtain ⟨h1, h2⟩ := reconstructPath_ok grid R C hc (hg ▸ hcur)
        exact ⟨h2, h1⟩
      · simp only [if_neg hg] at hf ⊢
        have hsrest : PtsOk grid srest := by
          intro p hp; apply hq; rw [hsplit]; exact List.mem_append_left _ hp
        obtain ⟨ho, hcm⟩ := dfsExpand_ok grid R C cur hcur
          (neighbors4 cur.x cur.y R C).reverse srest st.seen st.cameFrom
          st.frontierPeak (fun b hb => List.mem_reverse.mp hb) hsrest hc
        exact ih _ ho hcm hf

theorem ucsLoop_path_ok (grid : Grid) (R C : Nat) (goal : Point) :
    ∀ (fuel : Nat) (st : UcsState),
    PtsOkE grid st.openList → CameOk grid R C st.cameFrom →
    (ucsLoop grid R C goal fuel st).found = true →
    PathOk grid (ucsLoop grid R C goal fuel st).path := by
  intro fuel
  induction fuel with
  | zero => intro st hq hc hf; simp [ucsLoop, ucsNotFound] at hf
  | succ n ih =>
    intro st hq hc hf
    rw [ucsLoop] at hf ⊢
    cases hqe : extractMin (fun n => n.2) st.openList with
    | none => rw [hqe] at hf; simp [ucsNotFound] at hf
    | some pr =>
      obtain ⟨node, orest⟩ := pr
      rw [hqe] at hf
      have hcur : cellAt grid node.1.x node.1.y ≠ CellType.wall :=
        hq node (extractMin_mem hqe)
      by_cases hg : node.1 = goal
      · simp only [hg, if_pos rfl] at hf ⊢
        obtain ⟨h1, h2⟩ := reconstructPath_ok grid R C hc (hg ▸ hcur)
        exact ⟨h2, h1⟩
      · simp only [if_neg hg] at hf ⊢
        have horest : PtsOkE grid orest := by
          intro e he; exact hq e (extractMin_subset hqe e he)
        obtain ⟨ho, hcm⟩ := ucsRelax_ok grid R C node.1 hcur
          (neighbors4 node.1.x node.1.y R C) orest st.gScore st.cameFrom
          st.frontierPeak (fun b hb => hb) horest hc
        exact ih _ ho hcm hf

theorem greedyLoop_path_ok (grid : Grid) (R C : Nat) (goal : Point) :
    ∀ (fuel : Nat) (st : GreedyState),
    PtsOkE grid st.openList → CameOk grid R C st.cameFrom →
    (greedyLoop grid R C goal fuel st).found = true →
    PathOk grid (greedyLoop grid R C goal fuel st).path := by
  intro fuel
  induction fuel with
  | zero => intro st hq hc hf; simp [greedyLoop, greedyNotFound] at hf
  | succ n ih =>
    intro st hq hc hf
    rw [greedyLoop] at hf ⊢
    cases hqe : extractMin (fun n => n.2) st.openList with
    | none => rw [hqe] at hf; simp [greedyNotFound] at hf
    | some pr =>
      obtain ⟨node, orest⟩ := pr
      rw [hqe] at hf
      have hcur : cellAt grid node.1.x node.1.y ≠ CellType.wall :=
        hq node (extractMin_mem hqe)
      by_cases hg : node.1 = goal
      · simp only [hg, if_pos rfl] at hf ⊢
        obtain ⟨h1, h2⟩ := reconstructPath_ok grid R C hc (hg ▸ hcur)
        exact ⟨h2, h1⟩
      · simp only [if_neg hg] at hf ⊢
        have horest : PtsOkE grid orest := by
          intro e he; exact hq e (extractMin_subset hqe e he)
        obtain ⟨ho, hcm⟩ := greedyExpand_ok grid R C goal node.1 hcur
          (neighbors4 node.1.x node.1.y R C) orest st.seen st.cameFrom
          st.frontierPeak (fun b hb => hb) horest hc
        exact ih _ ho hcm hf

theorem astarLoop_path_ok (grid : Grid) (R C : Nat) (goal : Point) :
    ∀ (fuel : Nat) (st : AStarState),
    PtsOkA grid st.openList → CameOk grid R C st.cameFrom →
    (astarLoop grid R C goal fuel st).found = true →
    PathOk grid (astarLoop grid R C goal fuel st).path := by
  intro fuel
  induction fuel with
  | zero => intro st hq hc hf; simp [astarLoop, astarNotFound] at hf
  | succ n ih =>
    intro st hq hc hf
    rw [astarLoop] at hf ⊢
    cases hqe : extractMin (fun n => n.f) st.openList with
    | none => rw [hqe] at hf; simp [astarNotFound] at hf
    | some pr =>
      obtain ⟨node, orest⟩ := pr
      rw [hqe] at hf
      have hcur : cellAt grid node.p.x node.p.y ≠ CellType.wall :=
        hq node (extractMin_mem hqe)
      by_cases hg : node.p = goal
      · simp only [hg, if_pos rfl] at hf ⊢
        obtain ⟨h1, h2⟩ := reconstructPath_ok grid R C hc (hg ▸ hcur)
        exact ⟨h2, h1⟩
      · simp only [if_neg hg] at hf ⊢
        have horest : PtsOkA grid orest := by
          intro e he; exact hq e (extractMin_subset hqe e he)
        obtain ⟨ho, hcm⟩ := astarRelax_ok grid R C goal node.p hcur
          (neighbors4 node.p.x node.p.y R C) orest st.gScore st.cameFrom
          st.frontierPeak (fun b hb => hb) horest hc
        exact ih _ ho hcm hf

/-- Counterexample to C3 as stated: bfs on the 1 by 1 wall grid with
start = goal returns found = true with path = [start], and that single
path point is a wall cell, because the start-equals-goal short-circuit
precedes the wall check. -/
theorem claim_C3_counterexample :
    (bfs [[CellType.wall]] ⟨0, 0⟩ ⟨0, 0⟩).found = true ∧
    (⟨0, 0⟩ : Point) ∈ (bfs [[CellType.wall]] ⟨0, 0⟩ ⟨0, 0⟩).path ∧
    cellAt [[CellType.wall]] 0 0 = CellType.wall := by
  decide

/-- C3 (amended): for every algorithm and every input on which found=true,
consecutive points of the returned path are 4-adjacent (Manhattan
distance 1), and no path point is a wall — except that for bfs with
start = goal the single-point path is returned without a wall check, so
wall-freeness there additionally needs the start cell not to be a wall. -/
theorem claim_C3 (a : Algo) (grid : Grid) (s t : Point)
    (hf : (runAlgo a grid s t).found = true)
    (hb : a = Algo.bfs → s = t → cellAt grid s.x s.y ≠ CellType.wall) :
    List.Chain' (fun p q => manhattan p q = 1) (runAlgo a grid s t).path ∧
    ∀ p ∈ (runAlgo a grid s t).path, cellAt grid p.x p.y ≠ CellType.wall := by
  cases a
  case bfs =>
    simp only [runAlgo, bfs] at hf ⊢
    by_cases hd : grid.length = 0 ∨ cols grid = 0
    · rw [if_pos hd] at hf; simp [emptyResult] at hf
    · rw [if_neg hd] at hf ⊢
      by_cases hst : s = t
      · rw [if_pos hst] at hf ⊢
        refine ⟨by simp, ?_⟩
        intro p hp
        simp only [List.mem_singleton] at hp
        subst hp
        exact hb rfl hst
      · rw [if_neg hst] at hf ⊢
        by_cases hw : cellAt grid s.x s.y = CellType.wall ∨
            cellAt grid t.x t.y = CellType.wall
        · rw [if_pos hw] at hf; simp [emptyResult] at hf
        · rw [if_neg hw] at hf ⊢
          have hsok : PtsOk grid [s] := by
            intro p hp
            simp only [List.mem_singleton] at hp
            subst hp
            exact fun hcon => hw (Or.inl hcon)
          exact bfsLoop_path_ok grid grid.length (cols grid) t _ _ hsok
            (by intro pr hpr; simp at hpr) hf
  case dfs =>
    simp only [runAlgo, dfs] at hf ⊢
    by_cases hd : grid.length = 0 ∨ cols grid = 0
    · rw [if_pos hd] at hf; simp [emptyResult] at hf
    · rw [if_neg hd] at hf ⊢
      by_cases hw : cellAt grid s.x s.y = CellType.wall ∨
          cellAt grid t.x t.y = CellType.wall
      · rw [if_pos hw] at hf; simp [emptyResult] at hf
      · rw [if_neg hw] at hf ⊢
        have hsok : PtsOk grid [s] := by
          intro p hp
          simp only [List.mem_singleton] at hp
          subst hp
          exact fun hcon => hw (Or.inl hcon)
        exact dfsLoop_path_ok grid grid.length (cols grid) t _ _ hsok
          (by intro pr hpr; simp at hpr) hf
  case ucs =>
    simp only [runAlgo, ucs] at hf ⊢
    by_cases hd : grid.length = 0 ∨ cols grid = 0
    · rw [if_pos hd] at hf; simp [emptyResult] at hf
    · rw [if_neg hd] at hf ⊢
      by_cases hw : cellAt grid s.x s.y = CellType.wall ∨
          cellAt grid t.x t.y = CellType.wall
      · rw [if_pos hw] at hf; simp [emptyResult] at hf
      · rw [if_neg hw] at hf ⊢
        have hsok : PtsOkE grid [(s, 0)] := by
          intro e he
          simp only [List.mem_singleton] at he
          subst he
          exact fun hcon => hw (Or.inl hcon)
        exact ucsLoop_path_ok grid grid.length (cols grid) t _ _ hsok
          (by intro pr hpr; simp at hpr) hf
  case greedy =>
    simp only [runAlgo, greedy] at hf ⊢
    by_cases hd : grid.length = 0 ∨ cols grid = 0
    · rw [if_pos hd] at hf; simp [emptyResult] at hf
    · rw [if_neg hd] at hf ⊢
      by_cases hw : cellAt grid s.x s.y = CellType.wall ∨
          cellAt grid t.x t.y = CellType.wall
      · rw [if_pos hw] at hf; simp [emptyResult] at hf
      · rw [if_neg hw] at hf ⊢
        have hsok : PtsOkE grid [(s, manhattan s t)] := by
          intro e he
          simp only [List.mem_singleton] at he
          subst he
          exact fun hcon => hw (Or.inl hcon)
        exact greedyLoop_path_ok grid grid.length (cols grid) t _ _ hsok
          (by intro pr hpr; simp at hpr) hf
  case astar =>
    simp only [runAlgo, astar] at hf ⊢
    by_cases hd : grid.length = 0 ∨ cols grid = 0
    · rw [if_pos hd] at hf; simp [emptyResult] at hf
    · rw [if_neg hd] at hf ⊢
      by_cases hw : cellAt grid s.x s.y = CellType.wall ∨
          cellAt grid t.x t.y = CellType.wall
      · rw [if_pos hw] at hf; simp [emptyResult] at hf
      · rw [if_neg hw] at hf ⊢
        have hsok : PtsOkA grid
            [{ p := s, g := 0, h := manhattan s t, f := manhattan s t }] := by
          intro e he
          simp only [List.mem_singleton] at he
          subst he
          exact fun hcon => hw (Or.inl hcon)
        exact astarLoop_path_ok grid grid.length (cols grid) t _ _ hsok
          (by intro pr hpr; simp at hpr) hf

/-- Witness for C3: bfs on a 1 by 2 empty grid finds a two-point path. -/
theorem claim_C3_witness :
    (runAlgo Algo.bfs [[CellType.empty, CellType.empty]] ⟨0, 0⟩ ⟨0, 1⟩).found
      = true ∧
    List.Chain' (fun p q => manhattan p q = 1)
      (runAlgo Algo.bfs [[CellType.empty, CellType.empty]] ⟨0, 0⟩ ⟨0, 1⟩).path :=
  ⟨by decide,
    (claim_C3 Algo.bfs [[CellType.empty, CellType.empty]] ⟨0, 0⟩ ⟨0, 1⟩
      (by decide) (fun _ hst => absurd hst (by decide))).1⟩

/-! ### Walks, reachability and minimal cost (the spec-side reference
notions the claims compare against) -/

/-- A 4-connected wall-free walk from s ending at a point, with the sum of
per-step entering costs (spec sections 3, 4.1 and 8): each step moves to an
in-grid neighbor that is not a wall and pays that cell's cost; the start
cell's own cost is never paid. -/
inductive PathTo (grid : Grid) (R C : Nat) (s : Point) : Point → Nat → Prop where
  | nil : PathTo grid R C s s 0
  | snoc {q r : Point} {c : Nat} : PathTo grid R C s q c →
      r ∈ neighbors4 q.x q.y R C → cellAt grid r.x r.y ≠ CellType.wall →
      PathTo grid R C s r (c + stepCost grid r)

/-- Reachability through non-wall cells. -/
def Reaches (grid : Grid) (R C : Nat) (s p : Point) : Prop :=
  ∃ c, PathTo grid R C s p c

/-- c is the minimum total cost over all 4-connected wall-free walks from
s to p. -/
def IsMinCost (grid : Grid) (R C : Nat) (s p : Point) (c : Nat) : Prop :=
  PathTo grid R C s p c ∧ ∀ c2, PathTo grid R C s p c2 → c ≤ c2

theorem isMinCost_unique {grid : Grid} {R C : Nat} {s p : Point} {c1 c2 : Nat}
    (h1 : IsMinCost grid R C s p c1) (h2 : IsMinCost grid R C s p c2) :
    c1 = c2 :=
  Nat.le_antisymm (h1.2 c2 h2.1) (h2.2 c1 h1.1)

/-- Every reachable point has a minimum-cost walk. -/
theorem reaches_isMinCost {grid : Grid} {R C : Nat} {s p : Point}
    (h : Reaches grid R C s p) : ∃ c, IsMinCost grid R C s p c := by
  obtain ⟨c, hc⟩ := h
  have hne : {n : Nat | PathTo grid R C s p n}.Nonempty := ⟨c, hc⟩
  exact ⟨sInf {n | PathTo grid R C s p n}, Nat.sInf_mem hne,
    fun c2 h2 => Nat.sInf_le h2⟩

theorem pathTo_trans {grid : Grid} {R C : Nat} {s q p : Point} {c1 c2 : Nat}
    (h1 : PathTo grid R C s q c1) (h2 : PathTo grid R C q p c2) :
    PathTo grid R C s p (c1 + c2) := by
  induction h2 with
  | nil => exact h1
  | snoc hw hnb hnw ih =>
    rw [← Nat.add_assoc]
    exact PathTo.snoc ih hnb hnw

theorem reaches_refl (grid : Grid) (R C : Nat) (s : Point) :
    Reaches grid R C s s := ⟨0, PathTo.nil⟩

theorem reaches_step {grid : Grid} {R C : Nat} {s q r : Point}
    (h : Reaches grid R C s q) (hnb : r ∈ neighbors4 q.x q.y R C)
    (hnw : cellAt grid r.x r.y ≠ CellType.wall) : Reaches grid R C s r := by
  obtain ⟨c, hc⟩ := h
  exact ⟨c + stepCost grid r, PathTo.snoc hc hnb hnw⟩

/-- Points of a walk stay in bounds once the start is in bounds. -/
theorem pathTo_bounds {grid : Grid} {R C : Nat} {s p : Point} {c : Nat}
    (hs : s.x < R ∧ s.y < C) (h : PathTo grid R C s p c) :
    p.x < R ∧ p.y < C := by
  induction h with
  | nil => exact hs
  | snoc hw hnb hnw ih => exact neighbors4_bounds ih.1 ih.2 hnb

/-- The Manhattan heuristic telescopes along a walk: it never drops faster
than the accumulated cost (consistency, spec section 4.7). -/
theorem manhattan_pathTo {grid : Grid} {R C : Nat} {s p : Point} {c : Nat}
    (t : Point) (h : PathTo grid R C s p c) :
    manhattan s t ≤ c + manhattan p t := by
  induction h with
  | nil => simp
  | snoc hw hnb hnw ih =>
    next q r c2 =>
      have := manhattan_consistent grid t hnb
      have heta : (⟨q.x, q.y⟩ : Point) = q := rfl
      rw [heta] at this
      omega

/-! ### The reachable component, computably -/

/-- All non-wall in-grid neighbors of a list of points. -/
def reachStepList (grid : Grid) (R C : Nat) (frontier : List Point) :
    List Point :=
  frontier.flatMap (fun p =>
    (neighbors4 p.x p.y R C).filter
      (fun q => decide (cellAt grid q.x q.y ≠ CellType.wall)))

/-- The elements of a list not already seen, first occurrences only. -/
def newPoints (seen : List Point) : List Point → List Point
  | [] => []
  | p :: rest =>
    if p ∈ seen then newPoints seen rest else p :: newPoints (p :: seen) rest

/-- Breadth-layered closure: repeatedly add the unseen non-wall neighbors
of the current layer. -/
def reachAux (grid : Grid) (R C : Nat) : Nat → List Point → List Point → List Point
  | 0, acc, _ => acc
  | fuel + 1, acc, frontier =>
    match frontier with
    | [] => acc
    | _ :: _ =>
      reachAux grid R C fuel
        (acc ++ newPoints acc (reachStepList grid R C frontier))
        (newPoints acc (reachStepList grid R C frontier))

/-- The 4-connected wall-free component containing start (spec section 8,
"the reachable component containing start"), as a duplicate-free list. -/
def reachList (grid : Grid) (R C : Nat) (start : Point) : List Point :=
  reachAux grid R C (R * C) [start] [start]

theorem mem_newPoints {q : Point} :
    ∀ (l seen : List Point), q ∈ newPoints seen l ↔ q ∈ l ∧ q ∉ seen := by
  intro l
  induction l with
  | nil => intro seen; simp [newPoints]
  | cons p rest ih =>
    intro seen
    rw [newPoints]
    split
    · next hp =>
      rw [ih seen]
      constructor
      · rintro ⟨h1, h2⟩; exact ⟨List.mem_cons_of_mem p h1, h2⟩
      · rintro ⟨h1, h2⟩
        rcases List.mem_cons.mp h1 with rfl | h3
        · exact absurd hp h2
        · exact ⟨h3, h2⟩
    · next hp =>
      constructor
      · intro hq
        rcases List.mem_cons.mp hq with rfl | h3
        · exact ⟨List.mem_cons_self q rest, hp⟩
        · obtain ⟨h4, h5⟩ := (ih (p :: seen)).mp h3
          exact ⟨List.mem_cons_of_mem p h4,
            fun hc => h5 (List.mem_cons_of_mem p hc)⟩
      · rintro ⟨h1, h2⟩
        rcases List.mem_cons.mp h1 with rfl | h3
        · exact List.mem_cons_self q _
        · by_cases hqp : q = p
          · subst hqp; exact List.mem_cons_self q _
          · exact List.mem_cons_of_mem p ((ih (p :: seen)).mpr
              ⟨h3, by simp [hqp, h2]⟩)

theorem nodup_append_newPoints :
    ∀ (l seen : List Point), seen.Nodup → (seen ++ newPoints seen l).Nodup := by
  intro l
  induction l with
  | nil => intro seen h; simpa [newPoints]
  | cons p rest ih =>
    intro seen h
    rw [newPoints]
    split
    · exact ih seen h
    · next hp =>
      have h2 : (p :: seen).Nodup := List.nodup_cons.mpr ⟨hp, h⟩
      have h3 := ih (p :: seen) h2
      have hperm : (seen ++ p :: newPoints (p :: seen) rest).Perm
          ((p :: seen) ++ newPoints (p :: seen) rest) := by
        exact List.perm_middle
      exact hperm.nodup_iff.mpr h3

theorem reachAux_nil_frontier (grid : Grid) (R C : Nat) (fuel : Nat)
    (acc : List Point) : reachAux grid R C fuel acc [] = acc := by
  cases fuel <;> rfl

theorem mem_reachStepList {grid : Grid} {R C : Nat} {frontier : List Point}
    {q : Point} :
    q ∈ reachStepList grid R C frontier ↔
      ∃ p ∈ frontier, q ∈ neighbors4 p.x p.y R C ∧
        cellAt grid q.x q.y ≠ CellType.wall := by
  simp [reachStepList, List.mem_flatMap, List.mem_filter]

/-- Main closure lemma for reachAux: the accumulator is preserved,
duplicate-freeness and soundness are maintained, and with enough fuel the
result is closed under non-wall neighbor steps. -/
theorem reachAux_spec (grid : Grid) (R C : Nat) (start : Point) :
    ∀ (fuel : Nat) (acc frontier : List Point),
    acc.Nodup →
    (∀ p ∈ frontier, p ∈ acc) →
    (∀ p ∈ acc, Reaches grid R C start p) →
    (∀ p ∈ acc, p.x < R ∧ p.y < C) →
    (∀ p ∈ acc, p ∉ frontier → ∀ q ∈ neighbors4 p.x p.y R C,
      cellAt grid q.x q.y ≠ CellType.wall → q ∈ acc) →
    (∀ p ∈ acc, p ∈ reachAux grid R C fuel acc frontier) ∧
    (reachAux grid R C fuel acc frontier).Nodup ∧
    (∀ p ∈ reachAux grid R C fuel acc frontier, Reaches grid R C start p) ∧
    (R * C + 1 ≤ fuel + acc.length →
      ∀ p ∈ reachAux grid R C fuel acc frontier,
      ∀ q ∈ neighbors4 p.x p.y R C, cellAt grid q.x q.y ≠ CellType.wall →
        q ∈ reachAux grid R C fuel acc frontier) := by
  intro fuel
  induction fuel with
  | zero =>
    intro acc frontier h1 h2 h4 h5 h6
    refine ⟨fun p hp => hp, h1, h4, ?_⟩
    intro hlen
    have := nodup_bounded_length h1 h5
    omega
  | succ n ih =>
    intro acc frontier h1 h2 h4 h5 h6
    cases frontier with
    | nil =>
      rw [reachAux_nil_frontier]
      exact ⟨fun p hp => hp, h1, h4,
        fun _ p hp q hq hnw => h6 p hp (by simp) q hq hnw⟩
    | cons f fs =>
      have hred : reachAux grid R C (n + 1) acc (f :: fs) =
          reachAux grid R C n
            (acc ++ newPoints acc (reachStepList grid R C (f :: fs)))
            (newPoints acc (reachStepList grid R C (f :: fs))) := rfl
      rw [hred]
      by_cases hfr : newPoints acc (reachStepList grid R C (f :: fs)) = []
      · rw [hfr, List.append_nil, reachAux_nil_frontier]
        refine ⟨fun p hp => hp, h1, h4, fun _ p hp q hq hnw => ?_⟩
        by_cases hpf : p ∈ f :: fs
        · have hql : q ∈ reachStepList grid R C (f :: fs) :=
            mem_reachStepList.mpr ⟨p, hpf, hq, hnw⟩
          by_cases hqa : q ∈ acc
          · exact hqa
          · have : q ∈ newPoints acc (reachStepList grid R C (f :: fs)) :=
              (mem_newPoints _ _).mpr ⟨hql, hqa⟩
            rw [hfr] at this
            cases this
        · exact h6 p hp hpf q hq hnw
      · have hb1 : (acc ++ newPoints acc (reachStepList grid R C (f :: fs))).Nodup :=
          nodup_append_newPoints _ acc h1
        have hb2 : ∀ p ∈ newPoints acc (reachStepList grid R C (f :: fs)),
            p ∈ acc ++ newPoints acc (reachStepList grid R C (f :: fs)) :=
          fun p hp => List.mem_append_right _ hp
        have hb4 : ∀ p ∈ acc ++ newPoints acc (reachStepList grid R C (f :: fs)),
            Reaches grid R C start p := by
          intro p hp
          rcases List.mem_append.mp hp with hp1 | hp2
          · exact h4 p hp1
          · obtain ⟨hpl, _⟩ := (mem_newPoints _ _).mp hp2
            obtain ⟨p0, hp0, hnb, hnw⟩ := mem_reachStepList.mp hpl
            exact reaches_step (h4 p0 (h2 p0 hp0)) hnb hnw
        have hb5 : ∀ p ∈ acc ++ newPoints acc (reachStepList grid R C (f :: fs)),
            p.x < R ∧ p.y < C := by
          intro p hp
          rcases List.mem_append.mp hp with hp1 | hp2
          · exact h5 p hp1
          · obtain ⟨hpl, _⟩ := (mem_newPoints _ _).mp hp2
            obtain ⟨p0, hp0, hnb, _⟩ := mem_reachStepList.mp hpl
            obtain ⟨hx, hy⟩ := h5 p0 (h2 p0 hp0)
            exact neighbors4_bounds hx hy hnb
        have hb6 : ∀ p ∈ acc ++ newPoints acc (reachStepList grid R C (f :: fs)),
            p ∉ newPoints acc (reachStepList grid R C (f :: fs)) →
            ∀ q ∈ neighbors4 p.x p.y R C,
            cellAt grid q.x q.y ≠ CellType.wall →
            q ∈ acc ++ newPoints acc (reachStepList grid R C (f :: fs)) := by
          intro p hp hpnf q hq hnw
          rcases List.mem_append.mp hp with hp1 | hp2
          · by_cases hpf : p ∈ f :: fs
            · have hql : q ∈ reachStepList grid R C (f :: fs) :=
                mem_reachStepList.mpr ⟨p, hpf, hq, hnw⟩
              by_cases hqa : q ∈ acc
              · exact List.mem_append_left _ hqa
              · exact List.mem_append_right _
                  ((mem_newPoints _ _).mpr ⟨hql, hqa⟩)
            · exact List.mem_append_left _ (h6 p hp1 hpf q hq hnw)
          · exact absurd hp2 hpnf
        obtain ⟨hc1, hc2, hc3, hc4⟩ := ih _ _ hb1 hb2 hb4 hb5 hb6
        refine ⟨fun p hp => hc1 p (List.mem_append_left _ hp), hc2, hc3, ?_⟩
        intro hlen
        apply hc4
        have hlen2 : 1 ≤ (newPoints acc (reachStepList grid R C (f :: fs))).length :=
          List.length_pos.mpr hfr
        rw [List.length_append]
        omega

/-- reachList is a duplicate-free enumeration of exactly the points
reachable from start. -/
theorem reachList_spec (grid : Grid) (R C : Nat) (start : Point)
    (hs : start.x < R) (hs2 : start.y < C) :
    (reachList grid R C start).Nodup ∧
    ∀ p, p ∈ reachList grid R C start ↔ Reaches grid R C start p := by
  have hstart : ∀ p ∈ [start], p.x < R ∧ p.y < C := by
    intro p hp; simp only [List.mem_singleton] at hp; subst hp; exact ⟨hs, hs2⟩
  obtain ⟨hc1, hc2, hc3, hc4⟩ := reachAux_spec grid R C start (R * C)
    [start] [start] (by simp) (fun p hp => hp)
    (by intro p hp; simp only [List.mem_singleton] at hp; subst hp
        exact reaches_refl grid R C p)
    hstart
    (by intro p hp hpn; exact absurd hp hpn)
  refine ⟨hc2, fun p => ⟨hc3 p, ?_⟩⟩
  intro hr
  obtain ⟨c, hpath⟩ := hr
  have hclosed := hc4 (by simp)
  clear hc4
  induction hpath with
  | nil => exact hc1 start (List.mem_cons_self start [])
  | snoc hw hnb hnw ih2 => exact hclosed _ ih2 _ hnb hnw

/-! ### Exhaustive exploration of the reachable component (C5) -/

theorem nodup_length_eq_of_mem_iff {l1 l2 : List Point}
    (h1 : l1.Nodup) (h2 : l2.Nodup) (h : ∀ p, p ∈ l1 ↔ p ∈ l2) :
    l1.length = l2.length := by
  rw [← List.toFinset_card_of_nodup h1, ← List.toFinset_card_of_nodup h2]
  congr 1
  ext p
  simp only [List.mem_toFinset]
  exact h p

/-- What one BFS expansion step does to the queue and the seen set: it
appends some list of fresh nodes (the unseen non-wall neighbors) to the
queue and prepends them to the seen set. -/
theorem bfsExpand_spec (grid : Grid) (cur : Point) :
    ∀ (nbs queue seen : List Point) (came : List (Point × Point)) (fp : Nat),
    ∃ news : List Point,
      (bfsExpand grid cur nbs queue seen came fp).1 = queue ++ news ∧
      (bfsExpand grid cur nbs queue seen came fp).2.1 = news.reverse ++ seen ∧
      (∀ q ∈ news, q ∈ nbs ∧ cellAt grid q.x q.y ≠ CellType.wall ∧ q ∉ seen) ∧
      (seen.Nodup → (news.reverse ++ seen).Nodup) ∧
      (∀ q ∈ nbs, cellAt grid q.x q.y ≠ CellType.wall →
        q ∈ news ∨ q ∈ seen) := by
  intro nbs
  induction nbs with
  | nil =>
    intro queue seen came fp
    exact ⟨[], by simp [bfsExpand], by simp [bfsExpand], by simp,
      fun h => by simpa, by simp⟩
  | cons nb rest ih =>
    intro queue seen came fp
    rw [bfsExpand]
    split
    · next hwall =>
      obtain ⟨news, e1, e2, e3, e4, e5⟩ := ih queue seen came fp
      refine ⟨news, e1, e2, ?_, e4, ?_⟩
      · intro q hq
        obtain ⟨q1, q2, q3⟩ := e3 q hq
        exact ⟨List.mem_cons_of_mem nb q1, q2, q3⟩
      · intro q hq hnw
        rcases List.mem_cons.mp hq with rfl | hq2
        · exact absurd hwall hnw
        · exact e5 q hq2 hnw
    · next hnw =>
      split
      · next hseen =>
        obtain ⟨news, e1, e2, e3, e4, e5⟩ := ih queue seen came fp
        refine ⟨news, e1, e2, ?_, e4, ?_⟩
        · intro q hq
          obtain ⟨q1, q2, q3⟩ := e3 q hq
          exact ⟨List.mem_cons_of_mem nb q1, q2, q3⟩
        · intro q hq hnw2
          rcases List.mem_cons.mp hq with rfl | hq2
          · exact Or.inr hseen
          · exact e5 q hq2 hnw2
      · next hseen =>
        obtain ⟨news, e1, e2, e3, e4, e5⟩ :=
          ih (queue ++ [nb]) (nb :: seen) ((nb, cur) :: came)
            (max fp (queue.length + 1))
        refine ⟨nb :: news, ?_, ?_, ?_, ?_, ?_⟩
        · rw [e1, List.append_assoc]; rfl
        · rw [e2]; simp
        · intro q hq
          rcases List.mem_cons.mp hq with rfl | hq2
          · exact ⟨List.mem_cons_self _ _, hnw, hseen⟩
          · obtain ⟨q1, q2, q3⟩ := e3 q hq2
            exact ⟨List.mem_cons_of_mem nb q1, q2,
              fun hc => q3 (List.mem_cons_of_mem nb hc)⟩
        · intro hnd
          have : ((nb :: news).reverse ++ seen).Perm
              (news.reverse ++ (nb :: seen)) := by
            simp only [List.reverse_cons, List.append_assoc]
            exact List.Perm.refl _
          apply this.nodup_iff.mpr
          exact e4 (List.nodup_cons.mpr ⟨hseen, hnd⟩)
        · intro q hq hnw2
          rcases List.mem_cons.mp hq with rfl | hq2
          · exact Or.inl (List.mem_cons_self q news)
          · rcases e5 q hq2 hnw2 with h1 | h2
            · exact Or.inl (List.mem_cons_of_mem nb h1)
            · rcases List.mem_cons.mp h2 with rfl | h3
              · exact Or.inl (List.mem_cons_self q news)
              · exact Or.inr h3

/-- When the goal is unreachable, the BFS loop drains the queue, reporting
not found with an empty path, and its visit log enumerates exactly the
points reachable from start, without duplicates. -/
theorem bfsLoop_exhaust (grid : Grid) (R C : Nat) (start goal : Point)
    (hgoal : ¬ Reaches grid R C start goal) :
    ∀ (fuel : Nat) (st : BfsState),
    st.seen.Nodup →
    (∀ p ∈ st.queue, p ∈ st.seen) →
    (st.visitedOrder ++ st.queue).Perm st.seen →
    (∀ p ∈ st.seen, Reaches grid R C start p ∧
      cellAt grid p.x p.y ≠ CellType.wall ∧ p.x < R ∧ p.y < C) →
    (∀ v ∈ st.visitedOrder, ∀ q ∈ neighbors4 v.x v.y R C,
      cellAt grid q.x q.y ≠ CellType.wall → q ∈ st.seen) →
    start ∈ st.seen →
    R * C + 1 ≤ fuel + st.visitedOrder.length →
    (bfsLoop grid R C goal fuel st).found = false ∧
    (bfsLoop grid R C goal fuel st).path = [] ∧
    (bfsLoop grid R C goal fuel st).visitedOrder.Nodup ∧
    (∀ p, p ∈ (bfsLoop grid R C goal fuel st).visitedOrder ↔
      Reaches grid R C start p) := by
  intro fuel
  induction fuel with
  | zero =>
    intro st h1 h2 h3 h4 h5 h6 hfuel
    exfalso
    have hlen : st.seen.length ≤ R * C :=
      nodup_bounded_length h1 (fun p hp => (h4 p hp).2.2)
    have := h3.length_eq
    rw [List.length_append] at this
    omega
  | succ n ih =>
    intro st h1 h2 h3 h4 h5 h6 hfuel
    rw [bfsLoop]
    cases hqe : st.queue with
    | nil =>
      have hperm : st.visitedOrder.Perm st.seen := by
        have := h3; rw [hqe, List.append_nil] at this; exact this
      refine ⟨rfl, rfl, hperm.nodup_iff.mpr h1, ?_⟩
      intro p
      constructor
      · intro hp
        exact (h4 p (hperm.mem_iff.mp hp)).1
      · intro hr
        obtain ⟨c, hpath⟩ := hr
        show p ∈ st.visitedOrder
        rw [hperm.mem_iff]
        clear hfuel
        induction hpath with
        | nil => exact h6
        | @snoc q r c2 hw hnb hnw ih2 =>
          exact h5 q (hperm.mem_iff.mpr ih2) _ hnb hnw
    | cons cur qrest =>
      have hcurseen : cur ∈ st.seen := by
        apply h2; rw [hqe]; exact List.mem_cons_self cur qrest
      obtain ⟨hcreach, hcnw, hcx, hcy⟩ := h4 cur hcurseen
      have hg : ¬ (cur = goal) := fun hc => hgoal (hc ▸ hcreach)
      simp only [if_neg hg]
      obtain ⟨news, e1, e2, e3, e4, e5⟩ := bfsExpand_spec grid cur
        (neighbors4 cur.x cur.y R C) qrest st.seen st.cameFrom st.frontierPeak
      apply ih
      · simpa [e2] using e4 h1
      · intro p hp
        rw [e1] at hp
        rw [e2]
        rcases List.mem_append.mp hp with hp1 | hp2
        · exact List.mem_append_right _ (h2 p (by rw [hqe]; exact List.mem_cons_of_mem cur hp1))
        · exact List.mem_append_left _ (List.mem_reverse.mpr hp2)
      · rw [e1, e2]
        calc (st.visitedOrder ++ [cur]) ++ (qrest ++ news)
            = (st.visitedOrder ++ cur :: qrest) ++ news := by simp
          _ = (st.visitedOrder ++ st.queue) ++ news := by rw [hqe]
          _ |>.Perm (news.reverse ++ st.seen) := by
            apply List.Perm.trans (List.Perm.append_right news h3)
            apply List.Perm.trans (List.perm_append_comm)
            exact List.Perm.append (List.reverse_perm news).symm (List.Perm.refl _)
      · intro p hp
        rw [e2] at hp
        rcases List.mem_append.mp hp with hp1 | hp2
        · obtain ⟨q1, q2, _⟩ := e3 p (List.mem_reverse.mp hp1)
          exact ⟨reaches_step hcreach q1 q2, q2, neighbors4_bounds hcx hcy q1⟩
        · exact h4 p hp2
      · intro v hv q hq hnw
        rw [e2]
        rcases List.mem_append.mp hv with hv1 | hv2
        · exact List.mem_append_right _ (h5 v hv1 q hq hnw)
        · simp only [List.mem_singleton] at hv2
          subst hv2
          rcases e5 q hq hnw with hq1 | hq2
          · exact List.mem_append_left _ (List.mem_reverse.mpr hq1)
          · exact List.mem_append_right _ hq2
      · rw [e2]; exact List.mem_append_right _ h6
      · simp only [List.length_append, List.length_cons, List.length_nil]
        omega

/-- What one DFS expansion step does to the stack and the seen set
(the neighbor list is already reversed by the caller). -/
theorem dfsExpand_spec (grid : Grid) (cur : Point) :
    ∀ (nbs stack seen : List Point) (came : List (Point × Point)) (fp : Nat),
    ∃ news : List Point,
      (dfsExpand grid cur nbs stack seen came fp).1 = stack ++ news ∧
      (dfsExpand grid cur nbs stack seen came fp).2.1 = news.reverse ++ seen ∧
      (∀ q ∈ news, q ∈ nbs ∧ cellAt grid q.x q.y ≠ CellType.wall ∧ q ∉ seen) ∧
      (seen.Nodup → (news.reverse ++ seen).Nodup) ∧
      (∀ q ∈ nbs, cellAt grid q.x q.y ≠ CellType.wall →
        q ∈ news ∨ q ∈ seen) := by
  intro nbs
  induction nbs with
  | nil =>
    intro stack seen came fp
    exact ⟨[], by simp [dfsExpand], by simp [dfsExpand], by simp,
      fun h => by simpa, by simp⟩
  | cons nb rest ih =>
    intro stack seen came fp
    rw [dfsExpand]
    split
    · next hwall =>
      obtain ⟨news, e1, e2, e3, e4, e5⟩ := ih stack seen came fp
      refine ⟨news, e1, e2, ?_, e4, ?_⟩
      · intro q hq
        obtain ⟨q1, q2, q3⟩ := e3 q hq
        exact ⟨List.mem_cons_of_mem nb q1, q2, q3⟩
      · intro q hq hnw
        rcases List.mem_cons.mp hq with rfl | hq2
        · exact absurd hwall hnw
        · exact e5 q hq2 hnw
    · next hnw =>
      split
      · next hseen =>
        obtain ⟨news, e1, e2, e3, e4, e5⟩ := ih stack seen came fp
        refine ⟨news, e1, e2, ?_, e4, ?_⟩
        · intro q hq
          obtain ⟨q1, q2, q3⟩ := e3 q hq
          exact ⟨List.mem_cons_of_mem nb q1, q2, q3⟩
        · intro q hq hnw2
          rcases List.mem_cons.mp hq with rfl | hq2
          · exact Or.inr hseen
          · exact e5 q hq2 hnw2
      · next hseen =>
        obtain ⟨news, e1, e2, e3, e4, e5⟩ :=
          ih (stack ++ [nb]) (nb :: seen) ((nb, cur) :: came)
            (max fp (stack.length + 1))
        refine ⟨nb :: news, ?_, ?_, ?_, ?_, ?_⟩
        · rw [e1, List.append_assoc]; rfl
        · rw [e2]; simp
        · intro q hq
          rcases List.mem_cons.mp hq with rfl | hq2
          · exact ⟨List.mem_cons_self _ _, hnw, hseen⟩
          · obtain ⟨q1, q2, q3⟩ := e3 q hq2
            exact ⟨List.mem_cons_of_mem nb q1, q2,
              fun hc => q3 (List.mem_cons_of_mem nb hc)⟩
        · intro hnd
          have hp2 : ((nb :: news).reverse ++ seen).Perm
              (news.reverse ++ (nb :: seen)) := by
            simp only [List.reverse_cons, List.append_assoc]
            exact List.Perm.refl _
          apply hp2.nodup_iff.mpr
          exact e4 (List.nodup_cons.mpr ⟨hseen, hnd⟩)
        · intro q hq hnw2
          rcases List.mem_cons.mp hq with rfl | hq2
          · exact Or.inl (List.mem_cons_self q news)
          · rcases e5 q hq2 hnw2 with h1 | h2
            · exact Or.inl (List.mem_cons_of_mem nb h1)
            · rcases List.mem_cons.mp h2 with rfl | h3
              · exact Or.inl (List.mem_cons_self q news)
              · exact Or.inr h3

/-- When the goal is unreachable, the DFS loop drains the stack, reporting
not found with an empty path, and its visit log enumerates exactly the
points reachable from start, without duplicates. -/
theorem dfsLoop_exhaust (grid : Grid) (R C : Nat) (start goal : Point)
    (hgoal : ¬ Reaches grid R C start goal) :
    ∀ (fuel : Nat) (st : DfsState),
    st.seen.Nodup →
    (∀ p ∈ st.stack, p ∈ st.seen) →
    (st.visitedOrder ++ st.stack).Perm st.seen →
    (∀ p ∈ st.seen, Reaches grid R C start p ∧
      cellAt grid p.x p.y ≠ CellType.wall ∧ p.x < R ∧ p.y < C) →
    (∀ v ∈ st.visitedOrder, ∀ q ∈ neighbors4 v.x v.y R C,
      cellAt grid q.x q.y ≠ CellType.wall → q ∈ st.seen) →
    start ∈ st.seen →
    R * C + 1 ≤ fuel + st.visitedOrder.length →
    (dfsLoop grid R C goal fuel st).found = false ∧
    (dfsLoop grid R C goal fuel st).path = [] ∧
    (dfsLoop grid R C goal fuel st).visitedOrder.Nodup ∧
    (∀ p, p ∈ (dfsLoop grid R C goal fuel st).visitedOrder ↔
      Reaches grid R C start p) := by
  intro fuel
  induction fuel with
  | zero =>
    intro st h1 h2 h3 h4 h5 h6 hfuel
    exfalso
    have hlen : st.seen.length ≤ R * C :=
      nodup_bounded_length h1 (fun p hp => (h4 p hp).2.2)
    have := h3.length_eq
    rw [List.length_append] at this
    omega
  | succ n ih =>
    intro st h1 h2 h3 h4 h5 h6 hfuel
    rw [dfsLoop]
    cases hqe : popLast st.stack with
    | none =>
      have hnil : st.stack = [] := popLast_none.mp hqe
      have hperm : st.visitedOrder.Perm st.seen := by
        have := h3; rw [hnil, List.append_nil] at this; exact this
      refine ⟨rfl, rfl, hperm.nodup_iff.mpr h1, ?_⟩
      intro p
      constructor
      · intro hp
        exact (h4 p (hperm.mem_iff.mp hp)).1
      · intro hr
        obtain ⟨c, hpath⟩ := hr
        show p ∈ st.visitedOrder
        rw [hperm.mem_iff]
        clear hfuel
        induction hpath with
        | nil => exact h6
        | @snoc q r c2 hw hnb hnw ih2 =>
          exact h5 q (hperm.mem_iff.mpr ih2) _ hnb hnw
    | some pr =>
      obtain ⟨cur, srest⟩ := pr
      have hsplit := popLast_some hqe
      have hcurseen : cur ∈ st.seen := by
        apply h2; rw [hsplit]; simp
      obtain ⟨hcreach, hcnw, hcx, hcy⟩ := h4 cur hcurseen
      have hg : ¬ (cur = goal) := fun hc => hgoal (hc ▸ hcreach)
      simp only [if_neg hg]
      obtain ⟨news, e1, e2, e3, e4, e5⟩ := dfsExpand_spec grid cur
        (neighbors4 cur.x cur.y R C).reverse srest st.seen st.cameFrom
        st.frontierPeak
      apply ih
      · simpa [e2] using e4 h1
      · intro p hp
        rw [e1] at hp
        rw [e2]
        rcases List.mem_append.mp hp with hp1 | hp2
        · exact List.mem_append_right _
            (h2 p (by rw [hsplit]; exact List.mem_append_left _ hp1))
        · exact List.mem_append_left _ (List.mem_reverse.mpr hp2)
      · rw [e1, e2]
        calc (st.visitedOrder ++ [cur]) ++ (srest ++ news)
            = (st.visitedOrder ++ ([cur] ++ srest)) ++ news := by simp
          _ |>.Perm ((st.visitedOrder ++ (srest ++ [cur])) ++ news) := by
              apply List.Perm.append_right
              apply List.Perm.append_left
              exact List.perm_append_comm
          _ = (st.visitedOrder ++ st.stack) ++ news := by rw [hsplit]
          _ |>.Perm (news.reverse ++ st.seen) := by
            apply List.Perm.trans (List.Perm.append_right news h3)
            apply List.Perm.trans (List.perm_append_comm)
            exact List.Perm.append (List.reverse_perm news).symm (List.Perm.refl _)
      · intro p hp
        rw [e2] at hp
        rcases List.mem_append.mp hp with hp1 | hp2
        · obtain ⟨q1, q2, _⟩ := e3 p (List.mem_reverse.mp hp1)
          have q1r := List.mem_reverse.mp q1
          exact ⟨reaches_step hcreach q1r q2, q2, neighbors4_bounds hcx hcy q1r⟩
        · exact h4 p hp2
      · intro v hv q hq hnw
        rw [e2]
        rcases List.mem_append.mp hv with hv1 | hv2
        · exact List.mem_append_right _ (h5 v hv1 q hq hnw)
        · simp only [List.mem_singleton] at hv2
          subst hv2
          rcases e5 q (List.mem_reverse.mpr hq) hnw with hq1 | hq2
          · exact List.mem_append_left _ (List.mem_reverse.mpr hq1)
          · exact List.mem_append_right _ hq2
      · rw [e2]; exact List.mem_append_right _ h6
      · simp only [List.length_append, List.length_cons, List.length_nil]
        omega

/-- What one Greedy expansion step does to the frontier and the seen set:
fresh nodes are pushed with their heuristic value and prepended to seen. -/
theorem greedyExpand_spec (grid : Grid) (goal cur : Point) :
    ∀ (nbs : List Point) (opn : List (Point × Nat)) (seen : List Point)
      (came : List (Point × Point)) (fp : Nat),
    ∃ news : List Point,
      (greedyExpand grid goal cur nbs opn seen came fp).1
        = opn ++ news.map (fun q => (q, manhattan q goal)) ∧
      (greedyExpand grid goal cur nbs opn seen came fp).2.1
        = news.reverse ++ seen ∧
      (∀ q ∈ news, q ∈ nbs ∧ cellAt grid q.x q.y ≠ CellType.wall ∧ q ∉ seen) ∧
      (seen.Nodup → (news.reverse ++ seen).Nodup) ∧
      (∀ q ∈ nbs, cellAt grid q.x q.y ≠ CellType.wall →
        q ∈ news ∨ q ∈ seen) := by
  intro nbs
  induction nbs with
  | nil =>
    intro opn seen came fp
    exact ⟨[], by simp [greedyExpand], by simp [greedyExpand], by simp,
      fun h => by simpa, by simp⟩
  | cons nb rest ih =>
    intro opn seen came fp
    rw [greedyExpand]
    split
    · next hwall =>
      obtain ⟨news, e1, e2, e3, e4, e5⟩ := ih opn seen came fp
      refine ⟨news, e1, e2, ?_, e4, ?_⟩
      · intro q hq
        obtain ⟨q1, q2, q3⟩ := e3 q hq
        exact ⟨List.mem_cons_of_mem nb q1, q2, q3⟩
      · intro q hq hnw
        rcases List.mem_cons.mp hq with rfl | hq2
        · exact absurd hwall hnw
        · exact e5 q hq2 hnw
    · next hnw =>
      split
      · next hseen =>
        obtain ⟨news, e1, e2, e3, e4, e5⟩ := ih opn seen came fp
        refine ⟨news, e1, e2, ?_, e4, ?_⟩
        · intro q hq
          obtain ⟨q1, q2, q3⟩ := e3 q hq
          exact ⟨List.mem_cons_of_mem nb q1, q2, q3⟩
        · intro q hq hnw2
          rcases List.mem_cons.mp hq with rfl | hq2
          · exact Or.inr hseen
          · exact e5 q hq2 hnw2
      · next hseen =>
        obtain ⟨news, e1, e2, e3, e4, e5⟩ :=
          ih (opn ++ [(nb, manhattan nb goal)]) (nb :: seen)
            ((nb, cur) :: came) (max fp (opn.length + 1))
        refine ⟨nb :: news, ?_, ?_, ?_, ?_, ?_⟩
        · rw [e1, List.append_assoc]; rfl
        · rw [e2]; simp
        · intro q hq
          rcases List.mem_cons.mp hq with rfl | hq2
          · exact ⟨List.mem_cons_self _ _, hnw, hseen⟩
          · obtain ⟨q1, q2, q3⟩ := e3 q hq2
            exact ⟨List.mem_cons_of_mem nb q1, q2,
              fun hc => q3 (List.mem_cons_of_mem nb hc)⟩
        · intro hnd
          have hp2 : ((nb :: news).reverse ++ seen).Perm
              (news.reverse ++ (nb :: seen)) := by
            simp only [List.reverse_cons, List.append_assoc]
            exact List.Perm.refl _
          apply hp2.nodup_iff.mpr
          exact e4 (List.nodup_cons.mpr ⟨hseen, hnd⟩)
        · intro q hq hnw2
          rcases List.mem_cons.mp hq with rfl | hq2
          · exact Or.inl (List.mem_cons_self q news)
          · rcases e5 q hq2 hnw2 with h1 | h2
            · exact Or.inl (List.mem_cons_of_mem nb h1)
            · rcases List.mem_cons.mp h2 with rfl | h3
              · exact Or.inl (List.mem_cons_self q news)
              · exact Or.inr h3

/-- When the goal is unreachable, the Greedy loop drains its frontier,
reporting not found with an empty path, and its visit log enumerates
exactly the points reachable from start, without duplicates. -/
theorem greedyLoop_exhaust (grid : Grid) (R C : Nat) (start goal : Point)
    (hgoal : ¬ Reaches grid R C start goal) :
    ∀ (fuel : Nat) (st : GreedyState),
    st.seen.Nodup →
    (∀ p ∈ st.openList.map (fun e => e.1), p ∈ st.seen) →
    (st.visitedOrder ++ st.openList.map (fun e => e.1)).Perm st.seen →
    (∀ p ∈ st.seen, Reaches grid R C start p ∧
      cellAt grid p.x p.y ≠ CellType.wall ∧ p.x < R ∧ p.y < C) →
    (∀ v ∈ st.visitedOrder, ∀ q ∈ neighbors4 v.x v.y R C,
      cellAt grid q.x q.y ≠ CellType.wall → q ∈ st.seen) →
    start ∈ st.seen →
    R * C + 1 ≤ fuel + st.visitedOrder.length →
    (greedyLoop grid R C goal fuel st).found = false ∧
    (greedyLoop grid R C goal fuel st).path = [] ∧
    (greedyLoop grid R C goal fuel st).visitedOrder.Nodup ∧
    (∀ p, p ∈ (greedyLoop grid R C goal fuel st).visitedOrder ↔
      Reaches grid R C start p) := by
  intro fuel
  induction fuel with
  | zero =>
    intro st h1 h2 h3 h4 h5 h6 hfuel
    exfalso
    have hlen : st.seen.length ≤ R * C :=
      nodup_bounded_length h1 (fun p hp => (h4 p hp).2.2)
    have := h3.length_eq
    rw [List.length_append] at this
    omega
  | succ n ih =>
    intro st h1 h2 h3 h4 h5 h6 hfuel
    rw [greedyLoop]
    cases hqe : extractMin (fun n => n.2) st.openList with
    | none =>
      have hnil : st.openList = [] := (extractMin_none _ _).mp hqe
      have hperm : st.visitedOrder.Perm st.seen := by
        have := h3; rw [hnil] at this; simpa using this
      refine ⟨rfl, rfl, hperm.nodup_iff.mpr h1, ?_⟩
      intro p
      constructor
      · intro hp
        exact (h4 p (hperm.mem_iff.mp hp)).1
      · intro hr
        obtain ⟨c, hpath⟩ := hr
        show p ∈ st.visitedOrder
        rw [hperm.mem_iff]
        clear hfuel
        induction hpath with
        | nil => exact h6
        | @snoc q r c2 hw hnb hnw ih2 =>
          exact h5 q (hperm.mem_iff.mpr ih2) _ hnb hnw
    | some pr =>
      obtain ⟨node, orest⟩ := pr
      have hpop := (extractMin_spec hqe).1
      have hmapperm : (st.openList.map (fun e => e.1)).Perm
          (node.1 :: orest.map (fun e => e.1)) := by
        simpa using hpop.map (fun e => e.1)
      have hcurseen : node.1 ∈ st.seen :=
        h2 node.1 (List.mem_map_of_mem _ (extractMin_mem hqe))
      obtain ⟨hcreach, hcnw, hcx, hcy⟩ := h4 node.1 hcurseen
      have hg : ¬ (node.1 = goal) := fun hc => hgoal (hc ▸ hcreach)
      simp only [if_neg hg]
      obtain ⟨news, e1, e2, e3, e4, e5⟩ := greedyExpand_spec grid goal node.1
        (neighbors4 node.1.x node.1.y R C) orest st.seen st.cameFrom
        st.frontierPeak
      apply ih
      · simpa [e2] using e4 h1
      · intro p hp
        rw [e1] at hp
        rw [e2]
        simp only [List.map_append, List.mem_append, List.map_map] at hp
        rcases hp with hp1 | hp2
        · refine List.mem_append_right _ (h2 p ?_)
          apply hmapperm.mem_iff.mpr
          exact List.mem_cons_of_mem _ hp1
        · apply List.mem_append_left
          apply List.mem_reverse.mpr
          simpa using hp2
      · rw [e1, e2]
        have hm : ((orest ++ news.map fun q => (q, manhattan q goal)).map
            (fun e => e.1)) = orest.map (fun e => e.1) ++ news := by
          simp [List.map_map, Function.comp_def]
        rw [hm]
        calc (st.visitedOrder ++ [node.1]) ++ (orest.map (fun e => e.1) ++ news)
            = (st.visitedOrder ++ (node.1 :: orest.map (fun e => e.1))) ++ news := by
              simp
          _ |>.Perm ((st.visitedOrder ++ st.openList.map (fun e => e.1)) ++ news) := by
              apply List.Perm.append_right
              exact List.Perm.append_left _ hmapperm.symm
          _ |>.Perm (news.reverse ++ st.seen) := by
            apply List.Perm.trans (List.Perm.append_right news h3)
            apply List.Perm.trans (List.perm_append_comm)
            exact List.Perm.append (List.reverse_perm news).symm (List.Perm.refl _)
      · intro p hp
        rw [e2] at hp
        rcases List.mem_append.mp hp with hp1 | hp2
        · obtain ⟨q1, q2, _⟩ := e3 p (List.mem_reverse.mp hp1)
          exact ⟨reaches_step hcreach q1 q2, q2, neighbors4_bounds hcx hcy q1⟩
        · exact h4 p hp2
      · intro v hv q hq hnw
        rw [e2]
        rcases List.mem_append.mp hv with hv1 | hv2
        · exact List.mem_append_right _ (h5 v hv1 q hq hnw)
        · simp only [List.mem_singleton] at hv2
          subst hv2
          rcases e5 q hq hnw with hq1 | hq2
          · exact List.mem_append_left _ (List.mem_reverse.mpr hq1)
          · exact List.mem_append_right _ hq2
      · rw [e2]; exact List.mem_append_right _ h6
      · simp only [List.length_append, List.length_cons, List.length_nil]
        omega

/-! ### Characterizing the replace-or-push frontier update -/

/-- Recursive description of frontierUpsert: replace the first entry keyed
by the point, or push at the back. -/
def upsertRec : List (Point × Nat) → Point → Nat → List (Point × Nat)
  | [], nb, tg => [(nb, tg)]
  | e :: rest, nb, tg =>
    if e.1 = nb then (nb, tg) :: rest else e :: upsertRec rest nb tg

theorem frontierUpsert_eq_upsertRec :
    ∀ (opn : List (Point × Nat)) (nb : Point) (tg : Nat),
    frontierUpsert opn nb tg = upsertRec opn nb tg := by
  intro opn
  induction opn with
  | nil => intro nb tg; rfl
  | cons e rest ih =>
    intro nb tg
    rw [frontierUpsert, upsertRec, List.findIdx?_cons]
    by_cases he : e.1 = nb
    · rw [if_pos (by simp [he]), if_pos he]
      rfl
    · rw [if_neg (by simp [he]), if_neg he, List.findIdx?_succ, ← ih nb tg,
        frontierUpsert]
      cases hidx : rest.findIdx? (fun n => n.1 = nb) with
      | none => rfl
      | some j => rfl

theorem upsertRec_spec (nb : Point) (tg : Nat) :
    ∀ (opn : List (Point × Nat)), (opn.map (fun e => e.1)).Nodup →
    (∀ e ∈ upsertRec opn nb tg, (e ∈ opn ∧ e.1 ≠ nb) ∨ e = (nb, tg)) ∧
    ((nb, tg) ∈ upsertRec opn nb tg) ∧
    (∀ e ∈ opn, e.1 ≠ nb → e ∈ upsertRec opn nb tg) ∧
    ((upsertRec opn nb tg).map (fun e => e.1)).Nodup ∧
    (∀ p, p ∈ (upsertRec opn nb tg).map (fun e => e.1) ↔
      p ∈ opn.map (fun e => e.1) ∨ p = nb) := by
  intro opn
  induction opn with
  | nil =>
    intro _
    refine ⟨?_, by simp [upsertRec], by simp, by simp [upsertRec], ?_⟩
    · intro e he
      simp only [upsertRec, List.mem_singleton] at he
      exact Or.inr he
    · intro p; simp [upsertRec]
  | cons e0 rest ih =>
    intro hnd
    have hnd0 : e0.1 ∉ rest.map (fun e => e.1) := by
      simp only [List.map_cons, List.nodup_cons] at hnd
      exact hnd.1
    have hndr : (rest.map (fun e => e.1)).Nodup := by
      simp only [List.map_cons, List.nodup_cons] at hnd
      exact hnd.2
    rw [upsertRec]
    split
    · next he0 =>
      refine ⟨?_, List.mem_cons_self _ _, ?_, ?_, ?_⟩
      · intro e he
        rcases List.mem_cons.mp he with rfl | he2
        · exact Or.inr rfl
        · refine Or.inl ⟨List.mem_cons_of_mem e0 he2, ?_⟩
          intro hc
          apply hnd0
          rw [he0, ← hc]
          exact List.mem_map_of_mem (fun e => e.1) he2
      · intro e he hne
        rcases List.mem_cons.mp he with rfl | he2
        · exact absurd he0 hne
        · exact List.mem_cons_of_mem _ he2
      · simpa [he0] using hnd
      · intro p
        simp only [List.map_cons, List.mem_cons, he0]
        tauto
    · next he0 =>
      obtain ⟨i1, i2, i3, i4, i5⟩ := ih hndr
      refine ⟨?_, List.mem_cons_of_mem e0 i2, ?_, ?_, ?_⟩
      · intro e he
        rcases List.mem_cons.mp he with rfl | he2
        · exact Or.inl ⟨List.mem_cons_self _ _, he0⟩
        · rcases i1 e he2 with ⟨h1, h2⟩ | h3
          · exact Or.inl ⟨List.mem_cons_of_mem e0 h1, h2⟩
          · exact Or.inr h3
      · intro e he hne
        rcases List.mem_cons.mp he with rfl | he2
        · exact List.mem_cons_self _ _
        · exact List.mem_cons_of_mem _ (i3 e he2 hne)
      · simp only [List.map_cons, List.nodup_cons]
        refine ⟨?_, i4⟩
        intro hc
        rcases (i5 e0.1).mp hc with h1 | h2
        · exact hnd0 h1
        · exact he0 h2
      · intro p
        simp only [List.map_cons, List.mem_cons]
        rw [i5 p]
        tauto

/-- Recursive description of frontierUpsertA. -/
def upsertRecA : List ANode → ANode → List ANode
  | [], nd => [nd]
  | e :: rest, nd => if e.p = nd.p then nd :: rest else e :: upsertRecA rest nd

theorem frontierUpsertA_eq_upsertRecA :
    ∀ (opn : List ANode) (nd : ANode),
    frontierUpsertA opn nd = upsertRecA opn nd := by
  intro opn
  induction opn with
  | nil => intro nd; rfl
  | cons e rest ih =>
    intro nd
    rw [frontierUpsertA, upsertRecA, List.findIdx?_cons]
    by_cases he : e.p = nd.p
    · rw [if_pos (by simp [he]), if_pos he]
      rfl
    · rw [if_neg (by simp [he]), if_neg he, List.findIdx?_succ, ← ih nd,
        frontierUpsertA]
      cases hidx : rest.findIdx? (fun n => n.p = nd.p) with
      | none => rfl
      | some j => rfl

theorem upsertRecA_spec (nd : ANode) :
    ∀ (opn : List ANode), (opn.map (fun e => e.p)).Nodup →
    (∀ e ∈ upsertRecA opn nd, (e ∈ opn ∧ e.p ≠ nd.p) ∨ e = nd) ∧
    (nd ∈ upsertRecA opn nd) ∧
    (∀ e ∈ opn, e.p ≠ nd.p → e ∈ upsertRecA opn nd) ∧
    ((upsertRecA opn nd).map (fun e => e.p)).Nodup ∧
    (∀ p, p ∈ (upsertRecA opn nd).map (fun e => e.p) ↔
      p ∈ opn.map (fun e => e.p) ∨ p = nd.p) := by
  intro opn
  induction opn with
  | nil =>
    intro _
    refine ⟨?_, by simp [upsertRecA], by simp, by simp [upsertRecA], ?_⟩
    · intro e he
      simp only [upsertRecA, List.mem_singleton] at he
      exact Or.inr he
    · intro p; simp [upsertRecA]
  | cons e0 rest ih =>
    intro hnd
    have hnd0 : e0.p ∉ rest.map (fun e => e.p) := by
      simp only [List.map_cons, List.nodup_cons] at hnd
      exact hnd.1
    have hndr : (rest.map (fun e => e.p)).Nodup := by
      simp only [List.map_cons, List.nodup_cons] at hnd
      exact hnd.2
    rw [upsertRecA]
    split
    · next he0 =>
      refine ⟨?_, List.mem_cons_self _ _, ?_, ?_, ?_⟩
      · intro e he
        rcases List.mem_cons.mp he with rfl | he2
        · exact Or.inr rfl
        · refine Or.inl ⟨List.mem_cons_of_mem e0 he2, ?_⟩
          intro hc
          apply hnd0
          rw [he0, ← hc]
          exact List.mem_map_of_mem (fun e => e.p) he2
      · intro e he hne
        rcases List.mem_cons.mp he with rfl | he2
        · exact absurd he0 hne
        · exact List.mem_cons_of_mem _ he2
      · simpa [he0] using hnd
      · intro p
        simp only [List.map_cons, List.mem_cons, he0]
        tauto
    · next he0 =>
      obtain ⟨i1, i2, i3, i4, i5⟩ := ih hndr
      refine ⟨?_, List.mem_cons_of_mem e0 i2, ?_, ?_, ?_⟩
      · intro e he
        rcases List.mem_cons.mp he with rfl | he2
        · exact Or.inl ⟨List.mem_cons_self _ _, he0⟩
        · rcases i1 e he2 with ⟨h1, h2⟩ | h3
          · exact Or.inl ⟨List.mem_cons_of_mem e0 h1, h2⟩
          · exact Or.inr h3
      · intro e he hne
        rcases List.mem_cons.mp he with rfl | he2
        · exact List.mem_cons_self _ _
        · exact List.mem_cons_of_mem _ (i3 e he2 hne)
      · simp only [List.map_cons, List.nodup_cons]
        refine ⟨?_, i4⟩
        intro hc
        rcases (i5 e0.p).mp hc with h1 | h2
        · exact hnd0 h1
        · exact he0 h2
      · intro p
        simp only [List.map_cons, List.mem_cons]
        rw [i5 p]
        tauto

/-! ### Dijkstra-style invariants for UCS -/

theorem neighbors4_ne_self {x y R C : Nat} {q : Point}
    (h : q ∈ neighbors4 x y R C) : q ≠ ⟨x, y⟩ := by
  intro hc
  have h1 := manhattan_neighbors4 h
  rw [hc] at h1
  simp [manhattan, Nat.dist] at h1

theorem assocFind_singleton {s p : Point} {v0 v : Nat}
    (h : assocFind [(s, v0)] p = some v) : p = s ∧ v = v0 := by
  rw [assocFind] at h
  split at h
  · next he => cases h; exact ⟨he.symm, rfl⟩
  · rw [assocFind] at h; cases h

theorem relaxCond_false {gS : List (Point × Nat)} {nb : Point} {tg : Nat}
    (h : relaxCond gS nb tg = false) :
    ∃ gn, assocFind gS nb = some gn ∧ gn ≤ tg := by
  rw [relaxCond] at h
  cases hf : assocFind gS nb with
  | none => rw [hf] at h; cases h
  | some gn =>
    rw [hf] at h
    refine ⟨gn, rfl, ?_⟩
    by_contra hc
    simp only [decide_eq_false_iff_not, not_lt] at h
    omega

theorem relaxCond_some_true {gS : List (Point × Nat)} {nb : Point}
    {tg gn : Nat} (hf : assocFind gS nb = some gn)
    (h : relaxCond gS nb tg = true) : tg < gn := by
  rw [relaxCond, hf] at h
  exact of_decide_eq_true h

/-- The state invariant carried through the relaxation of the popped
node's neighbors.  closed is the visit log including the popped node cur,
whose final g value is gcur. -/
structure UcsCore (grid : Grid) (R C : Nat) (start : Point)
    (closed : List Point) (cur : Point) (gcur : Nat)
    (opn gS : List (Point × Nat)) : Prop where
  openNodup : (opn.map (fun e => e.1)).Nodup
  openG : ∀ e ∈ opn, assocFind gS e.1 = some e.2
  gDefined : ∀ p v, assocFind gS p = some v →
    p ∈ closed ∨ p ∈ opn.map (fun e => e.1)
  openNotClosed : ∀ e ∈ opn, e.1 ∉ closed
  sound : ∀ p v, assocFind gS p = some v → PathTo grid R C start p v
  closedExact : ∀ p ∈ closed, ∃ v, assocFind gS p = some v ∧
    IsMinCost grid R C start p v
  closedMin : ∀ p ∈ closed, ∀ e ∈ opn, ∀ v,
    assocFind gS p = some v → v ≤ e.2
  startG : assocFind gS start = some 0
  inBounds : ∀ p v, assocFind gS p = some v → p.x < R ∧ p.y < C
  curG : assocFind gS cur = some gcur
  curMin : ∀ e ∈ opn, gcur ≤ e.2
  closedLe : ∀ p ∈ closed, ∀ v, assocFind gS p = some v → v ≤ gcur
  oldBoundary : ∀ p ∈ closed, p ≠ cur → ∀ q ∈ neighbors4 p.x p.y R C,
    cellAt grid q.x q.y ≠ CellType.wall →
    ∃ w vp, assocFind gS q = some w ∧ assocFind gS p = some vp ∧
      w ≤ vp + stepCost grid q

/-- Relaxing the popped node's neighbors preserves the core invariant and
establishes the boundary property for the popped node. -/
theorem ucsRelax_spec (grid : Grid) (R C : Nat) (start : Point)
    (closed : List Point) (cur : Point) (gcur : Nat)
    (hcx : cur.x < R) (hcy : cur.y < C) :
    ∀ (nbs : List Point) (opn gS : List (Point × Nat))
      (came : List (Point × Point)) (fp : Nat),
    (∀ b ∈ nbs, b ∈ neighbors4 cur.x cur.y R C) →
    UcsCore grid R C start closed cur gcur opn gS →
    (∀ q ∈ neighbors4 cur.x cur.y R C, cellAt grid q.x q.y ≠ CellType.wall →
      q ∉ nbs → ∃ w, assocFind gS q = some w ∧ w ≤ gcur + stepCost grid q) →
    UcsCore grid R C start closed cur gcur
      (ucsRelax grid cur nbs opn gS came fp).1
      (ucsRelax grid cur nbs opn gS came fp).2.1 ∧
    (∀ q ∈ neighbors4 cur.x cur.y R C, cellAt grid q.x q.y ≠ CellType.wall →
      ∃ w, assocFind (ucsRelax grid cur nbs opn gS came fp).2.1 q = some w ∧
        w ≤ gcur + stepCost grid q) := by
  intro nbs
  induction nbs with
  | nil =>
    intro opn gS came fp hnb core hrem
    exact ⟨core, fun q hq hnw => hrem q hq hnw (by simp)⟩
  | cons nb rest ih =>
    intro opn gS came fp hnb core hrem
    have hnbmem : nb ∈ neighbors4 cur.x cur.y R C :=
      hnb nb (List.mem_cons_self nb rest)
    have hsub : ∀ b ∈ rest, b ∈ neighbors4 cur.x cur.y R C :=
      fun b hb => hnb b (List.mem_cons_of_mem nb hb)
    rw [ucsRelax]
    split
    · next hwall =>
      apply ih _ _ _ _ hsub core
      intro q hq hnw hqr
      by_cases hqnb : q = nb
      · subst hqnb; exact absurd hwall hnw
      · exact hrem q hq hnw (by simp [hqnb, hqr])
    · next hnw =>
      split
      · next heq =>
        rw [core.curG] at heq
        cases heq
      · next gc heq =>
        have hgc : gcur = gc := by
          rw [core.curG] at heq
          injection heq
        subst hgc
        split
        · next hrc =>
          -- the relaxation fires: nb gets g value tg := gcur + step nb
          have hnbclosed : nb ∉ closed := by
            intro hc
            obtain ⟨v, hv, _⟩ := core.closedExact nb hc
            have hlt := relaxCond_some_true hv hrc
            have hle := core.closedLe nb hc v hv
            have := stepCost_pos grid nb
            omega
          have hnbne : ∀ e ∈ opn, e.1 ≠ nb → nb ≠ e.1 :=
            fun e _ h hc => h hc.symm
          have hfind : ∀ p, p ≠ nb →
              assocFind ((nb, gcur + stepCost grid nb) :: gS) p
                = assocFind gS p := by
            intro p hp
            exact assocFind_cons_ne gS _ (fun hc => hp hc.symm)
          have hfindnb : assocFind ((nb, gcur + stepCost grid nb) :: gS) nb
              = some (gcur + stepCost grid nb) := assocFind_cons_self gS nb _
          obtain ⟨i1, i2, i3, i4, i5⟩ :=
            upsertRec_spec nb (gcur + stepCost grid nb) opn core.openNodup
          rw [frontierUpsert_eq_upsertRec]
          have hnbcur : nb ≠ cur := by
            have := neighbors4_ne_self hnbmem
            intro hc
            exact this (by rw [hc])
          have hnbstart : nb ≠ start := by
            intro hc
            subst hc
            have := relaxCond_some_true core.startG hrc
            omega
          have core2 : UcsCore grid R C start closed cur gcur
              (upsertRec opn nb (gcur + stepCost grid nb))
              ((nb, gcur + stepCost grid nb) :: gS) := by
            constructor
            · exact i4
            · intro e he
              rcases i1 e he with ⟨h1, h2⟩ | h3
              · rw [hfind e.1 h2]
                exact core.openG e h1
              · subst h3
                exact hfindnb
            · intro p v hv
              by_cases hp : p = nb
              · subst hp
                exact Or.inr ((i5 p).mpr (Or.inr rfl))
              · rw [hfind p hp] at hv
                rcases core.gDefined p v hv with h1 | h2
                · exact Or.inl h1
                · exact Or.inr ((i5 p).mpr (Or.inl h2))
            · intro e he
              rcases i1 e he with ⟨h1, _⟩ | h3
              · exact core.openNotClosed e h1
              · subst h3
                exact hnbclosed
            · intro p v hv
              by_cases hp : p = nb
              · subst hp
                rw [hfindnb] at hv
                cases hv
                exact PathTo.snoc (core.sound cur gcur core.curG) hnbmem hnw
              · rw [hfind p hp] at hv
                exact core.sound p v hv
            · intro p hp
              obtain ⟨v, hv, hmc⟩ := core.closedExact p hp
              have hpnb : p ≠ nb := fun hc => hnbclosed (hc ▸ hp)
              exact ⟨v, by rw [hfind p hpnb]; exact hv, hmc⟩
            · intro p hp e he v hv
              have hpnb : p ≠ nb := fun hc => hnbclosed (hc ▸ hp)
              rw [hfind p hpnb] at hv
              rcases i1 e he with ⟨h1, _⟩ | h3
              · exact core.closedMin p hp e h1 v hv
              · subst h3
                have := core.closedLe p hp v hv
                have := stepCost_pos grid nb
                simp only []
                omega
            · rw [hfind start hnbstart.symm]
              exact core.startG
            · intro p v hv
              by_cases hp : p = nb
              · subst hp
                exact neighbors4_bounds hcx hcy hnbmem
              · rw [hfind p hp] at hv
                exact core.inBounds p v hv
            · rw [hfind cur (fun hc => hnbcur hc.symm)]
              exact core.curG
            · intro e he
              rcases i1 e he with ⟨h1, _⟩ | h3
              · exact core.curMin e h1
              · subst h3
                simp only []
                omega
            · intro p hp v hv
              have hpnb : p ≠ nb := fun hc => hnbclosed (hc ▸ hp)
              rw [hfind p hpnb] at hv
              exact core.closedLe p hp v hv
            · intro p hp hpcur q hq hnw2
              obtain ⟨w, vp, hw, hvp, hle⟩ :=
                core.oldBoundary p hp hpcur q hq hnw2
              have hpnb : p ≠ nb := fun hc => hnbclosed (hc ▸ hp)
              refine ⟨?_, vp, ?_, by rw [hfind p hpnb]; exact hvp, ?_⟩
              · exact if q = nb then gcur + stepCost grid nb else w
              · by_cases hqnb : q = nb
                · simp only [hqnb, if_pos rfl]
                  exact hfindnb
                · simp only [if_neg hqnb]
                  rw [hfind q hqnb]
                  exact hw
              · by_cases hqnb : q = nb
                · simp only [if_pos hqnb]
                  have hlt := relaxCond_some_true (hqnb ▸ hw) hrc
                  subst hqnb
                  omega
                · simp only [if_neg hqnb]
                  exact hle
          apply ih _ _ _ _ hsub core2
          intro q hq hnw2 hqr
          by_cases hqnb : q = nb
          · subst hqnb
            exact ⟨gcur + stepCost grid q, hfindnb, le_refl _⟩
          · obtain ⟨w, hw, hwle⟩ := hrem q hq hnw2 (by simp [hqnb, hqr])
            exact ⟨w, by rw [hfind q hqnb]; exact hw, hwle⟩
        · next hrc =>
          -- no relaxation: nb already has a g value at most tg
          have hrcf : relaxCond gS nb (gcur + stepCost grid nb) = false := by
            rcases Bool.eq_false_or_eq_true
              (relaxCond gS nb (gcur + stepCost grid nb)) with h | h
            · exact absurd h hrc
            · exact h
          obtain ⟨gn, hgn, hgnle⟩ := relaxCond_false hrcf
          apply ih _ _ _ _ hsub core
          intro q hq hnw2 hqr
          by_cases hqnb : q = nb
          · subst hqnb
            exact ⟨gn, hgn, by omega⟩
          · exact hrem q hq hnw2 (by simp [hqnb, hqr])

/-- The UCS loop invariant (spec section 4.5): open entries agree with the
score map, scores are realizable path costs, expanded nodes carry exact
minimal costs below every open key, and expanded nodes' neighborhoods have
been relaxed. -/
structure UcsInv (grid : Grid) (R C : Nat) (start : Point)
    (st : UcsState) : Prop where
  openNodup : (st.openList.map (fun e => e.1)).Nodup
  openG : ∀ e ∈ st.openList, assocFind st.gScore e.1 = some e.2
  gDefined : ∀ p v, assocFind st.gScore p = some v →
    p ∈ st.visitedOrder ∨ p ∈ st.openList.map (fun e => e.1)
  openNotClosed : ∀ e ∈ st.openList, e.1 ∉ st.visitedOrder
  closedNodup : st.visitedOrder.Nodup
  sound : ∀ p v, assocFind st.gScore p = some v → PathTo grid R C start p v
  closedExact : ∀ p ∈ st.visitedOrder, ∃ v, assocFind st.gScore p = some v ∧
    IsMinCost grid R C start p v
  closedMin : ∀ p ∈ st.visitedOrder, ∀ e ∈ st.openList, ∀ v,
    assocFind st.gScore p = some v → v ≤ e.2
  startG : assocFind st.gScore start = some 0
  inBounds : ∀ p v, assocFind st.gScore p = some v → p.x < R ∧ p.y < C
  boundary : ∀ p ∈ st.visitedOrder, ∀ q ∈ neighbors4 p.x p.y R C,
    cellAt grid q.x q.y ≠ CellType.wall →
    ∃ w vp, assocFind st.gScore q = some w ∧ assocFind st.gScore p = some vp ∧
      w ≤ vp + stepCost grid q

/-- On any walk to a not-yet-expanded point there is an open frontier entry
whose key is at most the cost of some split of the walk through it. -/
theorem ucs_path_open_bound {grid : Grid} {R C : Nat} {start : Point}
    {st : UcsState} (inv : UcsInv grid R C start st) :
    ∀ {p : Point} {D : Nat}, PathTo grid R C start p D →
    p ∉ st.visitedOrder →
    ∃ e ∈ st.openList, ∃ D1 D2, e.2 ≤ D1 ∧ PathTo grid R C e.1 p D2 ∧
      D1 + D2 = D := by
  intro p D hpath
  induction hpath with
  | nil =>
    intro hns
    rcases inv.gDefined start 0 inv.startG with h1 | h2
    · exact absurd h1 hns
    · obtain ⟨e, he, heq⟩ := List.mem_map.mp h2
      have hg := inv.openG e he
      rw [heq, inv.startG] at hg
      have he2 : e.2 = 0 := by injection hg with h; exact h.symm
      refine ⟨e, he, 0, 0, by omega, ?_, rfl⟩
      rw [heq]
      exact PathTo.nil
  | @snoc q r c hq hnb hnw ihq =>
    intro hns
    by_cases hqc : q ∈ st.visitedOrder
    · obtain ⟨w, vq, hw, hvq, hle⟩ := inv.boundary q hqc r hnb hnw
      obtain ⟨vq2, hvq2, hmc⟩ := inv.closedExact q hqc
      have hveq : vq = vq2 := by rw [hvq] at hvq2; injection hvq2
      have hvqle : vq ≤ c := hveq ▸ hmc.2 c hq
      rcases inv.gDefined r w hw with h1 | h2
      · exact absurd h1 hns
      · obtain ⟨e, he, heq⟩ := List.mem_map.mp h2
        have hg := inv.openG e he
        rw [heq, hw] at hg
        have he2 : e.2 = w := by injection hg with h; exact h.symm
        refine ⟨e, he, c + stepCost grid r, 0, by omega, ?_, by omega⟩
        rw [heq]
        exact PathTo.nil
    · obtain ⟨e, he, D1, D2, h1, h2, h3⟩ := ihq hqc
      exact ⟨e, he, D1, D2 + stepCost grid r, h1,
        PathTo.snoc h2 hnb hnw, by omega⟩

/-- What popping the minimum-g entry guarantees: the node is new, its g is
the exact minimal cost, and its g bounds the cost of every walk to every
not-yet-expanded point. -/
theorem ucs_pop_spec {grid : Grid} {R C : Nat} {start : Point}
    {st : UcsState} (inv : UcsInv grid R C start st)
    {node : Point × Nat} {orest : List (Point × Nat)}
    (hpop : extractMin (fun n => n.2) st.openList = some (node, orest)) :
    node.1 ∉ st.visitedOrder ∧
    IsMinCost grid R C start node.1 node.2 ∧
    assocFind st.gScore node.1 = some node.2 ∧
    (∀ t D, PathTo grid R C start t D → t ∉ st.visitedOrder →
      node.2 ≤ D) := by
  have hmem := extractMin_mem hpop
  have hmin := (extractMin_spec hpop).2
  have hnotc := inv.openNotClosed node hmem
  have hfind := inv.openG node hmem
  have hbound : ∀ t D, PathTo grid R C start t D → t ∉ st.visitedOrder →
      node.2 ≤ D := by
    intro t D hpath hnt
    obtain ⟨e, he, D1, D2, h1, _, h3⟩ := ucs_path_open_bound inv hpath hnt
    have := hmin e he
    omega
  exact ⟨hnotc, ⟨inv.sound _ _ hfind,
    fun c2 h2 => hbound node.1 c2 h2 hnotc⟩, hfind, hbound⟩

/-- Popping the minimum entry and relaxing its neighbors re-establishes
the loop invariant with the popped node appended to the visit log. -/
theorem ucs_next_inv {grid : Grid} {R C : Nat} {start : Point}
    {st : UcsState} (inv : UcsInv grid R C start st)
    {node : Point × Nat} {orest : List (Point × Nat)}
    (hpop : extractMin (fun n => n.2) st.openList = some (node, orest))
    (st2 : UcsState)
    (ho : st2.openList = (ucsRelax grid node.1
      (neighbors4 node.1.x node.1.y R C) orest st.gScore st.cameFrom
      st.frontierPeak).1)
    (hg : st2.gScore = (ucsRelax grid node.1
      (neighbors4 node.1.x node.1.y R C) orest st.gScore st.cameFrom
      st.frontierPeak).2.1)
    (hv : st2.visitedOrder = st.visitedOrder ++ [node.1]) :
    UcsInv grid R C start st2 := by
  obtain ⟨hnotc, hexact, hfind, hbound⟩ := ucs_pop_spec inv hpop
  have hmem := extractMin_mem hpop
  have hperm := (extractMin_spec hpop).1
  have hmin := (extractMin_spec hpop).2
  have hsubset := extractMin_subset hpop
  have hmapnd : (node.1 :: orest.map (fun e => e.1)).Nodup := by
    have := (hperm.map (fun e => e.1)).nodup_iff.mp inv.openNodup
    simpa using this
  have hbx := inv.inBounds node.1 node.2 hfind
  have hclosed2 : ∀ p, p ∈ st.visitedOrder ++ [node.1] ↔
      p ∈ st.visitedOrder ∨ p = node.1 := by
    intro p; simp
  have core : UcsCore grid R C start (st.visitedOrder ++ [node.1])
      node.1 node.2 orest st.gScore := by
    constructor
    · exact hmapnd.of_cons
    · exact fun e he => inv.openG e (hsubset e he)
    · intro p v hv2
      rcases inv.gDefined p v hv2 with h1 | h2
      · exact Or.inl ((hclosed2 p).mpr (Or.inl h1))
      · have hpm : p ∈ (node :: orest).map (fun e => e.1) :=
          (hperm.map (fun e => e.1)).mem_iff.mp h2
        rcases List.mem_cons.mp hpm with h3 | h4
        · exact Or.inl ((hclosed2 p).mpr (Or.inr h3))
        · exact Or.inr h4
    · intro e he hc
      rcases (hclosed2 e.1).mp hc with h1 | h2
      · exact inv.openNotClosed e (hsubset e he) h1
      · have : node.1 ∈ orest.map (fun e => e.1) :=
          h2 ▸ List.mem_map_of_mem _ he
        exact (List.nodup_cons.mp hmapnd).1 this
    · exact inv.sound
    · intro p hp
      rcases (hclosed2 p).mp hp with h1 | h2
      · exact inv.closedExact p h1
      · subst h2
        exact ⟨node.2, hfind, hexact⟩
    · intro p hp e he v hv2
      rcases (hclosed2 p).mp hp with h1 | h2
      · exact inv.closedMin p h1 e (hsubset e he) v hv2
      · subst h2
        rw [hfind] at hv2
        have : node.2 = v := by injection hv2
        rw [← this]
        exact hmin e (hsubset e he)
    · exact inv.startG
    · exact inv.inBounds
    · exact hfind
    · exact fun e he => hmin e (hsubset e he)
    · intro p hp v hv2
      rcases (hclosed2 p).mp hp with h1 | h2
      · exact inv.closedMin p h1 node hmem v hv2
      · subst h2
        rw [hfind] at hv2
        have : node.2 = v := by injection hv2
        omega
    · intro p hp hne q hq hnw
      rcases (hclosed2 p).mp hp with h1 | h2
      · exact inv.boundary p h1 q hq hnw
      · exact absurd h2 hne
  obtain ⟨core2, curbd⟩ := ucsRelax_spec grid R C start
    (st.visitedOrder ++ [node.1]) node.1 node.2 hbx.1 hbx.2
    (neighbors4 node.1.x node.1.y R C) orest st.gScore st.cameFrom
    st.frontierPeak (fun b hb => hb) core
    (fun q hq _ hqn => absurd hq hqn)
  constructor
  · rw [ho]; exact core2.openNodup
  · intro e he
    rw [hg]
    rw [ho] at he
    exact core2.openG e he
  · intro p v hv2
    rw [hg] at hv2
    rw [hv, ho]
    exact core2.gDefined p v hv2
  · intro e he
    rw [ho] at he
    rw [hv]
    exact core2.openNotClosed e he
  · rw [hv]
    refine List.Nodup.append inv.closedNodup (by simp) ?_
    intro a ha hb
    simp only [List.mem_singleton] at hb
    subst hb
    exact hnotc ha
  · intro p v hv2
    rw [hg] at hv2
    exact core2.sound p v hv2
  · intro p hp
    rw [hv] at hp
    obtain ⟨v, h1, h2⟩ := core2.closedExact p hp
    exact ⟨v, by rw [hg]; exact h1, h2⟩
  · intro p hp e he v hv2
    rw [hv] at hp
    rw [ho] at he
    rw [hg] at hv2
    exact core2.closedMin p hp e he v hv2
  · rw [hg]; exact core2.startG
  · intro p v hv2
    rw [hg] at hv2
    exact core2.inBounds p v hv2
  · intro p hp q hq hnw
    rw [hv] at hp
    by_cases hpn : p = node.1
    · subst hpn
      obtain ⟨w, hw, hwle⟩ := curbd q hq hnw
      exact ⟨w, node.2, by rw [hg]; exact hw, by rw [hg]; exact core2.curG,
        hwle⟩
    · obtain ⟨w, vp, hw, hvp, hwle⟩ := core2.oldBoundary p hp hpn q hq hnw
      exact ⟨w, vp, by rw [hg]; exact hw, by rw [hg]; exact hvp, hwle⟩

theorem ucsInv_closed_bounded {grid : Grid} {R C : Nat} {start : Point}
    {st : UcsState} (inv : UcsInv grid R C start st) :
    st.visitedOrder.length ≤ R * C := by
  apply nodup_bounded_length inv.closedNodup
  intro p hp
  obtain ⟨v, hv, _⟩ := inv.closedExact p hp
  exact inv.inBounds p v hv

/-- With an empty frontier every reachable point has been expanded. -/
theorem ucsInv_all_closed {grid : Grid} {R C : Nat} {start : Point}
    {st : UcsState} (inv : UcsInv grid R C start st)
    (hempty : st.openList = []) :
    ∀ p c, PathTo grid R C start p c → p ∈ st.visitedOrder := by
  intro p c hpath
  induction hpath with
  | nil =>
    rcases inv.gDefined start 0 inv.startG with h | h
    · exact h
    · rw [hempty] at h; simp at h
  | @snoc q r c2 hq hnb hnw ihq =>
    obtain ⟨w, vq, hw, _, _⟩ := inv.boundary q ihq r hnb hnw
    rcases inv.gDefined r w hw with h | h
    · exact h
    · rw [hempty] at h; simp at h

/-- When the goal is reachable, the UCS loop reports found with the exact
minimal cost as totalCost. -/
theorem ucsLoop_found (grid : Grid) (R C : Nat) (start goal : Point)
    (hreach : Reaches grid R C start goal) :
    ∀ (fuel : Nat) (st : UcsState),
    UcsInv grid R C start st →
    goal ∉ st.visitedOrder →
    R * C + 1 ≤ fuel + st.visitedOrder.length →
    (ucsLoop grid R C goal fuel st).found = true ∧
    IsMinCost grid R C start goal
      (ucsLoop grid R C goal fuel st).totalCost := by
  intro fuel
  induction fuel with
  | zero =>
    intro st inv hgnot hfuel
    exfalso
    have := ucsInv_closed_bounded inv
    omega
  | succ n ih =>
    intro st inv hgnot hfuel
    rw [ucsLoop]
    cases hqe : extractMin (fun n => n.2) st.openList with
    | none =>
      exfalso
      obtain ⟨cg, hpathg⟩ := hreach
      exact hgnot (ucsInv_all_closed inv ((extractMin_none _ _).mp hqe)
        goal cg hpathg)
    | some pr =>
      obtain ⟨node, orest⟩ := pr
      obtain ⟨hnotc, hexact, hfind, hbound⟩ := ucs_pop_spec inv hqe
      by_cases hng : node.1 = goal
      · simp only [hng, if_pos rfl]
        refine ⟨rfl, ?_⟩
        have hfg : assocFind st.gScore goal = some node.2 := hng ▸ hfind
        show IsMinCost grid R C start goal
          ((assocFind st.gScore goal).getD 0)
        rw [hfg]
        exact hng ▸ hexact
      · simp only [if_neg hng]
        apply ih
        · exact ucs_next_inv inv hqe _ rfl rfl rfl
        · intro hc
          rcases List.mem_append.mp hc with h1 | h2
          · exact hgnot h1
          · simp only [List.mem_singleton] at h2
            exact hng h2.symm
        · simp only [List.length_append, List.length_cons, List.length_nil]
          omega

/-- When the goal is unreachable, the UCS loop drains its frontier and its
visit log enumerates exactly the reachable points, without duplicates. -/
theorem ucsLoop_exhaust (grid : Grid) (R C : Nat) (start goal : Point)
    (hgoal : ¬ Reaches grid R C start goal) :
    ∀ (fuel : Nat) (st : UcsState),
    UcsInv grid R C start st →
    R * C + 1 ≤ fuel + st.visitedOrder.length →
    (ucsLoop grid R C goal fuel st).found = false ∧
    (ucsLoop grid R C goal fuel st).path = [] ∧
    (ucsLoop grid R C goal fuel st).visitedOrder.Nodup ∧
    (∀ p, p ∈ (ucsLoop grid R C goal fuel st).visitedOrder ↔
      Reaches grid R C start p) := by
  intro fuel
  induction fuel with
  | zero =>
    intro st inv hfuel
    exfalso
    have := ucsInv_closed_bounded inv
    omega
  | succ n ih =>
    intro st inv hfuel
    rw [ucsLoop]
    cases hqe : extractMin (fun n => n.2) st.openList with
    | none =>
      refine ⟨rfl, rfl, inv.closedNodup, ?_⟩
      intro p
      show p ∈ st.visitedOrder ↔ _
      constructor
      · intro hp
        obtain ⟨v, hv, _⟩ := inv.closedExact p hp
        exact ⟨v, inv.sound p v hv⟩
      · rintro ⟨c, hpath⟩
        exact ucsInv_all_closed inv ((extractMin_none _ _).mp hqe) p c hpath
    | some pr =>
      obtain ⟨node, orest⟩ := pr
      obtain ⟨hnotc, hexact, hfind, hbound⟩ := ucs_pop_spec inv hqe
      have hng : ¬ (node.1 = goal) := by
        intro hc
        exact hgoal (hc ▸ ⟨node.2, inv.sound _ _ hfind⟩)
      simp only [if_neg hng]
      apply ih
      · exact ucs_next_inv inv hqe _ rfl rfl rfl
      · simp only [List.length_append, List.length_cons, List.length_nil]
        omega

/-- When the goal is reachable with minimal cost cg, the UCS visit log
ends up containing the goal and every point that admits a walk strictly
cheaper than cg. -/
theorem ucsLoop_count (grid : Grid) (R C : Nat) (start goal : Point)
    (cg : Nat) (hcg : IsMinCost grid R C start goal cg)
    (hreach : Reaches grid R C start goal) :
    ∀ (fuel : Nat) (st : UcsState),
    UcsInv grid R C start st →
    goal ∉ st.visitedOrder →
    R * C + 1 ≤ fuel + st.visitedOrder.length →
    (∀ p ∈ st.visitedOrder,
      p ∈ (ucsLoop grid R C goal fuel st).visitedOrder) ∧
    goal ∈ (ucsLoop grid R C goal fuel st).visitedOrder ∧
    (∀ p cp, PathTo grid R C start p cp → cp < cg →
      p ∈ (ucsLoop grid R C goal fuel st).visitedOrder) := by
  intro fuel
  induction fuel with
  | zero =>
    intro st inv hgnot hfuel
    exfalso
    have := ucsInv_closed_bounded inv
    omega
  | succ n ih =>
    intro st inv hgnot hfuel
    rw [ucsLoop]
    cases hqe : extractMin (fun n => n.2) st.openList with
    | none =>
      exfalso
      obtain ⟨cg2, hpathg⟩ := hreach
      exact hgnot (ucsInv_all_closed inv ((extractMin_none _ _).mp hqe)
        goal cg2 hpathg)
    | some pr =>
      obtain ⟨node, orest⟩ := pr
      obtain ⟨hnotc, hexact, hfind, hbound⟩ := ucs_pop_spec inv hqe
      by_cases hng : node.1 = goal
      · simp only [hng, if_pos rfl]
        have hcgeq : node.2 = cg :=
          isMinCost_unique (hng ▸ hexact) hcg
        refine ⟨?_, ?_, ?_⟩
        · intro p hp
          show p ∈ st.visitedOrder ++ [goal]
          exact List.mem_append_left _ hp
        · show goal ∈ st.visitedOrder ++ [goal]
          exact List.mem_append_right _ (List.mem_singleton.mpr rfl)
        · intro p cp hpath hlt
          show p ∈ st.visitedOrder ++ [goal]
          by_contra hpc
          have hpnot : p ∉ st.visitedOrder :=
            fun hc => hpc (List.mem_append_left _ hc)
          have := hbound p cp hpath hpnot
          omega
      · simp only [if_neg hng]
        have hgnot2 : goal ∉ st.visitedOrder ++ [node.1] := by
          intro hc
          rcases List.mem_append.mp hc with h1 | h2
          · exact hgnot h1
          · simp only [List.mem_singleton] at h2
            exact hng h2.symm
        have hfuel2 : R * C + 1 ≤ n + (st.visitedOrder ++ [node.1]).length := by
          simp only [List.length_append, List.length_cons, List.length_nil]
          omega
        obtain ⟨c1, c2, c3⟩ :=
          ih { openList := (ucsRelax grid node.1
                  (neighbors4 node.1.x node.1.y R C) orest st.gScore
                  st.cameFrom st.frontierPeak).1,
               gScore := (ucsRelax grid node.1
                  (neighbors4 node.1.x node.1.y R C) orest st.gScore
                  st.cameFrom st.frontierPeak).2.1,
               cameFrom := (ucsRelax grid node.1
                  (neighbors4 node.1.x node.1.y R C) orest st.gScore
                  st.cameFrom st.frontierPeak).2.2.1,
               visitedOrder := st.visitedOrder ++ [node.1],
               frontierPeak := (ucsRelax grid node.1
                  (neighbors4 node.1.x node.1.y R C) orest st.gScore
                  st.cameFrom st.frontierPeak).2.2.2,
               visitedPeak := max st.visitedPeak
                  (st.visitedOrder ++ [node.1]).length,
               frontierSnapshots := st.frontierSnapshots ++ [(ucsRelax grid
                  node.1 (neighbors4 node.1.x node.1.y R C) orest st.gScore
                  st.cameFrom st.frontierPeak).1.map (fun n => n.1)] }
            (ucs_next_inv inv hqe _ rfl rfl rfl) hgnot2 hfuel2
        refine ⟨?_, c2, c3⟩
        intro p hp
        exact c1 p (List.mem_append_left _ hp)

/-! ### Invariants for A* (spec section 4.7) -/

/-- The state invariant carried through A*'s relaxation.  Frontier entries
agree with the score map and cache h = manhattan(p, goal) and f = g + h;
expanded nodes carry exact minimal costs whose f-value is below every open
f key. -/
structure ACore (grid : Grid) (R C : Nat) (start goal : Point)
    (closed : List Point) (cur : Point) (gcur : Nat)
    (opn : List ANode) (gS : List (Point × Nat)) : Prop where
  openNodup : (opn.map (fun e => e.p)).Nodup
  openG : ∀ e ∈ opn, assocFind gS e.p = some e.g
  openH : ∀ e ∈ opn, e.h = manhattan e.p goal
  openF : ∀ e ∈ opn, e.f = e.g + e.h
  gDefined : ∀ p v, assocFind gS p = some v →
    p ∈ closed ∨ p ∈ opn.map (fun e => e.p)
  openNotClosed : ∀ e ∈ opn, e.p ∉ closed
  sound : ∀ p v, assocFind gS p = some v → PathTo grid R C start p v
  closedExact : ∀ p ∈ closed, ∃ v, assocFind gS p = some v ∧
    IsMinCost grid R C start p v
  closedMinF : ∀ p ∈ closed, ∀ e ∈ opn, ∀ v,
    assocFind gS p = some v → v + manhattan p goal ≤ e.f
  startG : assocFind gS start = some 0
  inBounds : ∀ p v, assocFind gS p = some v → p.x < R ∧ p.y < C
  curG : assocFind gS cur = some gcur
  curMinF : ∀ e ∈ opn, gcur + manhattan cur goal ≤ e.f
  closedLeF : ∀ p ∈ closed, ∀ v, assocFind gS p = some v →
    v + manhattan p goal ≤ gcur + manhattan cur goal
  oldBoundary : ∀ p ∈ closed, p ≠ cur → ∀ q ∈ neighbors4 p.x p.y R C,
    cellAt grid q.x q.y ≠ CellType.wall →
    ∃ w vp, assocFind gS q = some w ∧ assocFind gS p = some vp ∧
      w ≤ vp + stepCost grid q

/-- A*'s relaxation preserves the core invariant and establishes the
boundary property for the popped node. -/
theorem astarRelax_spec (grid : Grid) (R C : Nat) (start goal : Point)
    (closed : List Point) (cur : Point) (gcur : Nat)
    (hcx : cur.x < R) (hcy : cur.y < C) :
    ∀ (nbs : List Point) (opn : List ANode) (gS : List (Point × Nat))
      (came : List (Point × Point)) (fp : Nat),
    (∀ b ∈ nbs, b ∈ neighbors4 cur.x cur.y R C) →
    ACore grid R C start goal closed cur gcur opn gS →
    (∀ q ∈ neighbors4 cur.x cur.y R C, cellAt grid q.x q.y ≠ CellType.wall →
      q ∉ nbs → ∃ w, assocFind gS q = some w ∧ w ≤ gcur + stepCost grid q) →
    ACore grid R C start goal closed cur gcur
      (astarRelax grid goal cur nbs opn gS came fp).1
      (astarRelax grid goal cur nbs opn gS came fp).2.1 ∧
    (∀ q ∈ neighbors4 cur.x cur.y R C, cellAt grid q.x q.y ≠ CellType.wall →
      ∃ w, assocFind (astarRelax grid goal cur nbs opn gS came fp).2.1 q
        = some w ∧ w ≤ gcur + stepCost grid q) := by
  intro nbs
  induction nbs with
  | nil =>
    intro opn gS came fp hnb core hrem
    exact ⟨core, fun q hq hnw => hrem q hq hnw (by simp)⟩
  | cons nb rest ih =>
    intro opn gS came fp hnb core hrem
    have hnbmem : nb ∈ neighbors4 cur.x cur.y R C :=
      hnb nb (List.mem_cons_self nb rest)
    have hsub : ∀ b ∈ rest, b ∈ neighbors4 cur.x cur.y R C :=
      fun b hb => hnb b (List.mem_cons_of_mem nb hb)
    have hcons : manhattan cur goal ≤ stepCost grid nb + manhattan nb goal := by
      have := manhattan_consistent grid goal hnbmem
      have heta : (⟨cur.x, cur.y⟩ : Point) = cur := rfl
      rw [heta] at this
      exact this
    rw [astarRelax]
    split
    · next hwall =>
      apply ih _ _ _ _ hsub core
      intro q hq hnw hqr
      by_cases hqnb : q = nb
      · subst hqnb; exact absurd hwall hnw
      · exact hrem q hq hnw (by simp [hqnb, hqr])
    · next hnw =>
      split
      · next heq =>
        rw [core.curG] at heq
        cases heq
      · next gc heq =>
        have hgc : gcur = gc := by
          rw [core.curG] at heq
          injection heq
        subst hgc
        split
        · next hrc =>
          have hnbclosed : nb ∉ closed := by
            intro hc
            obtain ⟨v, hv, _⟩ := core.closedExact nb hc
            have hlt := relaxCond_some_true hv hrc
            have hle := core.closedLeF nb hc v hv
            omega
          have hfind : ∀ p, p ≠ nb →
              assocFind ((nb, gcur + stepCost grid nb) :: gS) p
                = assocFind gS p := by
            intro p hp
            exact assocFind_cons_ne gS _ (fun hc => hp hc.symm)
          have hfindnb : assocFind ((nb, gcur + stepCost grid nb) :: gS) nb
              = some (gcur + stepCost grid nb) := assocFind_cons_self gS nb _
          obtain ⟨i1, i2, i3, i4, i5⟩ :=
            upsertRecA_spec (mkANode goal nb (gcur + stepCost grid nb)) opn
              core.openNodup
          rw [frontierUpsertA_eq_upsertRecA]
          have hnbcur : nb ≠ cur := by
            have := neighbors4_ne_self hnbmem
            intro hc
            exact this (by rw [hc])
          have hnbstart : nb ≠ start := by
            intro hc
            subst hc
            have := relaxCond_some_true core.startG hrc
            omega
          have hndp : (mkANode goal nb (gcur + stepCost grid nb)).p = nb := rfl
          have core2 : ACore grid R C start goal closed cur gcur
              (upsertRecA opn (mkANode goal nb (gcur + stepCost grid nb)))
              ((nb, gcur + stepCost grid nb) :: gS) := by
            constructor
            · exact i4
            · intro e he
              rcases i1 e he with ⟨h1, h2⟩ | h3
              · rw [hfind e.p (by rw [← hndp] at h2; exact h2)]
                exact core.openG e h1
              · subst h3
                exact hfindnb
            · intro e he
              rcases i1 e he with ⟨h1, _⟩ | h3
              · exact core.openH e h1
              · subst h3
                rfl
            · intro e he
              rcases i1 e he with ⟨h1, _⟩ | h3
              · exact core.openF e h1
              · subst h3
                rfl
            · intro p v hv
              by_cases hp : p = nb
              · subst hp
                exact Or.inr ((i5 p).mpr (Or.inr rfl))
              · rw [hfind p hp] at hv
                rcases core.gDefined p v hv with h1 | h2
                · exact Or.inl h1
                · exact Or.inr ((i5 p).mpr (Or.inl h2))
            · intro e he
              rcases i1 e he with ⟨h1, _⟩ | h3
              · exact core.openNotClosed e h1
              · subst h3
                exact hnbclosed
            · intro p v hv
              by_cases hp : p = nb
              · subst hp
                rw [hfindnb] at hv
                cases hv
                exact PathTo.snoc (core.sound cur gcur core.curG) hnbmem hnw
              · rw [hfind p hp] at hv
                exact core.sound p v hv
            · intro p hp
              obtain ⟨v, hv, hmc⟩ := core.closedExact p hp
              have hpnb : p ≠ nb := fun hc => hnbclosed (hc ▸ hp)
              exact ⟨v, by rw [hfind p hpnb]; exact hv, hmc⟩
            · intro p hp e he v hv
              have hpnb : p ≠ nb := fun hc => hnbclosed (hc ▸ hp)
              rw [hfind p hpnb] at hv
              rcases i1 e he with ⟨h1, _⟩ | h3
              · exact core.closedMinF p hp e h1 v hv
              · subst h3
                have h4 := core.closedLeF p hp v hv
                show v + manhattan p goal ≤
                  gcur + stepCost grid nb + manhattan nb goal
                omega
            · rw [hfind start hnbstart.symm]
              exact core.startG
            · intro p v hv
              by_cases hp : p = nb
              · subst hp
                exact neighbors4_bounds hcx hcy hnbmem
              · rw [hfind p hp] at hv
                exact core.inBounds p v hv
            · rw [hfind cur (fun hc => hnbcur hc.symm)]
              exact core.curG
            · intro e he
              rcases i1 e he with ⟨h1, _⟩ | h3
              · exact core.curMinF e h1
              · subst h3
                show gcur + manhattan cur goal ≤
                  gcur + stepCost grid nb + manhattan nb goal
                omega
            · intro p hp v hv
              have hpnb : p ≠ nb := fun hc => hnbclosed (hc ▸ hp)
              rw [hfind p hpnb] at hv
              exact core.closedLeF p hp v hv
            · intro p hp hpcur q hq hnw2
              obtain ⟨w, vp, hw, hvp, hle⟩ :=
                core.oldBoundary p hp hpcur q hq hnw2
              have hpnb : p ≠ nb := fun hc => hnbclosed (hc ▸ hp)
              refine ⟨?_, vp, ?_, by rw [hfind p hpnb]; exact hvp, ?_⟩
              · exact if q = nb then gcur + stepCost grid nb else w
              · by_cases hqnb : q = nb
                · simp only [hqnb, if_pos rfl]
                  exact hfindnb
                · simp only [if_neg hqnb]
                  rw [hfind q hqnb]
                  exact hw
              · by_cases hqnb : q = nb
                · simp only [if_pos hqnb]
                  have hlt := relaxCond_some_true (hqnb ▸ hw) hrc
                  subst hqnb
                  omega
                · simp only [if_neg hqnb]
                  exact hle
          apply ih _ _ _ _ hsub core2
          intro q hq hnw2 hqr
          by_cases hqnb : q = nb
          · subst hqnb
            exact ⟨gcur + stepCost grid q, hfindnb, le_refl _⟩
          · obtain ⟨w, hw, hwle⟩ := hrem q hq hnw2 (by simp [hqnb, hqr])
            exact ⟨w, by rw [hfind q hqnb]; exact hw, hwle⟩
        · next hrc =>
          have hrcf : relaxCond gS nb (gcur + stepCost grid nb) = false := by
            rcases Bool.eq_false_or_eq_true
              (relaxCond gS nb (gcur + stepCost grid nb)) with h | h
            · exact absurd h hrc
            · exact h
          obtain ⟨gn, hgn, hgnle⟩ := relaxCond_false hrcf
          apply ih _ _ _ _ hsub core
          intro q hq hnw2 hqr
          by_cases hqnb : q = nb
          · subst hqnb
            exact ⟨gn, hgn, by omega⟩
          · exact hrem q hq hnw2 (by simp [hqnb, hqr])

/-- The A* loop invariant. -/
structure AInv (grid : Grid) (R C : Nat) (start goal : Point)
    (st : AStarState) : Prop where
  openNodup : (st.openList.map (fun e => e.p)).Nodup
  openG : ∀ e ∈ st.openList, assocFind st.gScore e.p = some e.g
  openH : ∀ e ∈ st.openList, e.h = manhattan e.p goal
  openF : ∀ e ∈ st.openList, e.f = e.g + e.h
  gDefined : ∀ p v, assocFind st.gScore p = some v →
    p ∈ st.visitedOrder ∨ p ∈ st.openList.map (fun e => e.p)
  openNotClosed : ∀ e ∈ st.openList, e.p ∉ st.visitedOrder
  closedNodup : st.visitedOrder.Nodup
  sound : ∀ p v, assocFind st.gScore p = some v → PathTo grid R C start p v
  closedExact : ∀ p ∈ st.visitedOrder, ∃ v, assocFind st.gScore p = some v ∧
    IsMinCost grid R C start p v
  closedMinF : ∀ p ∈ st.visitedOrder, ∀ e ∈ st.openList, ∀ v,
    assocFind st.gScore p = some v → v + manhattan p goal ≤ e.f
  startG : assocFind st.gScore start = some 0
  inBounds : ∀ p v, assocFind st.gScore p = some v → p.x < R ∧ p.y < C
  boundary : ∀ p ∈ st.visitedOrder, ∀ q ∈ neighbors4 p.x p.y R C,
    cellAt grid q.x q.y ≠ CellType.wall →
    ∃ w vp, assocFind st.gScore q = some w ∧ assocFind st.gScore p = some vp ∧
      w ≤ vp + stepCost grid q

theorem astar_path_open_bound {grid : Grid} {R C : Nat} {start goal : Point}
    {st : AStarState} (inv : AInv grid R C start goal st) :
    ∀ {p : Point} {D : Nat}, PathTo grid R C start p D →
    p ∉ st.visitedOrder →
    ∃ e ∈ st.openList, ∃ D1 D2, e.g ≤ D1 ∧ PathTo grid R C e.p p D2 ∧
      D1 + D2 = D := by
  intro p D hpath
  induction hpath with
  | nil =>
    intro hns
    rcases inv.gDefined start 0 inv.startG with h1 | h2
    · exact absurd h1 hns
    · obtain ⟨e, he, heq⟩ := List.mem_map.mp h2
      have hg := inv.openG e he
      rw [heq, inv.startG] at hg
      have he2 : e.g = 0 := by injection hg with h; exact h.symm
      refine ⟨e, he, 0, 0, by omega, ?_, rfl⟩
      rw [heq]
      exact PathTo.nil
  | @snoc q r c hq hnb hnw ihq =>
    intro hns
    by_cases hqc : q ∈ st.visitedOrder
    · obtain ⟨w, vq, hw, hvq, hle⟩ := inv.boundary q hqc r hnb hnw
      obtain ⟨vq2, hvq2, hmc⟩ := inv.closedExact q hqc
      have hveq : vq = vq2 := by rw [hvq] at hvq2; injection hvq2
      have hvqle : vq ≤ c := hveq ▸ hmc.2 c hq
      rcases inv.gDefined r w hw with h1 | h2
      · exact absurd h1 hns
      · obtain ⟨e, he, heq⟩ := List.mem_map.mp h2
        have hg := inv.openG e he
        rw [heq, hw] at hg
        have he2 : e.g = w := by injection hg with h; exact h.symm
        refine ⟨e, he, c + stepCost grid r, 0, by omega, ?_, by omega⟩
        rw [heq]
        exact PathTo.nil
    · obtain ⟨e, he, D1, D2, h1, h2, h3⟩ := ihq hqc
      exact ⟨e, he, D1, D2 + stepCost grid r, h1,
        PathTo.snoc h2 hnb hnw, by omega⟩

/-- What popping the minimum-f entry guarantees: the node is new, its g
value is the exact minimal cost, and its f value is at most D + h(t) for
every walk of cost D to every not-yet-expanded point t. -/
theorem astar_pop_spec {grid : Grid} {R C : Nat} {start goal : Point}
    {st : AStarState} (inv : AInv grid R C start goal st)
    {node : ANode} {orest : List ANode}
    (hpop : extractMin (fun n => n.f) st.openList = some (node, orest)) :
    node.p ∉ st.visitedOrder ∧
    IsMinCost grid R C start node.p node.g ∧
    assocFind st.gScore node.p = some node.g ∧
    (∀ t D, PathTo grid R C start t D → t ∉ st.visitedOrder →
      node.g + manhattan node.p goal ≤ D + manhattan t goal) := by
  have hmem := extractMin_mem hpop
  have hmin := (extractMin_spec hpop).2
  have hnotc := inv.openNotClosed node hmem
  have hfind := inv.openG node hmem
  have hnf : node.f = node.g + manhattan node.p goal := by
    rw [inv.openF node hmem, inv.openH node hmem]
  have hbound : ∀ t D, PathTo grid R C start t D → t ∉ st.visitedOrder →
      node.g + manhattan node.p goal ≤ D + manhattan t goal := by
    intro t D hpath hnt
    obtain ⟨e, he, D1, D2, h1, h2, h3⟩ := astar_path_open_bound inv hpath hnt
    have hef : e.f = e.g + manhattan e.p goal := by
      rw [inv.openF e he, inv.openH e he]
    have htel : manhattan e.p goal ≤ D2 + manhattan t goal :=
      manhattan_pathTo goal h2
    have hlef := hmin e he
    rw [hnf, hef] at hlef
    omega
  refine ⟨hnotc, ⟨inv.sound _ _ hfind, ?_⟩, hfind, hbound⟩
  intro c2 h2
  have := hbound node.p c2 h2 hnotc
  omega

/-- Popping the minimum-f entry and relaxing its neighbors re-establishes
the A* loop invariant with the popped node appended to the visit log. -/
theorem astar_next_inv {grid : Grid} {R C : Nat} {start goal : Point}
    {st : AStarState} (inv : AInv grid R C start goal st)
    {node : ANode} {orest : List ANode}
    (hpop : extractMin (fun n => n.f) st.openList = some (node, orest))
    (st2 : AStarState)
    (ho : st2.openList = (astarRelax grid goal node.p
      (neighbors4 node.p.x node.p.y R C) orest st.gScore st.cameFrom
      st.frontierPeak).1)
    (hg : st2.gScore = (astarRelax grid goal node.p
      (neighbors4 node.p.x node.p.y R C) orest st.gScore st.cameFrom
      st.frontierPeak).2.1)
    (hv : st2.visitedOrder = st.visitedOrder ++ [node.p]) :
    AInv grid R C start goal st2 := by
  obtain ⟨hnotc, hexact, hfind, hbound⟩ := astar_pop_spec inv hpop
  have hmem := extractMin_mem hpop
  have hperm := (extractMin_spec hpop).1
  have hmin := (extractMin_spec hpop).2
  have hsubset := extractMin_subset hpop
  have hmapnd : (node.p :: orest.map (fun e => e.p)).Nodup := by
    have := (hperm.map (fun e => e.p)).nodup_iff.mp inv.openNodup
    simpa using this
  have hbx := inv.inBounds node.p node.g hfind
  have hnf : node.f = node.g + manhattan node.p goal := by
    rw [inv.openF node hmem, inv.openH node hmem]
  have hclosed2 : ∀ p, p ∈ st.visitedOrder ++ [node.p] ↔
      p ∈ st.visitedOrder ∨ p = node.p := by
    intro p; simp
  have core : ACore grid R C start goal (st.visitedOrder ++ [node.p])
      node.p node.g orest st.gScore := by
    constructor
    · exact hmapnd.of_cons
    · exact fun e he => inv.openG e (hsubset e he)
    · exact fun e he => inv.openH e (hsubset e he)
    · exact fun e he => inv.openF e (hsubset e he)
    · intro p v hv2
      rcases inv.gDefined p v hv2 with h1 | h2
      · exact Or.inl ((hclosed2 p).mpr (Or.inl h1))
      · have hpm : p ∈ (node :: orest).map (fun e => e.p) :=
          (hperm.map (fun e => e.p)).mem_iff.mp h2
        rcases List.mem_cons.mp hpm with h3 | h4
        · exact Or.inl ((hclosed2 p).mpr (Or.inr h3))
        · exact Or.inr h4
    · intro e he hc
      rcases (hclosed2 e.p).mp hc with h1 | h2
      · exact inv.openNotClosed e (hsubset e he) h1
      · have : node.p ∈ orest.map (fun e => e.p) :=
          h2 ▸ List.mem_map_of_mem _ he
        exact (List.nodup_cons.mp hmapnd).1 this
    · exact inv.sound
    · intro p hp
      rcases (hclosed2 p).mp hp with h1 | h2
      · exact inv.closedExact p h1
      · subst h2
        exact ⟨node.g, hfind, hexact⟩
    · intro p hp e he v hv2
      have hef : e.f = e.g + manhattan e.p goal := by
        rw [inv.openF e (hsubset e he), inv.openH e (hsubset e he)]
      rcases (hclosed2 p).mp hp with h1 | h2
      · exact inv.closedMinF p h1 e (hsubset e he) v hv2
      · subst h2
        rw [hfind] at hv2
        have hveq : node.g = v := by injection hv2
        have := hmin e (hsubset e he)
        rw [hnf, hef] at this
        rw [← hveq]
        rw [hef]
        omega
    · exact inv.startG
    · exact inv.inBounds
    · exact hfind
    · intro e he
      have hef : e.f = e.g + manhattan e.p goal := by
        rw [inv.openF e (hsubset e he), inv.openH e (hsubset e he)]
      have := hmin e (hsubset e he)
      rw [hnf] at this
      exact this
    · intro p hp v hv2
      rcases (hclosed2 p).mp hp with h1 | h2
      · have := inv.closedMinF p h1 node hmem v hv2
        rw [hnf] at this
        exact this
      · subst h2
        rw [hfind] at hv2
        have hveq : node.g = v := by injection hv2
        omega
    · intro p hp hne q hq hnw
      rcases (hclosed2 p).mp hp with h1 | h2
      · exact inv.boundary p h1 q hq hnw
      · exact absurd h2 hne
  obtain ⟨core2, curbd⟩ := astarRelax_spec grid R C start goal
    (st.visitedOrder ++ [node.p]) node.p node.g hbx.1 hbx.2
    (neighbors4 node.p.x node.p.y R C) orest st.gScore st.cameFrom
    st.frontierPeak (fun b hb => hb) core
    (fun q hq _ hqn => absurd hq hqn)
  constructor
  · rw [ho]; exact core2.openNodup
  · intro e he
    rw [hg]
    rw [ho] at he
    exact core2.openG e he
  · intro e he
    rw [ho] at he
    exact core2.openH e he
  · intro e he
    rw [ho] at he
    exact core2.openF e he
  · intro p v hv2
    rw [hg] at hv2
    rw [hv, ho]
    exact core2.gDefined p v hv2
  · intro e he
    rw [ho] at he
    rw [hv]
    exact core2.openNotClosed e he
  · rw [hv]
    refine List.Nodup.append inv.closedNodup (by simp) ?_
    intro a ha hb
    simp only [List.mem_singleton] at hb
    subst hb
    exact hnotc ha
  · intro p v hv2
    rw [hg] at hv2
    exact core2.sound p v hv2
  · intro p hp
    rw [hv] at hp
    obtain ⟨v, h1, h2⟩ := core2.closedExact p hp
    exact ⟨v, by rw [hg]; exact h1, h2⟩
  · intro p hp e he v hv2
    rw [hv] at hp
    rw [ho] at he
    rw [hg] at hv2
    exact core2.closedMinF p hp e he v hv2
  · rw [hg]; exact core2.startG
  · intro p v hv2
    rw [hg] at hv2
    exact core2.inBounds p v hv2
  · intro p hp q hq hnw
    rw [hv] at hp
    by_cases hpn : p = node.p
    · subst hpn
      obtain ⟨w, hw, hwle⟩ := curbd q hq hnw
      exact ⟨w, node.g, by rw [hg]; exact hw, by rw [hg]; exact core2.curG,
        hwle⟩
    · obtain ⟨w, vp, hw, hvp, hwle⟩ := core2.oldBoundary p hp hpn q hq hnw
      exact ⟨w, vp, by rw [hg]; exact hw, by rw [hg]; exact hvp, hwle⟩

theorem aInv_closed_bounded {grid : Grid} {R C : Nat} {start goal : Point}
    {st : AStarState} (inv : AInv grid R C start goal st) :
    st.visitedOrder.length ≤ R * C := by
  apply nodup_bounded_length inv.closedNodup
  intro p hp
  obtain ⟨v, hv, _⟩ := inv.closedExact p hp
  exact inv.inBounds p v hv

/-- With an empty frontier every reachable point has been expanded by A*. -/
theorem aInv_all_closed {grid : Grid} {R C : Nat} {start goal : Point}
    {st : AStarState} (inv : AInv grid R C start goal st)
    (hempty : st.openList = []) :
    ∀ p c, PathTo grid R C start p c → p ∈ st.visitedOrder := by
  intro p c hpath
  induction hpath with
  | nil =>
    rcases inv.gDefined start 0 inv.startG with h | h
    · exact h
    · rw [hempty] at h; simp at h
  | @snoc q r c2 hq hnb hnw ihq =>
    obtain ⟨w, vq, hw, _, _⟩ := inv.boundary q ihq r hnb hnw
    rcases inv.gDefined r w hw with h | h
    · exact h
    · rw [hempty] at h; simp at h

/-- When the goal is reachable, the A* loop reports found with the exact
minimal cost as totalCost. -/
theorem astarLoop_found (grid : Grid) (R C : Nat) (start goal : Point)
    (hreach : Reaches grid R C start goal) :
    ∀ (fuel : Nat) (st : AStarState),
    AInv grid R C start goal st →
    goal ∉ st.visitedOrder →
    R * C + 1 ≤ fuel + st.visitedOrder.length →
    (astarLoop grid R C goal fuel st).found = true ∧
    IsMinCost grid R C start goal
      (astarLoop grid R C goal fuel st).totalCost := by
  intro fuel
  induction fuel with
  | zero =>
    intro st inv hgnot hfuel
    exfalso
    have := aInv_closed_bounded inv
    omega
  | succ n ih =>
    intro st inv hgnot hfuel
    rw [astarLoop]
    cases hqe : extractMin (fun n => n.f) st.openList with
    | none =>
      exfalso
      obtain ⟨cg, hpathg⟩ := hreach
      exact hgnot (aInv_all_closed inv ((extractMin_none _ _).mp hqe)
        goal cg hpathg)
    | some pr =>
      obtain ⟨node, orest⟩ := pr
      obtain ⟨hnotc, hexact, hfind, hbound⟩ := astar_pop_spec inv hqe
      by_cases hng : node.p = goal
      · simp only [hng, if_pos rfl]
        refine ⟨rfl, ?_⟩
        have hfg : assocFind st.gScore goal = some node.g := hng ▸ hfind
        show IsMinCost grid R C start goal
          ((assocFind st.gScore goal).getD 0)
        rw [hfg]
        exact hng ▸ hexact
      · simp only [if_neg hng]
        apply ih
        · exact astar_next_inv inv hqe _ rfl rfl rfl
        · intro hc
          rcases List.mem_append.mp hc with h1 | h2
          · exact hgnot h1
          · simp only [List.mem_singleton] at h2
            exact hng h2.symm
        · simp only [List.length_append, List.length_cons, List.length_nil]
          omega

/-- When the goal is unreachable, the A* loop drains its frontier and its
visit log enumerates exactly the reachable points, without duplicates. -/
theorem astarLoop_exhaust (grid : Grid) (R C : Nat) (start goal : Point)
    (hgoal : ¬ Reaches grid R C start goal) :
    ∀ (fuel : Nat) (st : AStarState),
    AInv grid R C start goal st →
    R * C + 1 ≤ fuel + st.visitedOrder.length →
    (astarLoop grid R C goal fuel st).found = false ∧
    (astarLoop grid R C goal fuel st).path = [] ∧
    (astarLoop grid R C goal fuel st).visitedOrder.Nodup ∧
    (∀ p, p ∈ (astarLoop grid R C goal fuel st).visitedOrder ↔
      Reaches grid R C start p) := by
  intro fuel
  induction fuel with
  | zero =>
    intro st inv hfuel
    exfalso
    have := aInv_closed_bounded inv
    omega
  | succ n ih =>
    intro st inv hfuel
    rw [astarLoop]
    cases hqe : extractMin (fun n => n.f) st.openList with
    | none =>
      refine ⟨rfl, rfl, inv.closedNodup, ?_⟩
      intro p
      show p ∈ st.visitedOrder ↔ _
      constructor
      · intro hp
        obtain ⟨v, hv, _⟩ := inv.closedExact p hp
        exact ⟨v, inv.sound p v hv⟩
      · rintro ⟨c, hpath⟩
        exact aInv_all_closed inv ((extractMin_none _ _).mp hqe) p c hpath
    | some pr =>
      obtain ⟨node, orest⟩ := pr
      obtain ⟨hnotc, hexact, hfind, hbound⟩ := astar_pop_spec inv hqe
      have hng : ¬ (node.p = goal) := by
        intro hc
        exact hgoal (hc ▸ ⟨node.g, inv.sound _ _ hfind⟩)
      simp only [if_neg hng]
      apply ih
      · exact astar_next_inv inv hqe _ rfl rfl rfl
      · simp only [List.length_append, List.length_cons, List.length_nil]
        omega

/-- When the goal is reachable with minimal cost cg, every point A*
expands is either the goal itself or admits a walk of cost strictly below
cg, and the visit log stays duplicate-free. -/
theorem astarLoop_strict (grid : Grid) (R C : Nat) (start goal : Point)
    (cg : Nat) (hcg : IsMinCost grid R C start goal cg)
    (hreach : Reaches grid R C start goal) :
    ∀ (fuel : Nat) (st : AStarState),
    AInv grid R C start goal st →
    goal ∉ st.visitedOrder →
    R * C + 1 ≤ fuel + st.visitedOrder.length →
    (astarLoop grid R C goal fuel st).visitedOrder.Nodup ∧
    (∀ p ∈ (astarLoop grid R C goal fuel st).visitedOrder,
      p ∈ st.visitedOrder ∨ p = goal ∨
      ∃ cp, PathTo grid R C start p cp ∧ cp < cg) := by
  intro fuel
  induction fuel with
  | zero =>
    intro st inv hgnot hfuel
    exfalso
    have := aInv_closed_bounded inv
    omega
  | succ n ih =>
    intro st inv hgnot hfuel
    rw [astarLoop]
    cases hqe : extractMin (fun n => n.f) st.openList with
    | none =>
      exfalso
      obtain ⟨cg2, hpathg⟩ := hreach
      exact hgnot (aInv_all_closed inv ((extractMin_none _ _).mp hqe)
        goal cg2 hpathg)
    | some pr =>
      obtain ⟨node, orest⟩ := pr
      obtain ⟨hnotc, hexact, hfind, hbound⟩ := astar_pop_spec inv hqe
      by_cases hng : node.p = goal
      · simp only [hng, if_pos rfl]
        constructor
        · show (st.visitedOrder ++ [goal]).Nodup
          refine List.Nodup.append inv.closedNodup (by simp) ?_
          intro a ha hb
          simp only [List.mem_singleton] at hb
          subst hb
          exact hgnot ha
        · intro p hp
          rcases List.mem_append.mp hp with h1 | h2
          · exact Or.inl h1
          · simp only [List.mem_singleton] at h2
            exact Or.inr (Or.inl h2)
      · simp only [if_neg hng]
        have hstrict : node.g < cg := by
          have hb := hbound goal cg hcg.1 hgnot
          have hzero : manhattan goal goal = 0 :=
            manhattan_eq_zero_iff.mpr rfl
          have hpos : 0 < manhattan node.p goal :=
            Nat.pos_of_ne_zero
              (fun hc => hng (manhattan_eq_zero_iff.mp hc))
          omega
        have hgnot2 : goal ∉ st.visitedOrder ++ [node.p] := by
          intro hc
          rcases List.mem_append.mp hc with h1 | h2
          · exact hgnot h1
          · simp only [List.mem_singleton] at h2
            exact hng h2.symm
        have hfuel2 : R * C + 1 ≤ n + (st.visitedOrder ++ [node.p]).length := by
          simp only [List.length_append, List.length_cons, List.length_nil]
          omega
        obtain ⟨c1, c2⟩ :=
          ih { openList := (astarRelax grid goal node.p
                  (neighbors4 node.p.x node.p.y R C) orest st.gScore
                  st.cameFrom st.frontierPeak).1,
               gScore := (astarRelax grid goal node.p
                  (neighbors4 node.p.x node.p.y R C) orest st.gScore
                  st.cameFrom st.frontierPeak).2.1,
               cameFrom := (astarRelax grid goal node.p
                  (neighbors4 node.p.x node.p.y R C) orest st.gScore
                  st.cameFrom st.frontierPeak).2.2.1,
               visitedOrder := st.visitedOrder ++ [node.p],
               frontierPeak := (astarRelax grid goal node.p
                  (neighbors4 node.p.x node.p.y R C) orest st.gScore
                  st.cameFrom st.frontierPeak).2.2.2,
               visitedPeak := max st.visitedPeak
                  (st.visitedOrder ++ [node.p]).length,
               frontierSnapshots := st.frontierSnapshots ++ [(astarRelax grid
                  goal node.p (neighbors4 node.p.x node.p.y R C) orest
                  st.gScore st.cameFrom st.frontierPeak).1.map (fun n => n.p)] }
            (astar_next_inv inv hqe _ rfl rfl rfl) hgnot2 hfuel2
        refine ⟨c1, ?_⟩
        intro p hp
        rcases c2 p hp with h1 | h2 | h3
        · rcases List.mem_append.mp h1 with ha | hb
          · exact Or.inl ha
          · simp only [List.mem_singleton] at hb
            subst hb
            exact Or.inr (Or.inr ⟨node.g, hexact.1, hstrict⟩)
        · exact Or.inr (Or.inl h2)
        · exact Or.inr (Or.inr h3)

/-! ### Top-level bridges: seeding the UCS and A* invariants -/

/-- The state UCS is seeded with satisfies the loop invariant. -/
theorem ucsInit_inv (grid : Grid) (R C : Nat) (start : Point)
    (hsx : start.x < R) (hsy : start.y < C) :
    UcsInv grid R C start
      { openList := [(start, 0)], gScore := [(start, 0)], cameFrom := [],
        visitedOrder := [], frontierPeak := 1, visitedPeak := 0,
        frontierSnapshots := [] } := by
  constructor
  · simp
  · intro e he
    simp only [List.mem_singleton] at he
    subst he
    exact assocFind_cons_self _ _ _
  · intro p v hv
    obtain ⟨hp, _⟩ := assocFind_singleton hv
    subst hp
    exact Or.inr (by simp)
  · intro e he hc
    simp at hc
  · exact List.nodup_nil
  · intro p v hv
    obtain ⟨hp, hv0⟩ := assocFind_singleton hv
    subst hp; subst hv0
    exact PathTo.nil
  · intro p hp; simp at hp
  · intro p hp; simp at hp
  · exact assocFind_cons_self _ _ _
  · intro p v hv
    obtain ⟨hp, _⟩ := assocFind_singleton hv
    subst hp
    exact ⟨hsx, hsy⟩
  · intro p hp; simp at hp

/-- The state A* is seeded with satisfies the loop invariant. -/
theorem aInit_inv (grid : Grid) (R C : Nat) (start goal : Point)
    (hsx : start.x < R) (hsy : start.y < C) :
    AInv grid R C start goal
      { openList := [{ p := start, g := 0, h := manhattan start goal,
                       f := manhattan start goal }],
        gScore := [(start, 0)], cameFrom := [], visitedOrder := [],
        frontierPeak := 1, visitedPeak := 0, frontierSnapshots := [] } := by
  constructor
  · simp
  · intro e he
    simp only [List.mem_singleton] at he
    subst he
    exact assocFind_cons_self _ _ _
  · intro e he
    simp only [List.mem_singleton] at he
    subst he
    rfl
  · intro e he
    simp only [List.mem_singleton] at he
    subst he
    exact (Nat.zero_add _).symm
  · intro p v hv
    obtain ⟨hp, _⟩ := assocFind_singleton hv
    subst hp
    exact Or.inr (by simp)
  · intro e he hc
    simp at hc
  · exact List.nodup_nil
  · intro p v hv
    obtain ⟨hp, hv0⟩ := assocFind_singleton hv
    subst hp; subst hv0
    exact PathTo.nil
  · intro p hp; simp at hp
  · intro p hp; simp at hp
  · exact assocFind_cons_self _ _ _
  · intro p v hv
    obtain ⟨hp, _⟩ := assocFind_singleton hv
    subst hp
    exact ⟨hsx, hsy⟩
  · intro p hp; simp at hp

/-- UCS at the top level: on an in-bounds, wall-free instance with a
reachable goal it reports found with the minimal total cost. -/
theorem ucs_opt (grid : Grid) (start goal : Point)
    (hsx : start.x < grid.length) (hsy : start.y < cols grid)
    (hsw : cellAt grid start.x start.y ≠ CellType.wall)
    (hgw : cellAt grid goal.x goal.y ≠ CellType.wall)
    (hreach : Reaches grid grid.length (cols grid) start goal) :
    (ucs grid start goal).found = true ∧
    IsMinCost grid grid.length (cols grid) start goal
      (ucs grid start goal).totalCost := by
  have hR0 : ¬ (grid.length = 0 ∨ cols grid = 0) := by omega
  have hw : ¬ (cellAt grid start.x start.y = CellType.wall ∨
      cellAt grid goal.x goal.y = CellType.wall) := by
    rintro (h | h)
    · exact hsw h
    · exact hgw h
  simp only [ucs]
  rw [if_neg hR0, if_neg hw]
  exact ucsLoop_found grid grid.length (cols grid) start goal hreach _ _
    (ucsInit_inv grid grid.length (cols grid) start hsx hsy)
    (by simp) (by simp)

/-- A* at the top level: on an in-bounds, wall-free instance with a
reachable goal it reports found with the minimal total cost. -/
theorem astar_opt (grid : Grid) (start goal : Point)
    (hsx : start.x < grid.length) (hsy : start.y < cols grid)
    (hsw : cellAt grid start.x start.y ≠ CellType.wall)
    (hgw : cellAt grid goal.x goal.y ≠ CellType.wall)
    (hreach : Reaches grid grid.length (cols grid) start goal) :
    (astar grid start goal).found = true ∧
    IsMinCost grid grid.length (cols grid) start goal
      (astar grid start goal).totalCost := by
  have hR0 : ¬ (grid.length = 0 ∨ cols grid = 0) := by omega
  have hw : ¬ (cellAt grid start.x start.y = CellType.wall ∨
      cellAt grid goal.x goal.y = CellType.wall) := by
    rintro (h | h)
    · exact hsw h
    · exact hgw h
  simp only [astar]
  rw [if_neg hR0, if_neg hw]
  exact astarLoop_found grid grid.length (cols grid) start goal hreach _ _
    (aInit_inv grid grid.length (cols grid) start goal hsx hsy)
    (by simp) (by simp)

/-! ### Claims C2, C4 and C5 -/

/-- C2: on an in-bounds instance whose start and goal cells are not walls,
with start distinct from goal and the goal reachable through non-wall
cells, ucs and astar both report found=true, ucs's totalCost is the
minimum total cost over all 4-connected wall-free paths, and astar's
totalCost equals ucs's. -/
theorem claim_C2 (grid : Grid) (start goal : Point)
    (hsx : start.x < grid.length) (hsy : start.y < cols grid)
    (hsw : cellAt grid start.x start.y ≠ CellType.wall)
    (hgw : cellAt grid goal.x goal.y ≠ CellType.wall)
    (_hne : start ≠ goal)
    (hreach : Reaches grid grid.length (cols grid) start goal) :
    (ucs grid start goal).found = true ∧
    (astar grid start goal).found = true ∧
    IsMinCost grid grid.length (cols grid) start goal
      (ucs grid start goal).totalCost ∧
    (astar grid start goal).totalCost = (ucs grid start goal).totalCost := by
  obtain ⟨hu1, hu2⟩ := ucs_opt grid start goal hsx hsy hsw hgw hreach
  obtain ⟨ha1, ha2⟩ := astar_opt grid start goal hsx hsy hsw hgw hreach
  exact ⟨hu1, ha1, hu2, isMinCost_unique ha2 hu2⟩

theorem claim_C2_witness :
    (ucs [[CellType.empty, CellType.empty]] ⟨0, 0⟩ ⟨0, 1⟩).found = true ∧
    (astar [[CellType.empty, CellType.empty]] ⟨0, 0⟩ ⟨0, 1⟩).found = true ∧
    IsMinCost [[CellType.empty, CellType.empty]] 1 2 ⟨0, 0⟩ ⟨0, 1⟩
      (ucs [[CellType.empty, CellType.empty]] ⟨0, 0⟩ ⟨0, 1⟩).totalCost ∧
    (astar [[CellType.empty, CellType.empty]] ⟨0, 0⟩ ⟨0, 1⟩).totalCost =
      (ucs [[CellType.empty, CellType.empty]] ⟨0, 0⟩ ⟨0, 1⟩).totalCost :=
  claim_C2 [[CellType.empty, CellType.empty]] ⟨0, 0⟩ ⟨0, 1⟩ (by decide)
    (by decide) (by decide) (by decide) (by decide)
    ⟨0 + stepCost [[CellType.empty, CellType.empty]] ⟨0, 1⟩,
      PathTo.snoc PathTo.nil (by decide) (by decide)⟩

/-- C4: on an in-bounds instance whose start and goal cells are not walls
and whose goal is reachable, astar expands at most as many nodes as ucs. -/
theorem claim_C4 (grid : Grid) (start goal : Point)
    (hsx : start.x < grid.length) (hsy : start.y < cols grid)
    (hsw : cellAt grid start.x start.y ≠ CellType.wall)
    (hgw : cellAt grid goal.x goal.y ≠ CellType.wall)
    (hreach : Reaches grid grid.length (cols grid) start goal) :
    (astar grid start goal).nodesExpanded ≤
      (ucs grid start goal).nodesExpanded := by
  have hR0 : ¬ (grid.length = 0 ∨ cols grid = 0) := by omega
  have hw : ¬ (cellAt grid start.x start.y = CellType.wall ∨
      cellAt grid goal.x goal.y = CellType.wall) := by
    rintro (h | h)
    · exact hsw h
    · exact hgw h
  obtain ⟨cg, hcg⟩ := reaches_isMinCost hreach
  have hmu : (ucs grid start goal).nodesExpanded =
      (ucs grid start goal).visitedOrder.length :=
    (runAlgo_metrics Algo.ucs grid start goal).1
  have hma : (astar grid start goal).nodesExpanded =
      (astar grid start goal).visitedOrder.length :=
    (runAlgo_metrics Algo.astar grid start goal).1
  rw [hmu, hma]
  simp only [ucs, astar, if_neg hR0, if_neg hw]
  obtain ⟨hmono, hgmem, hstrict⟩ := ucsLoop_count grid grid.length (cols grid)
    start goal cg hcg hreach (grid.length * cols grid + 1)
    { openList := [(start, 0)], gScore := [(start, 0)], cameFrom := [],
      visitedOrder := [], frontierPeak := 1, visitedPeak := 0,
      frontierSnapshots := [] }
    (ucsInit_inv grid grid.length (cols grid) start hsx hsy)
    (by simp) (by simp)
  obtain ⟨hand, hamem⟩ := astarLoop_strict grid grid.length (cols grid)
    start goal cg hcg hreach (grid.length * cols grid + 1)
    { openList := [{ p := start, g := 0, h := manhattan start goal,
                     f := manhattan start goal }],
      gScore := [(start, 0)], cameFrom := [], visitedOrder := [],
      frontierPeak := 1, visitedPeak := 0, frontierSnapshots := [] }
    (aInit_inv grid grid.length (cols grid) start goal hsx hsy)
    (by simp) (by simp)
  apply List.Subperm.length_le
  apply List.subperm_of_subset hand
  intro p hp
  rcases hamem p hp with h1 | h2 | h3
  · simp at h1
  · subst h2
    exact hgmem
  · obtain ⟨cp, hpath, hlt⟩ := h3
    exact hstrict p cp hpath hlt

theorem claim_C4_witness :
    (astar [[CellType.empty, CellType.empty],
            [CellType.empty, CellType.empty]] ⟨0, 0⟩ ⟨1, 1⟩).nodesExpanded ≤
    (ucs [[CellType.empty, CellType.empty],
          [CellType.empty, CellType.empty]] ⟨0, 0⟩ ⟨1, 1⟩).nodesExpanded :=
  claim_C4 [[CellType.empty, CellType.empty],
            [CellType.empty, CellType.empty]] ⟨0, 0⟩ ⟨1, 1⟩ (by decide)
    (by decide) (by decide) (by decide)
    ⟨0 + stepCost [[CellType.empty, CellType.empty],
                   [CellType.empty, CellType.empty]] ⟨0, 1⟩ +
        stepCost [[CellType.empty, CellType.empty],
                  [CellType.empty, CellType.empty]] ⟨1, 1⟩,
      PathTo.snoc (PathTo.snoc PathTo.nil (by decide) (by decide))
        (by decide) (by decide)⟩

/-- All five algorithms drain their frontier on an unreachable instance:
found=false, empty path, and a duplicate-free visit log that enumerates
exactly the reachable component of the start. -/
theorem runAlgo_exhaust (a : Algo) (grid : Grid) (start goal : Point)
    (hsx : start.x < grid.length) (hsy : start.y < cols grid)
    (hsw : cellAt grid start.x start.y ≠ CellType.wall)
    (hgw : cellAt grid goal.x goal.y ≠ CellType.wall)
    (hne : start ≠ goal)
    (hunreach : ¬ Reaches grid grid.length (cols grid) start goal) :
    (runAlgo a grid start goal).found = false ∧
    (runAlgo a grid start goal).path = [] ∧
    (runAlgo a grid start goal).visitedOrder.Nodup ∧
    (∀ p, p ∈ (runAlgo a grid start goal).visitedOrder ↔
      Reaches grid grid.length (cols grid) start p) := by
  have hR0 : ¬ (grid.length = 0 ∨ cols grid = 0) := by omega
  have hw : ¬ (cellAt grid start.x start.y = CellType.wall ∨
      cellAt grid goal.x goal.y = CellType.wall) := by
    rintro (h | h)
    · exact hsw h
    · exact hgw h
  have hseen : ∀ p ∈ [start],
      Reaches grid grid.length (cols grid) start p ∧
      cellAt grid p.x p.y ≠ CellType.wall ∧
      p.x < grid.length ∧ p.y < cols grid := by
    intro p hp
    simp only [List.mem_singleton] at hp
    subst hp
    exact ⟨reaches_refl grid grid.length (cols grid) p, hsw, hsx, hsy⟩
  cases a with
  | bfs =>
    simp only [runAlgo, bfs]
    rw [if_neg hR0, if_neg hne, if_neg hw]
    exact bfsLoop_exhaust grid grid.length (cols grid) start goal hunreach _ _
      (by simp) (fun p hp => hp) (by simp) hseen
      (by intro v hv; simp at hv) (by simp) (by simp)
  | dfs =>
    simp only [runAlgo, dfs]
    rw [if_neg hR0, if_neg hw]
    exact dfsLoop_exhaust grid grid.length (cols grid) start goal hunreach _ _
      (by simp) (fun p hp => hp) (by simp) hseen
      (by intro v hv; simp at hv) (by simp) (by simp)
  | ucs =>
    simp only [runAlgo, ucs]
    rw [if_neg hR0, if_neg hw]
    exact ucsLoop_exhaust grid grid.length (cols grid) start goal hunreach _ _
      (ucsInit_inv grid grid.length (cols grid) start hsx hsy) (by simp)
  | greedy =>
    simp only [runAlgo, greedy]
    rw [if_neg hR0, if_neg hw]
    exact greedyLoop_exhaust grid grid.length (cols grid) start goal hunreach
      _ _ (by simp) (by simp) (by simp) hseen
      (by intro v hv; simp at hv) (by simp) (by simp)
  | astar =>
    simp only [runAlgo, astar]
    rw [if_neg hR0, if_neg hw]
    exact astarLoop_exhaust grid grid.length (cols grid) start goal hunreach
      _ _ (aInit_inv grid grid.length (cols grid) start goal hsx hsy)
      (by simp)

/-- C5: on an in-bounds instance whose start and goal cells are not walls,
with start distinct from goal and the goal unreachable through non-wall
cells, every algorithm returns found=false, path=[], and nodesExpanded
equal to the size of the reachable component containing start. -/
theorem claim_C5 (a : Algo) (grid : Grid) (start goal : Point)
    (hsx : start.x < grid.length) (hsy : start.y < cols grid)
    (hsw : cellAt grid start.x start.y ≠ CellType.wall)
    (hgw : cellAt grid goal.x goal.y ≠ CellType.wall)
    (hne : start ≠ goal)
    (hunreach : ¬ Reaches grid grid.length (cols grid) start goal) :
    (runAlgo a grid start goal).found = false ∧
    (runAlgo a grid start goal).path = [] ∧
    (runAlgo a grid start goal).nodesExpanded =
      (reachList grid grid.length (cols grid) start).length := by
  obtain ⟨h1, h2, h3, h4⟩ :=
    runAlgo_exhaust a grid start goal hsx hsy hsw hgw hne hunreach
  obtain ⟨hrl1, hrl2⟩ :=
    reachList_spec grid grid.length (cols grid) start hsx hsy
  refine ⟨h1, h2, ?_⟩
  rw [(runAlgo_metrics a grid start goal).1]
  exact nodup_length_eq_of_mem_iff h3 hrl1
    (fun p => (h4 p).trans ((hrl2 p).symm))

theorem claim_C5_witness :
    (runAlgo Algo.bfs [[CellType.empty, CellType.wall, CellType.empty]]
       ⟨0, 0⟩ ⟨0, 2⟩).found = false ∧
    (runAlgo Algo.bfs [[CellType.empty, CellType.wall, CellType.empty]]
       ⟨0, 0⟩ ⟨0, 2⟩).path = [] ∧
    (runAlgo Algo.bfs [[CellType.empty, CellType.wall, CellType.empty]]
       ⟨0, 0⟩ ⟨0, 2⟩).nodesExpanded =
      (reachList [[CellType.empty, CellType.wall, CellType.empty]] 1 3
        ⟨0, 0⟩).length :=
  claim_C5 Algo.bfs [[CellType.empty, CellType.wall, CellType.empty]]
    ⟨0, 0⟩ ⟨0, 2⟩ (by decide) (by decide) (by decide) (by decide) (by decide)
    (fun hr => absurd
      (((reachList_spec [[CellType.empty, CellType.wall, CellType.empty]]
        1 3 ⟨0, 0⟩ (by decide) (by decide)).2 ⟨0, 2⟩).mpr hr)
      (by decide))

end DemoSearch
